import Mathlib

set_option autoImplicit false

/-!
Verification of the deep clone engine of pivanov-utils
(`src/tools/deepClone.ts`).

The engine is embedded shallowly: JavaScript values become `JSValue`,
composite values live in an explicit heap of `HObject` nodes keyed by
addresses, and `internalDeepClone` is the fuel-indexed translation of the
recursive function of the same name.  The `WeakMap` of already-cloned
nodes is the `seen` association list in `State`; `deepClone` calls the
worker with an empty map, exactly like the source.

Modelling conventions:
* JS numbers are opaque to the clone engine except for the integer byte
  offsets and lengths of buffers, so they are embedded as `Int`.
* Functions and symbols are opaque identities (`vfunc`/`vsym`); the clone
  engine only moves them around.
* Getter/setter functions are function identities together with a backing
  description supplied by the environment (`AccessorBacking`): either an
  own field of the receiver (`this`-backed) or a shared mutable cell
  (closure-backed).  The engine itself only ever reads properties when the
  duck-typed buffer-like branch extracts its fields; `applyGetter` models
  that read.
* `Buffer.isBuffer` is the runtime capability probe.  Its behaviour is an
  environment parameter `ProbeMode`: absent (`typeof Buffer ===
  'undefined'`), functioning, or throwing an `Error` / a non-`Error`
  value, mirroring lines 87-98 of the source.
* Prototype objects of class instances are opaque ids carrying no tracked
  own properties, so the `'buffer' in obj` membership test of the
  duck-typed branch inspects own keys.
* The manually unrolled 8-at-a-time loops of the source are embedded as
  plain left-to-right folds, which compute the same result in the same
  order.
-/

namespace DeepCloneModel

/-- A JavaScript value: primitives are immediate, composite values are
heap references.  `typeof` of every constructor except `vref` is not
`'object'` (or the value is `null`), so they all take the primitive fast
path of the engine. -/
inductive JSValue where
  | vundefined
  | vnull
  | vbool (b : Bool)
  | vnum (n : Int)
  | vstr (s : String)
  | vsym (id : Nat)
  | vbig (n : Int)
  | vfunc (id : Nat)
  | vref (a : Nat)
  deriving DecidableEq, Repr

/-- An own-property key: string or symbol. -/
inductive PropKey where
  | str (s : String)
  | sym (id : Nat)
  deriving DecidableEq, Repr

/-- A property descriptor: a data property with its value and flags, or an
accessor property holding optional getter/setter function identities. -/
inductive Desc where
  | data (value : JSValue) (writable enumerable configurable : Bool)
  | accessor (get set : Option Nat) (enumerable configurable : Bool)
  deriving DecidableEq, Repr

/-- Element kind of a typed view over a buffer (including Node `Buffer`,
which is a `Uint8Array` subclass, and `DataView`). -/
inductive TAKind where
  | int8 | uint8 | uint8c | int16 | uint16 | int32 | uint32
  | f32 | f64 | bigI64 | bigU64 | dataview | nodeBuf
  deriving DecidableEq, Repr

/-- A heap node.  Arrays carry their `length`, an association list of the
present indices (absent indices are holes) and the extra enumerable
own string-keyed properties (whose values the engine never clones).
`plain` nodes have `Object.prototype`; `inst` nodes have a custom
prototype (`none` models a `null` prototype). -/
inductive HObject where
  | arr (len : Nat) (elems : List (Nat × JSValue)) (extra : List (String × JSValue))
  | date (ts : Int)
  | regexp (source flags : String)
  | typedArray (kind : TAKind) (bufferRef byteOffset byteLength : Nat)
  | arrayBuffer (bytes : List Nat)
  | set (elems : List JSValue)
  | map (entries : List (JSValue × JSValue))
  | plain (props : List (PropKey × Desc))
  | inst (proto : Option Nat) (props : List (PropKey × Desc))
  deriving DecidableEq, Repr

/-- Association-list lookup (first match wins, so consing is update). -/
def alookup {κ α : Type} [DecidableEq κ] : List (κ × α) → κ → Option α
  | [], _ => none
  | (k, v) :: r, k2 => if k = k2 then some v else alookup r k2

@[simp] theorem alookup_nil {κ α : Type} [DecidableEq κ] (k : κ) :
    alookup ([] : List (κ × α)) k = none := rfl

theorem alookup_cons {κ α : Type} [DecidableEq κ] (k k2 : κ) (v : α) (r : List (κ × α)) :
    alookup ((k, v) :: r) k2 = if k = k2 then some v else alookup r k2 := rfl

/-- The mutable state threaded through a clone run: the heap, the
`WeakMap` of original address to clone address, the shared mutable cells
that closure-backed accessors read and write, and the next fresh
address. -/
structure State where
  heap : List (Nat × HObject)
  seen : List (Nat × Nat)
  cells : List (Nat × JSValue)
  next : Nat
  deriving DecidableEq, Repr

/-- Behaviour of the `Buffer.isBuffer` capability probe (the `typeof
Buffer` guard and the `try`/`catch` around `Buffer.isBuffer`). -/
inductive ProbeMode where
  | unavailable
  | avail
  | throwErr (id : Nat)
  | throwNonErr (id : Nat)
  deriving DecidableEq, Repr

/-- What a getter/setter pair is backed by: an own field of its receiver
(`this._x` style) or a shared mutable cell captured by closure. -/
inductive AccessorBacking where
  | thisField (name : String)
  | cell (id : Nat)
  deriving DecidableEq, Repr

/-- The ambient environment of a run: probe behaviour and the backing of
each accessor function identity. -/
structure Env where
  probe : ProbeMode
  funcBacking : Nat → AccessorBacking

/-- A value thrown during cloning: the probe can throw an `Error`
instance or an arbitrary non-`Error` value; the payload id shows the
thrown value is propagated unchanged. -/
inductive Thrown where
  | errInstance (id : Nat)
  | nonErrValue (id : Nat)
  deriving DecidableEq, Repr

/-- Result of a (fuel-indexed) clone computation: success with the new
state, a propagated throw, `stuck` for behaviour outside the model
(a JS `TypeError`/`RangeError` on malformed input), or out of fuel. -/
inductive CloneRes (α : Type) where
  | ok (val : α) (st : State)
  | thrown (e : Thrown)
  | stuck
  | oom
  deriving DecidableEq, Repr

/-- Heap read. -/
def lookupH (h : List (Nat × HObject)) (a : Nat) : Option HObject := alookup h a

/-- Allocate a fresh node, returning its address. -/
def alloc (st : State) (o : HObject) : Nat × State :=
  (st.next, { st with heap := (st.next, o) :: st.heap, next := st.next + 1 })

/-- Overwrite the node at an address (used to populate a registered,
still-empty target after its children were cloned). -/
def writeH (st : State) (a : Nat) (o : HObject) : State :=
  { st with heap := (a, o) :: st.heap }

/-- JS truthiness, as used by the `x || d` defaulting of the buffer-like
branch. -/
def truthy : JSValue → Bool
  | .vundefined => false
  | .vnull => false
  | .vbool b => b
  | .vnum n => n != 0
  | .vstr s => s != ""
  | .vbig n => n != 0
  | .vsym _ => true
  | .vfunc _ => true
  | .vref _ => true

/-- `x || d`. -/
def jsOr (x d : JSValue) : JSValue := if truthy x then x else d

/-- A nonnegative integer out of a JS value (used for byte offsets and
lengths). -/
def asNat : JSValue → Option Nat
  | .vnum n => if 0 ≤ n then some n.toNat else none
  | _ => none

/-- Whether the key of a property entry is a symbol. -/
def isSymKey : PropKey × Desc → Bool
  | (.sym _, _) => true
  | (.str _, _) => false

/-- Whether the key of a property entry is a string. -/
def isStrKey : PropKey × Desc → Bool
  | (.str _, _) => true
  | (.sym _, _) => false

/-- Enumerability flag of a descriptor. -/
def Desc.enum : Desc → Bool
  | .data _ _ e _ => e
  | .accessor _ _ e _ => e

/-- Whether a descriptor is an accessor (has a getter or setter). -/
def Desc.isAccessor : Desc → Bool
  | .data _ _ _ _ => false
  | .accessor _ _ _ _ => true

/-- Own-key membership (the `'k' in obj` test of the duck-typed branch;
tracked prototypes carry no own properties, see the header comment). -/
def hasOwnKey (props : List (PropKey × Desc)) (k : PropKey) : Bool :=
  (alookup props k).isSome

/-- Value of an own data property, `undefined` otherwise (used by
`this`-backed getters). -/
def dataRead (props : List (PropKey × Desc)) (name : String) : JSValue :=
  match alookup props (.str name) with
  | some (.data v _ _ _) => v
  | _ => .vundefined

/-- Invoke a getter function identity on a receiver. -/
def applyGetter (env : Env) (st : State) (receiver gid : Nat) : JSValue :=
  match env.funcBacking gid with
  | .thisField name =>
    match lookupH st.heap receiver with
    | some (.plain props) => dataRead props name
    | some (.inst _ props) => dataRead props name
    | _ => .vundefined
  | .cell i => (alookup st.cells i).getD .vundefined

/-- Read a property of an object (invoking the getter of an accessor
property, as `bufferLike.byteOffset` etc. do in the source). -/
def propGet (env : Env) (st : State) (receiver : Nat)
    (props : List (PropKey × Desc)) (k : PropKey) : JSValue :=
  match alookup props k with
  | some (.data v _ _ _) => v
  | some (.accessor (some g) _ _ _) => applyGetter env st receiver g
  | some (.accessor none _ _ _) => .vundefined
  | none => .vundefined

/-- Update or create an own data property by plain assignment semantics
(used by `this`-backed setters, not by the clone engine). -/
def setOwnData (props : List (PropKey × Desc)) (name : String) (v : JSValue) :
    List (PropKey × Desc) :=
  match props with
  | [] => [(.str name, .data v true true true)]
  | (k, d) :: r =>
    if k = PropKey.str name then
      match d with
      | .data _ w e c => (k, .data v w e c) :: r
      | other => (k, other) :: r
    else
      (k, d) :: setOwnData r name v

/-- Invoke a setter function identity on a receiver with an argument. -/
def applySetter (env : Env) (st : State) (receiver sid : Nat) (arg : JSValue) : State :=
  match env.funcBacking sid with
  | .thisField name =>
    match lookupH st.heap receiver with
    | some (.plain props) => writeH st receiver (.plain (setOwnData props name arg))
    | some (.inst p props) => writeH st receiver (.inst p (setOwnData props name arg))
    | _ => st
  | .cell i => { st with cells := (i, arg) :: st.cells }

/-- `bytes.slice start stop` with the clamping semantics of
`ArrayBuffer.prototype.slice`. -/
def sliceBytes (bytes : List Nat) (start stop : Nat) : List Nat :=
  (bytes.drop start).take (stop - start)

/-- The type of the recursive clone call threaded through the folds
below (a partial application of `internalDeepClone` at one less fuel). -/
abbrev Rec := JSValue → State → CloneRes JSValue

/-- Clone every element of a list in order (the `Set` branch:
`set.add(internalDeepClone(values[i], seen))`). -/
def cloneVals (rec : Rec) : List JSValue → State → CloneRes (List JSValue)
  | [], st => .ok [] st
  | x :: xs, st =>
    match rec x st with
    | .ok v st1 =>
      match cloneVals rec xs st1 with
      | .ok vs st2 => .ok (v :: vs) st2
      | .thrown e => .thrown e
      | .stuck => .stuck
      | .oom => .oom
    | .thrown e => .thrown e
    | .stuck => .stuck
    | .oom => .oom

/-- Clone map entries: the key is kept as is, only the value is cloned
(`map.set(key, internalDeepClone(value, seen))`). -/
def cloneEntries (rec : Rec) :
    List (JSValue × JSValue) → State → CloneRes (List (JSValue × JSValue))
  | [], st => .ok [] st
  | (k, x) :: xs, st =>
    match rec x st with
    | .ok v st1 =>
      match cloneEntries rec xs st1 with
      | .ok vs st2 => .ok ((k, v) :: vs) st2
      | .thrown e => .thrown e
      | .stuck => .stuck
      | .oom => .oom
    | .thrown e => .thrown e
    | .stuck => .stuck
    | .oom => .oom

/-- Sparse array iteration over indices: `if (i in obj) arr[i] =
internalDeepClone(obj[i], seen)` — holes are skipped, no value is
materialised for them. -/
def cloneSparse (rec : Rec) (elems : List (Nat × JSValue)) :
    List Nat → State → CloneRes (List (Nat × JSValue))
  | [], st => .ok [] st
  | i :: is, st =>
    match alookup elems i with
    | none => cloneSparse rec elems is st
    | some x =>
      match rec x st with
      | .ok v st1 =>
        match cloneSparse rec elems is st1 with
        | .ok vs st2 => .ok ((i, v) :: vs) st2
        | .thrown e => .thrown e
        | .stuck => .stuck
        | .oom => .oom
      | .thrown e => .thrown e
      | .stuck => .stuck
      | .oom => .oom

/-- Dense array iteration: `arr[i] = internalDeepClone(obj[i], seen)` for
every index, reading a hole as `undefined` and materialising the result. -/
def cloneDense (rec : Rec) (elems : List (Nat × JSValue)) :
    List Nat → State → CloneRes (List (Nat × JSValue))
  | [], st => .ok [] st
  | i :: is, st =>
    match rec ((alookup elems i).getD .vundefined) st with
    | .ok v st1 =>
      match cloneDense rec elems is st1 with
      | .ok vs st2 => .ok ((i, v) :: vs) st2
      | .thrown e => .thrown e
      | .stuck => .stuck
      | .oom => .oom
    | .thrown e => .thrown e
    | .stuck => .stuck
    | .oom => .oom

/-- Copy a run of enumerable properties onto the target.  An accessor
descriptor is copied verbatim (`Object.defineProperty(target, key,
descriptor)`); a data descriptor has its value cloned.  With
`preserveFlags` the remaining attributes are kept
(`Object.defineProperty(target, key, { ...descriptor, value })`);
without it the fast path `target[key] = value` creates default
writable/enumerable/configurable attributes. -/
def cloneProps (rec : Rec) (preserveFlags : Bool) :
    List (PropKey × Desc) → State → CloneRes (List (PropKey × Desc))
  | [], st => .ok [] st
  | (k, .accessor g s e c) :: xs, st =>
    match cloneProps rec preserveFlags xs st with
    | .ok vs st2 => .ok ((k, .accessor g s e c) :: vs) st2
    | .thrown e2 => .thrown e2
    | .stuck => .stuck
    | .oom => .oom
  | (k, .data x w e c) :: xs, st =>
    match rec x st with
    | .ok v st1 =>
      match cloneProps rec preserveFlags xs st1 with
      | .ok vs st2 =>
        .ok ((k, if preserveFlags then .data v w e c else .data v true true true) :: vs) st2
      | .thrown e2 => .thrown e2
      | .stuck => .stuck
      | .oom => .oom
    | .thrown e2 => .thrown e2
    | .stuck => .stuck
    | .oom => .oom

/-- The duck-typed buffer-like branch, lines 124-153 of the source: the
object has own keys `buffer` and `byteLength`.  When `Buffer` is
unavailable a `Uint8Array` copy of the exposed window is produced;
otherwise a plain record with a copied buffer and normalised fields. -/
def bufferLikeCopy (env : Env) (a : Nat) (props : List (PropKey × Desc))
    (st : State) : Option HObject :=
  match propGet env st a props (.str "buffer") with
  | .vref b =>
    match lookupH st.heap b with
    | some (.arrayBuffer bytes) => some (HObject.arrayBuffer bytes)
    | _ =>
      match asNat (propGet env st a props (.str "byteLength")) with
      | some lenN => some (.arrayBuffer (List.replicate lenN 0))
      | none => none
  | _ =>
    match asNat (propGet env st a props (.str "byteLength")) with
    | some lenN => some (.arrayBuffer (List.replicate lenN 0))
    | none => none

def cloneBufferLike (env : Env) (a : Nat) (props : List (PropKey × Desc))
    (st : State) : CloneRes JSValue :=
  match env.probe with
  | .unavailable =>
    -- new Uint8Array(bufferLike.buffer, bufferLike.byteOffset || 0,
    --               bufferLike.byteLength), then copy its bytes.
    match propGet env st a props (.str "buffer") with
    | .vref b =>
      match lookupH st.heap b with
      | some (.arrayBuffer bytes) =>
        match asNat (jsOr (propGet env st a props (.str "byteOffset")) (.vnum 0)),
              asNat (propGet env st a props (.str "byteLength")) with
        | some offN, some lenN =>
          if offN + lenN ≤ bytes.length then
            .ok (.vref (st.next + 1))
              ((alloc (alloc st (.arrayBuffer (sliceBytes bytes offN (offN + lenN)))).2
                (.typedArray .uint8 st.next 0 lenN)).2)
          else .stuck
        | _, _ => .stuck
      | _ => .stuck
    | _ => .stuck
  | _ =>
    -- Buffer exists (including after a suppressed non-Error probe throw):
    -- build the result record of lines 142-151.
    match bufferLikeCopy env a props st with
    | none => .stuck
    | some bufObj =>
      .ok (.vref (st.next + 1))
        ((alloc (alloc st bufObj).2 (.plain
          [ (.str "buffer", .data (.vref st.next) true true true),
            (.str "byteLength",
              .data (propGet env st a props (.str "byteLength")) true true true),
            (.str "byteOffset",
              .data (jsOr (propGet env st a props (.str "byteOffset")) (.vnum 0)) true true true),
            (.str "length",
              .data (jsOr (propGet env st a props (.str "length"))
                (propGet env st a props (.str "byteLength"))) true true true),
            (.str "BYTES_PER_ELEMENT",
              .data (jsOr (propGet env st a props (.str "BYTES_PER_ELEMENT")) (.vnum 1)) true true true) ])).2)

/-- `Buffer.isBuffer(obj)`: true exactly for Node buffers. -/
def isNodeBuffer : HObject → Bool
  | .typedArray kind _ _ _ => kind == .nodeBuf
  | _ => false

/-- `Buffer.from(obj)` for a Node buffer: copy exactly the exposed bytes
into a fresh tight buffer. -/
def cloneNodeBuffer (o : HObject) (st : State) : CloneRes JSValue :=
  match o with
  | .typedArray _ bufRef off len =>
    match lookupH st.heap bufRef with
    | some (.arrayBuffer bytes) =>
      .ok (.vref (st.next + 1))
        ((alloc (alloc st (.arrayBuffer (sliceBytes bytes off (off + len)))).2
          (.typedArray .nodeBuf st.next 0 (sliceBytes bytes off (off + len)).length)).2)
    | _ => .stuck
  | _ => .stuck

/-- The branches after the `Buffer.isBuffer` block (lines 101 onwards):
typed views, raw buffers, the duck-typed buffer-like record, sets, maps,
plain objects and class instances. -/
def cloneObjRest (rec : Rec) (env : Env) (a : Nat) (o : HObject) (st : State) :
    CloneRes JSValue :=
  match o with
  | .arr _ _ _ => .stuck  -- unreachable: arrays are handled first
  | .date _ => .stuck     -- unreachable: dates are handled first
  | .regexp _ _ => .stuck -- unreachable: regexps are handled first
  | .typedArray kind bufRef off len =>
    -- ArrayBuffer.isView: new TypedArray(view.buffer.slice(byteOffset,
    -- byteOffset + byteLength)) — fresh tight buffer, offset zero.
    match lookupH st.heap bufRef with
    | some (.arrayBuffer bytes) =>
      let newBytes := sliceBytes bytes off (off + len)
      let (b2, st1) := alloc st (.arrayBuffer newBytes)
      let (t, st2) := alloc st1 (.typedArray kind b2 0 newBytes.length)
      .ok (.vref t) st2
    | _ => .stuck
  | .arrayBuffer bytes =>
    -- obj.slice(0): a full fresh copy, not registered in the seen map.
    let (t, st1) := alloc st (.arrayBuffer bytes)
    .ok (.vref t) st1
  | .set elems =>
    let (t, st1) := alloc st (.set [])
    let st2 := { st1 with seen := (a, t) :: st1.seen }
    match cloneVals rec elems st2 with
    | .ok vs st3 => .ok (.vref t) (writeH st3 t (.set vs))
    | .thrown e => .thrown e
    | .stuck => .stuck
    | .oom => .oom
  | .map entries =>
    let (t, st1) := alloc st (.map [])
    let st2 := { st1 with seen := (a, t) :: st1.seen }
    match cloneEntries rec entries st2 with
    | .ok vs st3 => .ok (.vref t) (writeH st3 t (.map vs))
    | .thrown e => .thrown e
    | .stuck => .stuck
    | .oom => .oom
  | .plain props =>
    if hasOwnKey props (.str "buffer") && hasOwnKey props (.str "byteLength") then
      cloneBufferLike env a props st
    else
      -- Fast plain object path, lines 181-269: register the target, copy
      -- enumerable symbol descriptors verbatim, then the enumerable
      -- string properties (slow descriptor-preserving path only when an
      -- enumerable string accessor exists).
      let (t, st1) := alloc st (.plain [])
      let st2 := { st1 with seen := (a, t) :: st1.seen }
      let symCopied := (props.filter isSymKey).filter (fun p => p.2.enum)
      let strEnum := (props.filter isStrKey).filter (fun p => p.2.enum)
      let hasAccessors := strEnum.any (fun p => p.2.isAccessor)
      match cloneProps rec hasAccessors strEnum st2 with
      | .ok strDone st3 => .ok (.vref t) (writeH st3 t (.plain (symCopied ++ strDone)))
      | .thrown e => .thrown e
      | .stuck => .stuck
      | .oom => .oom
  | .inst proto props =>
    if hasOwnKey props (.str "buffer") && hasOwnKey props (.str "byteLength") then
      cloneBufferLike env a props st
    else
      -- Complex object path, lines 272-309: Object.create(proto),
      -- register, copy enumerable string properties preserving
      -- descriptors, then enumerable symbol descriptors verbatim.
      let (t, st1) := alloc st (.inst proto [])
      let st2 := { st1 with seen := (a, t) :: st1.seen }
      let strEnum := (props.filter isStrKey).filter (fun p => p.2.enum)
      let symCopied := (props.filter isSymKey).filter (fun p => p.2.enum)
      match cloneProps rec true strEnum st2 with
      | .ok strDone st3 => .ok (.vref t) (writeH st3 t (.inst proto (strDone ++ symCopied)))
      | .thrown e => .thrown e
      | .stuck => .stuck
      | .oom => .oom

/-- One composite dispatch step (the body of `internalDeepClone` after
the primitive fast path and the seen-map hit, lines 22-309). -/
def cloneObj (rec : Rec) (env : Env) (a : Nat) (o : HObject) (st : State) :
    CloneRes JSValue :=
  match o with
  | .arr len elems extra =>
    -- Ultra-fast array path: new Array(len) is allocated, the original
    -- registered, then indices cloned.  Small arrays and arrays failing
    -- the Object.keys density check skip holes; a length >= 32 array
    -- whose own enumerable string key count equals its length takes the
    -- dense path reading every index.
    let (t, st1) := alloc st (.arr len [] [])
    let st2 := { st1 with seen := (a, t) :: st1.seen }
    if len < 32 then
      match cloneSparse rec elems (List.range len) st2 with
      | .ok es st3 => .ok (.vref t) (writeH st3 t (.arr len es []))
      | .thrown e => .thrown e
      | .stuck => .stuck
      | .oom => .oom
    else if elems.length + extra.length = len then
      match cloneDense rec elems (List.range len) st2 with
      | .ok es st3 => .ok (.vref t) (writeH st3 t (.arr len es []))
      | .thrown e => .thrown e
      | .stuck => .stuck
      | .oom => .oom
    else
      match cloneSparse rec elems (List.range len) st2 with
      | .ok es st3 => .ok (.vref t) (writeH st3 t (.arr len es []))
      | .thrown e => .thrown e
      | .stuck => .stuck
      | .oom => .oom
  | .date ts =>
    -- new Date(obj): a fresh atomic copy, never registered in seen.
    let (t, st1) := alloc st (.date ts)
    .ok (.vref t) st1
  | .regexp src flags =>
    let (t, st1) := alloc st (.regexp src flags)
    .ok (.vref t) st1
  | other =>
    -- Lines 87-98: if Buffer exists, try Buffer.isBuffer(obj).  A thrown
    -- Error instance is rethrown; a thrown non-Error is swallowed and
    -- cloning continues with the remaining branches.
    match env.probe with
    | .throwErr i => .thrown (.errInstance i)
    | .avail =>
      if isNodeBuffer other then cloneNodeBuffer other st
      else cloneObjRest rec env a other st
    | _ => cloneObjRest rec env a other st

/-- The fuel-indexed translation of `internalDeepClone` (fuel bounds the
recursion depth; each child call runs at one less fuel). -/
def internalDeepClone : Nat → Env → JSValue → State → CloneRes JSValue
  | 0, _, _, _ => .oom
  | fuel + 1, env, v, st =>
    match v with
    | .vref a =>
      match alookup st.seen a with
      | some t => .ok (.vref t) st
      | none =>
        match lookupH st.heap a with
        | none => .stuck
        | some o => cloneObj (internalDeepClone fuel env) env a o st
    | prim => .ok prim st

/-- The public entry point: `internalDeepClone(obj, new WeakMap())`. -/
def deepClone (fuel : Nat) (env : Env) (v : JSValue) (st : State) : CloneRes JSValue :=
  internalDeepClone fuel env v { st with seen := [] }

/-! ### Basic facts about association lists and state operations -/

theorem alookup_isSome_iff_mem {κ α : Type} [DecidableEq κ] (l : List (κ × α)) (k : κ) :
    (alookup l k).isSome = true ↔ k ∈ l.map Prod.fst := by
  induction l with
  | nil => simp [alookup]
  | cons p r ih =>
    obtain ⟨k2, v⟩ := p
    by_cases h : k2 = k <;> simp [alookup, h, ih]
    exact fun h2 => (h h2.symm).elim

theorem alookup_eq_none_iff {κ α : Type} [DecidableEq κ] (l : List (κ × α)) (k : κ) :
    alookup l k = none ↔ k ∉ l.map Prod.fst := by
  rw [← alookup_isSome_iff_mem]
  cases alookup l k <;> simp

theorem alookup_mem_values {κ α : Type} [DecidableEq κ] {l : List (κ × α)} {k : κ} {v : α}
    (h : alookup l k = some v) : v ∈ l.map Prod.snd := by
  induction l with
  | nil => simp [alookup] at h
  | cons p r ih =>
    obtain ⟨k2, v2⟩ := p
    by_cases hk : k2 = k
    · simp [alookup, hk] at h
      simp [h]
    · simp [alookup, hk] at h
      simp [ih h]

theorem alookup_append {κ α : Type} [DecidableEq κ] (l1 l2 : List (κ × α)) (k : κ) :
    alookup (l1 ++ l2) k =
      match alookup l1 k with
      | some v => some v
      | none => alookup l2 k := by
  induction l1 with
  | nil => simp [alookup]
  | cons p r ih =>
    obtain ⟨k2, v⟩ := p
    by_cases h : k2 = k <;> simp [alookup, h, ih]

theorem alookup_append_of_not_mem {κ α : Type} [DecidableEq κ] {l1 : List (κ × α)}
    (l2 : List (κ × α)) {k : κ} (h : k ∉ l1.map Prod.fst) :
    alookup (l1 ++ l2) k = alookup l2 k := by
  have h1 : alookup l1 k = none := (alookup_eq_none_iff l1 k).2 h
  rw [alookup_append, h1]

theorem alookup_filter {κ α : Type} [DecidableEq κ] {l : List (κ × α)} {k : κ} {v : α}
    (pr : κ × α → Bool) (h : alookup l k = some v) (hp : pr (k, v) = true) :
    alookup (l.filter pr) k = some v := by
  induction l with
  | nil => simp [alookup] at h
  | cons p r ih =>
    obtain ⟨k2, v2⟩ := p
    by_cases hk : k2 = k
    · subst hk
      simp [alookup] at h
      subst h
      simp [List.filter_cons, hp, alookup]
    · simp [alookup, hk] at h
      rw [List.filter_cons]
      by_cases hpr : pr (k2, v2) = true <;> simp [hpr, alookup, hk, ih h]

@[simp] theorem alloc_fst (st : State) (o : HObject) : (alloc st o).1 = st.next := rfl

@[simp] theorem alloc_next (st : State) (o : HObject) : (alloc st o).2.next = st.next + 1 := rfl

@[simp] theorem alloc_seen (st : State) (o : HObject) : (alloc st o).2.seen = st.seen := rfl

@[simp] theorem alloc_cells (st : State) (o : HObject) : (alloc st o).2.cells = st.cells := rfl

theorem lookupH_alloc (st : State) (o : HObject) (a : Nat) :
    lookupH (alloc st o).2.heap a = if st.next = a then some o else lookupH st.heap a := rfl

@[simp] theorem writeH_next (st : State) (t : Nat) (o : HObject) :
    (writeH st t o).next = st.next := rfl

@[simp] theorem writeH_seen (st : State) (t : Nat) (o : HObject) :
    (writeH st t o).seen = st.seen := rfl

@[simp] theorem writeH_cells (st : State) (t : Nat) (o : HObject) :
    (writeH st t o).cells = st.cells := rfl

theorem lookupH_writeH (st : State) (t : Nat) (o : HObject) (a : Nat) :
    lookupH (writeH st t o).heap a = if t = a then some o else lookupH st.heap a := rfl

/-- Addresses of well-formed heaps lie below the allocation counter. -/
def WF (st : State) : Prop :=
  ∀ a o, lookupH st.heap a = some o → a < st.next

/-- The seen map sends distinct originals to distinct clones, all of them
already allocated. -/
def SeenInv (st : State) : Prop :=
  (∀ k t, alookup st.seen k = some t → t < st.next) ∧
  (∀ k1 k2 t, alookup st.seen k1 = some t → alookup st.seen k2 = some t → k1 = k2)

/-- Everything a single clone step can do to the state: the allocation
counter only grows, nodes below the initial counter are untouched, the
seen map only gains entries whose targets are freshly allocated, the
closure cells are never written, and well-formedness and seen-map
injectivity are preserved. -/
def Step (st st2 : State) : Prop :=
  st.next ≤ st2.next ∧
  (∀ a o, a < st.next → lookupH st.heap a = some o → lookupH st2.heap a = some o) ∧
  (∀ k t, alookup st.seen k = some t → alookup st2.seen k = some t) ∧
  st2.cells = st.cells ∧
  (∀ k t, alookup st2.seen k = some t → alookup st.seen k = some t ∨ st.next ≤ t) ∧
  (WF st → WF st2) ∧
  (SeenInv st → SeenInv st2)

theorem step_refl (st : State) : Step st st :=
  ⟨le_refl _, fun _ _ _ h => h, fun _ _ h => h, rfl, fun _ _ h => Or.inl h,
    fun h => h, fun h => h⟩

theorem step_trans {st1 st2 st3 : State} (h1 : Step st1 st2) (h2 : Step st2 st3) :
    Step st1 st3 := by
  obtain ⟨n1, hp1, se1, c1, sf1, w1, si1⟩ := h1
  obtain ⟨n2, hp2, se2, c2, sf2, w2, si2⟩ := h2
  refine ⟨le_trans n1 n2, ?_, fun k t h => se2 k t (se1 k t h), c2.trans c1, ?_,
    fun h => w2 (w1 h), fun hs => si2 (si1 hs)⟩
  · exact fun a o ha h => hp2 a o (lt_of_lt_of_le ha n1) (hp1 a o ha h)
  · intro k t h
    rcases sf2 k t h with h3 | h3
    · exact sf1 k t h3
    · exact Or.inr (le_trans n1 h3)

/-- Allocation is a step. -/
theorem step_alloc (st : State) (o : HObject) : Step st (alloc st o).2 := by
  refine ⟨by simp, ?_, fun k t h => h, by simp, fun k t h => Or.inl h, ?_, fun h => ?_⟩
  · intro a o2 ha h
    have hne : ¬ st.next = a := by omega
    rw [lookupH_alloc, if_neg hne]
    exact h
  · intro hwf a o2 h
    rw [lookupH_alloc] at h
    by_cases hc : st.next = a
    · simp only [alloc_next]
      omega
    · rw [if_neg hc] at h
      have := hwf a o2 h
      simp only [alloc_next]
      omega
  · constructor
    · intro k t h2
      have := h.1 k t h2
      simp only [alloc_seen] at *
      simp only [alloc_next]
      omega
    · intro k1 k2 t h1 h2
      simp only [alloc_seen] at h1 h2
      exact h.2 k1 k2 t h1 h2

/-- Allocating a target and registering it for the original `a` (a
seen-map miss) is a step. -/
theorem step_register {st : State} {a : Nat} (o : HObject)
    (hmiss : alookup st.seen a = none) :
    Step st { (alloc st o).2 with seen := (a, st.next) :: st.seen } := by
  refine ⟨by simp, ?_, ?_, by simp [alloc], ?_, ?_, ?_⟩
  · intro a2 o2 ha h
    have hne : ¬ st.next = a2 := by omega
    show lookupH (alloc st o).2.heap a2 = some o2
    rw [lookupH_alloc, if_neg hne]
    exact h
  · intro k t h
    have hne : ¬ a = k := by
      intro hak
      subst hak
      rw [hmiss] at h
      exact Option.noConfusion h
    show alookup ((a, st.next) :: st.seen) k = some t
    rw [alookup_cons, if_neg hne]
    exact h
  · intro k t h
    rw [alookup_cons] at h
    by_cases hak : a = k
    · rw [if_pos hak] at h
      cases h
      exact Or.inr (le_refl _)
    · rw [if_neg hak] at h
      exact Or.inl h
  · intro hwf a2 o2 h
    show a2 < st.next + 1
    have h2 : (if st.next = a2 then some o else lookupH st.heap a2) = some o2 := h
    by_cases hc : st.next = a2
    · omega
    · rw [if_neg hc] at h2
      have := hwf a2 o2 h2
      omega
  · intro hs
    constructor
    · intro k t h
      have h3 : (if a = k then some st.next else alookup st.seen k) = some t := h
      clear h
      rename' h3 => h
      show t < st.next + 1
      by_cases hak : a = k
      · rw [if_pos hak] at h
        cases h
        omega
      · rw [if_neg hak] at h
        have := hs.1 k t h
        omega
    · intro k1 k2 t h1 h2
      have h1b : (if a = k1 then some st.next else alookup st.seen k1) = some t := h1
      have h2b : (if a = k2 then some st.next else alookup st.seen k2) = some t := h2
      clear h1 h2
      rename' h1b => h1
      rename' h2b => h2
      by_cases h1a : a = k1 <;> by_cases h2a : a = k2
      · omega
      · rw [if_pos h1a] at h1
        cases h1
        rw [if_neg h2a] at h2
        have := hs.1 k2 st.next h2
        omega
      · rw [if_pos h2a] at h2
        cases h2
        rw [if_neg h1a] at h1
        have := hs.1 k1 st.next h1
        omega
      · rw [if_neg h1a] at h1
        rw [if_neg h2a] at h2
        exact hs.2 k1 k2 t h1 h2

/-- Populating a node allocated during the current call (at or above the
original counter) is a step relative to the original state. -/
theorem step_write {st st3 : State} {t : Nat} (o : HObject)
    (h : Step st st3) (ht : st.next ≤ t) (ht2 : t < st3.next) :
    Step st (writeH st3 t o) := by
  obtain ⟨n1, hp1, se1, c1, sf1, w1, si1⟩ := h
  refine ⟨by simpa using n1, ?_, by simpa using se1, by simpa using c1,
    by simpa using sf1, ?_, ?_⟩
  · intro a o2 ha h2
    have hne : ¬ t = a := by omega
    rw [lookupH_writeH, if_neg hne]
    exact hp1 a o2 ha h2
  · intro hwf a o2 h2
    rw [lookupH_writeH] at h2
    show a < st3.next
    by_cases hc : t = a
    · omega
    · rw [if_neg hc] at h2
      exact w1 hwf a o2 h2
  · intro hs
    have h4 := si1 hs
    constructor
    · intro k t2 h2
      simp only [writeH_seen, writeH_next] at *
      exact h4.1 k t2 h2
    · intro k1 k2 t2 h1 h2
      simp only [writeH_seen] at h1 h2
      exact h4.2 k1 k2 t2 h1 h2

/-! ### The step property of a whole clone run -/

/-- A recursive clone call that only performs legal state steps on
success. -/
def RecStep (rec : Rec) : Prop :=
  ∀ v st r st2, rec v st = .ok r st2 → Step st st2

theorem cloneVals_step {rec : Rec} (hrec : RecStep rec) :
    ∀ xs st vs st2, cloneVals rec xs st = .ok vs st2 → Step st st2 := by
  intro xs
  induction xs with
  | nil =>
    intro st vs st2 h
    simp only [cloneVals] at h
    cases h
    exact step_refl st
  | cons x xs ih =>
    intro st vs st2 h
    simp only [cloneVals] at h
    split at h
    case _ v st1 hr =>
      split at h
      case _ vs2 st3 hr2 =>
        cases h
        exact step_trans (hrec _ _ _ _ hr) (ih _ _ _ hr2)
      all_goals cases h
    all_goals cases h

theorem cloneEntries_step {rec : Rec} (hrec : RecStep rec) :
    ∀ xs st vs st2, cloneEntries rec xs st = .ok vs st2 → Step st st2 := by
  intro xs
  induction xs with
  | nil =>
    intro st vs st2 h
    simp only [cloneEntries] at h
    cases h
    exact step_refl st
  | cons x xs ih =>
    intro st vs st2 h
    obtain ⟨k, x0⟩ := x
    simp only [cloneEntries] at h
    split at h
    case _ v st1 hr =>
      split at h
      case _ vs2 st3 hr2 =>
        cases h
        exact step_trans (hrec _ _ _ _ hr) (ih _ _ _ hr2)
      all_goals cases h
    all_goals cases h

theorem cloneSparse_step {rec : Rec} (hrec : RecStep rec) (elems : List (Nat × JSValue)) :
    ∀ is st vs st2, cloneSparse rec elems is st = .ok vs st2 → Step st st2 := by
  intro is
  induction is with
  | nil =>
    intro st vs st2 h
    simp only [cloneSparse] at h
    cases h
    exact step_refl st
  | cons i is ih =>
    intro st vs st2 h
    simp only [cloneSparse] at h
    split at h
    case _ => exact ih _ _ _ h
    case _ x hx =>
      split at h
      case _ v st1 hr =>
        split at h
        case _ vs2 st3 hr2 =>
          cases h
          exact step_trans (hrec _ _ _ _ hr) (ih _ _ _ hr2)
        all_goals cases h
      all_goals cases h

theorem cloneDense_step {rec : Rec} (hrec : RecStep rec) (elems : List (Nat × JSValue)) :
    ∀ is st vs st2, cloneDense rec elems is st = .ok vs st2 → Step st st2 := by
  intro is
  induction is with
  | nil =>
    intro st vs st2 h
    simp only [cloneDense] at h
    cases h
    exact step_refl st
  | cons i is ih =>
    intro st vs st2 h
    simp only [cloneDense] at h
    split at h
    case _ v st1 hr =>
      split at h
      case _ vs2 st3 hr2 =>
        cases h
        exact step_trans (hrec _ _ _ _ hr) (ih _ _ _ hr2)
      all_goals cases h
    all_goals cases h

theorem cloneProps_step {rec : Rec} (hrec : RecStep rec) (pf : Bool) :
    ∀ xs st vs st2, cloneProps rec pf xs st = .ok vs st2 → Step st st2 := by
  intro xs
  induction xs with
  | nil =>
    intro st vs st2 h
    simp only [cloneProps] at h
    cases h
    exact step_refl st
  | cons x xs ih =>
    intro st vs st2 h
    obtain ⟨k, d⟩ := x
    cases d with
    | accessor g s e c =>
      simp only [cloneProps] at h
      split at h
      case _ vs2 st3 hr2 =>
        cases h
        exact ih _ _ _ hr2
      all_goals cases h
    | data x0 w e c =>
      simp only [cloneProps] at h
      split at h
      case _ v st1 hr =>
        split at h
        case _ vs2 st3 hr2 =>
          cases h
          exact step_trans (hrec _ _ _ _ hr) (ih _ _ _ hr2)
        all_goals cases h
      all_goals cases h

theorem cloneBufferLike_step {env : Env} {a : Nat} {props : List (PropKey × Desc)}
    {st : State} {r : JSValue} {st2 : State}
    (h : cloneBufferLike env a props st = .ok r st2) : Step st st2 := by
  unfold cloneBufferLike at h
  split at h
  · -- probe unavailable
    split at h
    case _ b =>
      split at h
      case _ bytes =>
        split at h
        case _ offN lenN =>
          split at h
          · cases h
            exact step_trans (step_alloc _ _) (step_alloc _ _)
          · cases h
        all_goals cases h
      all_goals cases h
    all_goals cases h
  · -- Buffer available
    split at h
    · cases h
    case _ bufObj =>
      cases h
      exact step_trans (step_alloc _ _) (step_alloc _ _)

theorem cloneObjRest_step {rec : Rec} (hrec : RecStep rec) {env : Env} {a : Nat}
    {o : HObject} {st : State} {r : JSValue} {st2 : State}
    (hmiss : alookup st.seen a = none)
    (h : cloneObjRest rec env a o st = .ok r st2) : Step st st2 := by
  cases o with
  | arr len elems extra => exact absurd h (by simp [cloneObjRest])
  | date ts => exact absurd h (by simp [cloneObjRest])
  | regexp s f => exact absurd h (by simp [cloneObjRest])
  | typedArray kind bufRef off len =>
    simp only [cloneObjRest] at h
    split at h
    case _ bytes =>
      cases h
      exact step_trans (step_alloc _ _) (step_alloc _ _)
    all_goals cases h
  | arrayBuffer bytes =>
    simp only [cloneObjRest] at h
    cases h
    exact step_alloc _ _
  | set elems =>
    simp only [cloneObjRest] at h
    split at h
    case _ vs st3 hvals =>
      cases h
      have hreg := step_register (HObject.set []) hmiss
      have hfold := cloneVals_step hrec elems _ _ _ hvals
      refine step_write _ (step_trans hreg hfold) (le_refl _) ?_
      show st.next < st3.next
      have h2 : st.next + 1 ≤ st3.next := hfold.1
      omega
    all_goals cases h
  | map entries =>
    simp only [cloneObjRest] at h
    split at h
    case _ vs st3 hvals =>
      cases h
      have hreg := step_register (HObject.map []) hmiss
      have hfold := cloneEntries_step hrec entries _ _ _ hvals
      refine step_write _ (step_trans hreg hfold) (le_refl _) ?_
      show st.next < st3.next
      have h2 : st.next + 1 ≤ st3.next := hfold.1
      omega
    all_goals cases h
  | plain props =>
    simp only [cloneObjRest] at h
    split at h
    · exact cloneBufferLike_step h
    · split at h
      case _ strDone st3 hprops =>
        cases h
        have hreg := step_register (HObject.plain []) hmiss
        have hfold := cloneProps_step hrec _ _ _ _ _ hprops
        refine step_write _ (step_trans hreg hfold) (le_refl _) ?_
        show st.next < st3.next
        have h2 : st.next + 1 ≤ st3.next := hfold.1
        omega
      all_goals cases h
  | inst proto props =>
    simp only [cloneObjRest] at h
    split at h
    · exact cloneBufferLike_step h
    · split at h
      case _ strDone st3 hprops =>
        cases h
        have hreg := step_register (HObject.inst proto []) hmiss
        have hfold := cloneProps_step hrec _ _ _ _ _ hprops
        refine step_write _ (step_trans hreg hfold) (le_refl _) ?_
        show st.next < st3.next
        have h2 : st.next + 1 ≤ st3.next := hfold.1
        omega
      all_goals cases h

theorem cloneObj_step {rec : Rec} (hrec : RecStep rec) {env : Env} {a : Nat}
    {o : HObject} {st : State} {r : JSValue} {st2 : State}
    (hmiss : alookup st.seen a = none)
    (h : cloneObj rec env a o st = .ok r st2) : Step st st2 := by
  cases o with
  | arr len elems extra =>
    simp only [cloneObj] at h
    split at h
    · split at h
      case _ es st3 hf =>
        cases h
        have hreg := step_register (HObject.arr len [] []) hmiss
        have hfold := cloneSparse_step hrec elems _ _ _ _ hf
        refine step_write _ (step_trans hreg hfold) (le_refl _) ?_
        show st.next < st3.next
        have h2 : st.next + 1 ≤ st3.next := hfold.1
        omega
      all_goals cases h
    · split at h
      · split at h
        case _ es st3 hf =>
          cases h
          have hreg := step_register (HObject.arr len [] []) hmiss
          have hfold := cloneDense_step hrec elems _ _ _ _ hf
          refine step_write _ (step_trans hreg hfold) (le_refl _) ?_
          show st.next < st3.next
          have h2 : st.next + 1 ≤ st3.next := hfold.1
          omega
        all_goals cases h
      · split at h
        case _ es st3 hf =>
          cases h
          have hreg := step_register (HObject.arr len [] []) hmiss
          have hfold := cloneSparse_step hrec elems _ _ _ _ hf
          refine step_write _ (step_trans hreg hfold) (le_refl _) ?_
          show st.next < st3.next
          have h2 : st.next + 1 ≤ st3.next := hfold.1
          omega
        all_goals cases h
  | date ts =>
    simp only [cloneObj] at h
    cases h
    exact step_alloc _ _
  | regexp s f =>
    simp only [cloneObj] at h
    cases h
    exact step_alloc _ _
  | typedArray kind bufRef off len =>
    simp only [cloneObj] at h
    split at h
    · cases h
    · split at h
      · simp only [cloneNodeBuffer] at h
        split at h
        case _ bytes =>
          cases h
          exact step_trans (step_alloc _ _) (step_alloc _ _)
        all_goals cases h
      · exact cloneObjRest_step hrec hmiss h
    · exact cloneObjRest_step hrec hmiss h
  | arrayBuffer bytes =>
    simp only [cloneObj] at h
    split at h
    · cases h
    · split at h
      · simp only [cloneNodeBuffer] at h
        cases h
      · exact cloneObjRest_step hrec hmiss h
    · exact cloneObjRest_step hrec hmiss h
  | set elems =>
    simp only [cloneObj] at h
    split at h
    · cases h
    · split at h
      · simp only [cloneNodeBuffer] at h
        cases h
      · exact cloneObjRest_step hrec hmiss h
    · exact cloneObjRest_step hrec hmiss h
  | map entries =>
    simp only [cloneObj] at h
    split at h
    · cases h
    · split at h
      · simp only [cloneNodeBuffer] at h
        cases h
      · exact cloneObjRest_step hrec hmiss h
    · exact cloneObjRest_step hrec hmiss h
  | plain props =>
    simp only [cloneObj] at h
    split at h
    · cases h
    · split at h
      · simp only [cloneNodeBuffer] at h
        cases h
      · exact cloneObjRest_step hrec hmiss h
    · exact cloneObjRest_step hrec hmiss h
  | inst proto props =>
    simp only [cloneObj] at h
    split at h
    · cases h
    · split at h
      · simp only [cloneNodeBuffer] at h
        cases h
      · exact cloneObjRest_step hrec hmiss h
    · exact cloneObjRest_step hrec hmiss h

/-- A successful run of the clone worker is a legal state step: the
allocation counter grows, pre-existing nodes are untouched, the seen map
only gains injectively fresh entries, and the cells are unchanged. -/
theorem internalDeepClone_step :
    ∀ fuel env v st r st2, internalDeepClone fuel env v st = .ok r st2 → Step st st2 := by
  intro fuel
  induction fuel with
  | zero => intro env v st r st2 h; cases h
  | succ fuel ih =>
    intro env v st r st2 h
    cases v with
    | vref a =>
      simp only [internalDeepClone] at h
      split at h
      case _ t hhit =>
        cases h
        exact step_refl st
      case _ hmiss =>
        split at h
        · cases h
        case _ o ho =>
          exact cloneObj_step (fun v2 st0 r2 st02 => ih env v2 st0 r2 st02) hmiss h
    | vundefined => cases h; exact step_refl st
    | vnull => cases h; exact step_refl st
    | vbool b => cases h; exact step_refl st
    | vnum n => cases h; exact step_refl st
    | vstr s => cases h; exact step_refl st
    | vsym i => cases h; exact step_refl st
    | vbig n => cases h; exact step_refl st
    | vfunc i => cases h; exact step_refl st

/-! ### Concrete fixtures and result projections -/

/-- A normal Node-like environment: `Buffer` exists and `Buffer.isBuffer`
works; all accessor functions are backed by the shared cell 0. -/
def envA : Env := { probe := .avail, funcBacking := fun _ => .cell 0 }

/-- Value of a successful clone (dummy otherwise). -/
def resVal : CloneRes JSValue → JSValue
  | .ok v _ => v
  | _ => .vundefined

/-- State of a successful clone (the given default otherwise). -/
def resState (d : State) : CloneRes JSValue → State
  | .ok _ st => st
  | _ => d

/-- Whether a clone run succeeded. -/
def isOk : CloneRes JSValue → Bool
  | .ok _ _ => true
  | _ => false

/-- The value of an own data property of a heap node. -/
def ownData (st : State) (a : Nat) (k : PropKey) : Option JSValue :=
  match lookupH st.heap a with
  | some (.plain props) =>
    match alookup props k with
    | some (.data v _ _ _) => some v
    | _ => none
  | some (.inst _ props) =>
    match alookup props k with
    | some (.data v _ _ _) => some v
    | _ => none
  | _ => none

/-- `v = {p: d, q: d}` with `d` a `Date`: two references to the same
composite node. -/
def dateState : State :=
  { heap := [(0, .plain [(.str "p", .data (.vref 1) true true true),
                         (.str "q", .data (.vref 1) true true true)]),
             (1, .date 777)],
    seen := [], cells := [], next := 2 }

/-- `v = {p: o1, q: o2}` with distinct empty plain objects. -/
def shareState : State :=
  { heap := [(0, .plain [(.str "p", .data (.vref 1) true true true),
                         (.str "q", .data (.vref 2) true true true)]),
             (1, .plain []),
             (2, .plain [])],
    seen := [], cells := [], next := 3 }

/-- A 4-byte Node `Buffer` over its own backing buffer. -/
def bufState : State :=
  { heap := [(0, .typedArray .nodeBuf 1 0 4), (1, .arrayBuffer [1, 2, 3, 4])],
    seen := [], cells := [], next := 2 }

/-- `v = {a: 1, self: v}`: the canonical self-referential object. -/
def cycState : State :=
  { heap := [(0, .plain [(.str "a", .data (.vnum 1) true true true),
                         (.str "self", .data (.vref 0) true true true)])],
    seen := [], cells := [], next := 1 }

/-! ### C10: functions are returned by reference -/

/-- C10: for every function value `f`, the primitive short-circuit of
`internalDeepClone` returns it unchanged (`typeof f === 'function'` is
not `'object'`), so `deepClone(f) === f` and the state is untouched. -/
theorem C10_functions_by_reference (fuel : Nat) (env : Env) (fid : Nat) (st : State) :
    internalDeepClone (fuel + 1) env (.vfunc fid) st = .ok (.vfunc fid) st ∧
    deepClone (fuel + 1) env (.vfunc fid) st = .ok (.vfunc fid) { st with seen := [] } :=
  ⟨rfl, rfl⟩

/-! ### C8: the input graph is never mutated -/

/-- C8: a clone run never mutates any pre-existing heap node and never
writes a closure cell; its only effect is allocating new nodes (and
registering seen-map entries). -/
theorem C8_no_input_mutation (fuel : Nat) (env : Env) (v : JSValue) (st : State)
    (r : JSValue) (st2 : State) (hwf : WF st)
    (h : internalDeepClone fuel env v st = .ok r st2) :
    (∀ a o, lookupH st.heap a = some o → lookupH st2.heap a = some o) ∧
    st2.cells = st.cells := by
  have hs := internalDeepClone_step fuel env v st r st2 h
  exact ⟨fun a o ho => hs.2.1 a o (hwf a o ho) ho, hs.2.2.2.1⟩

/-- C8 witness: cloning the self-referential `{a: 1, self: v}` leaves the
original node 0 exactly as it was, and the cells untouched. -/
theorem C8_no_input_mutation_witness :
    lookupH (resState cycState (internalDeepClone 5 envA (.vref 0) cycState)).heap 0 =
      some (.plain [(.str "a", .data (.vnum 1) true true true),
                    (.str "self", .data (.vref 0) true true true)]) ∧
    (resState cycState (internalDeepClone 5 envA (.vref 0) cycState)).cells =
      cycState.cells := by
  have hwf : WF cycState := by
    intro a o h
    show a < 1
    by_cases h0 : (0 : Nat) = a
    · omega
    · simp [cycState, lookupH, alookup, h0] at h
  have h := C8_no_input_mutation 5 envA (.vref 0) cycState
    (resVal (internalDeepClone 5 envA (.vref 0) cycState))
    (resState cycState (internalDeepClone 5 envA (.vref 0) cycState)) hwf rfl
  exact ⟨h.1 0 _ rfl, h.2⟩

/-! ### C1: shared-reference preservation -/

/-- C1 counterexample: in `v = {p: d, q: d}` with `d` a `Date`, `v.p` and
`v.q` are the same input node, yet their clones are two distinct nodes:
the `Date` branch never registers its result in the seen map, so each
reference is cloned afresh.  This refutes the claim for `Date` (and
likewise `RegExp` and buffer) nodes. -/
theorem C1_sharing_iff_cex :
    ownData dateState 0 (.str "p") = some (.vref 1) ∧
    ownData dateState 0 (.str "q") = some (.vref 1) ∧
    resVal (deepClone 10 envA (.vref 0) dateState) = .vref 2 ∧
    ownData (resState dateState (deepClone 10 envA (.vref 0) dateState)) 2 (.str "p") =
      some (.vref 3) ∧
    ownData (resState dateState (deepClone 10 envA (.vref 0) dateState)) 2 (.str "q") =
      some (.vref 4) ∧
    lookupH (resState dateState (deepClone 10 envA (.vref 0) dateState)).heap 3 =
      some (.date 777) ∧
    lookupH (resState dateState (deepClone 10 envA (.vref 0) dateState)).heap 4 =
      some (.date 777) ∧
    (3 : Nat) ≠ 4 := by
  refine ⟨rfl, rfl, rfl, rfl, rfl, rfl, rfl, by decide⟩

/-- C1 (amended): the same-node-iff-same-clone invariant holds for the
node kinds the engine registers in the visited map (arrays, sets, maps,
plain objects and class instances): the final seen map is a well-defined
injective correspondence, so two references are the same input node if
and only if their registered clones are the same output node.  `Date`,
`RegExp` and buffer-kind nodes are outside the correspondence and are
cloned afresh at each reference. -/
theorem C1_sharing_iff_amended (fuel : Nat) (env : Env) (v : JSValue) (st : State)
    (r : JSValue) (st2 : State)
    (h : deepClone fuel env v st = .ok r st2) :
    ∀ a b ta tb, alookup st2.seen a = some ta → alookup st2.seen b = some tb →
      (a = b ↔ ta = tb) := by
  have hs := internalDeepClone_step fuel env v { st with seen := [] } r st2 h
  have hinv : SeenInv st2 := by
    refine hs.2.2.2.2.2.2 ⟨?_, ?_⟩
    · intro k t hk
      exact absurd hk (by simp [alookup])
    · intro k1 k2 t h1 h2
      exact absurd h1 (by simp [alookup])
  intro a b ta tb ha hb
  constructor
  · intro hab
    subst hab
    rw [ha] at hb
    exact Option.some.inj hb
  · intro htab
    subst htab
    exact hinv.2 a b ta ha hb

/-- C1 amended witness: in `{p: o1, q: o2}` the two distinct plain
originals 1 and 2 receive the distinct clones 4 and 5, and the
correspondence is injective. -/
theorem C1_sharing_iff_amended_witness :
    alookup (resState shareState (deepClone 10 envA (.vref 0) shareState)).seen 1 = some 4 ∧
    alookup (resState shareState (deepClone 10 envA (.vref 0) shareState)).seen 2 = some 5 ∧
    ((1 : Nat) = 2 ↔ (4 : Nat) = 5) := by
  refine ⟨rfl, rfl, ?_⟩
  exact C1_sharing_iff_amended 10 envA (.vref 0) shareState
    (resVal (deepClone 10 envA (.vref 0) shareState))
    (resState shareState (deepClone 10 envA (.vref 0) shareState)) rfl 1 2 4 5 rfl rfl

/-! ### C3: behaviour of a throwing capability probe -/

theorem cloneVals_thrown {rec : Rec} {xs : List JSValue} {st : State} {e : Thrown}
    (h : cloneVals rec xs st = .thrown e) : ∃ v st1, rec v st1 = .thrown e := by
  induction xs generalizing st with
  | nil => simp [cloneVals] at h
  | cons x xs ih =>
    simp only [cloneVals] at h
    split at h
    case _ v st1 hr =>
      split at h
      case _ vs2 st3 hr2 => cases h
      case _ e2 hr2 =>
        cases h
        exact ih hr2
      all_goals cases h
    case _ e2 hr =>
      cases h
      exact ⟨x, st, hr⟩
    all_goals cases h

theorem cloneEntries_thrown {rec : Rec} {xs : List (JSValue × JSValue)} {st : State}
    {e : Thrown} (h : cloneEntries rec xs st = .thrown e) :
    ∃ v st1, rec v st1 = .thrown e := by
  induction xs generalizing st with
  | nil => simp [cloneEntries] at h
  | cons x xs ih =>
    obtain ⟨k, x0⟩ := x
    simp only [cloneEntries] at h
    split at h
    case _ v st1 hr =>
      split at h
      case _ vs2 st3 hr2 => cases h
      case _ e2 hr2 =>
        cases h
        exact ih hr2
      all_goals cases h
    case _ e2 hr =>
      cases h
      exact ⟨x0, st, hr⟩
    all_goals cases h

theorem cloneSparse_thrown {rec : Rec} {elems : List (Nat × JSValue)} {is : List Nat}
    {st : State} {e : Thrown} (h : cloneSparse rec elems is st = .thrown e) :
    ∃ v st1, rec v st1 = .thrown e := by
  induction is generalizing st with
  | nil => simp [cloneSparse] at h
  | cons i is ih =>
    simp only [cloneSparse] at h
    split at h
    case _ => exact ih h
    case _ x hx =>
      split at h
      case _ v st1 hr =>
        split at h
        case _ vs2 st3 hr2 => cases h
        case _ e2 hr2 =>
          cases h
          exact ih hr2
        all_goals cases h
      case _ e2 hr =>
        cases h
        exact ⟨x, st, hr⟩
      all_goals cases h

theorem cloneDense_thrown {rec : Rec} {elems : List (Nat × JSValue)} {is : List Nat}
    {st : State} {e : Thrown} (h : cloneDense rec elems is st = .thrown e) :
    ∃ v st1, rec v st1 = .thrown e := by
  induction is generalizing st with
  | nil => simp [cloneDense] at h
  | cons i is ih =>
    simp only [cloneDense] at h
    split at h
    case _ v st1 hr =>
      split at h
      case _ vs2 st3 hr2 => cases h
      case _ e2 hr2 =>
        cases h
        exact ih hr2
      all_goals cases h
    case _ e2 hr =>
      cases h
      exact ⟨_, st, hr⟩
    all_goals cases h

theorem cloneProps_thrown {rec : Rec} {pf : Bool} {xs : List (PropKey × Desc)}
    {st : State} {e : Thrown} (h : cloneProps rec pf xs st = .thrown e) :
    ∃ v st1, rec v st1 = .thrown e := by
  induction xs generalizing st with
  | nil => simp [cloneProps] at h
  | cons x xs ih =>
    obtain ⟨k, d⟩ := x
    cases d with
    | accessor g s e2 c =>
      simp only [cloneProps] at h
      split at h
      case _ => cases h
      case _ e3 hr2 =>
        cases h
        exact ih hr2
      all_goals cases h
    | data x0 w e2 c =>
      simp only [cloneProps] at h
      split at h
      case _ v st1 hr =>
        split at h
        case _ vs2 st3 hr2 => cases h
        case _ e3 hr2 =>
          cases h
          exact ih hr2
        all_goals cases h
      case _ e3 hr =>
        cases h
        exact ⟨x0, st, hr⟩
      all_goals cases h

theorem cloneBufferLike_not_thrown (env : Env) (a : Nat) (props : List (PropKey × Desc))
    (st : State) (e : Thrown) : cloneBufferLike env a props st ≠ .thrown e := by
  unfold cloneBufferLike
  split
  · split
    case _ b =>
      split
      case _ bytes =>
        split
        case _ offN lenN =>
          split <;> simp
        all_goals simp
      all_goals simp
    all_goals simp
  · split <;> simp

theorem cloneNodeBuffer_not_thrown (o : HObject) (st : State) (e : Thrown) :
    cloneNodeBuffer o st ≠ .thrown e := by
  unfold cloneNodeBuffer
  split
  · split <;> simp
  · simp

theorem cloneObjRest_thrown {rec : Rec} {env : Env} {a : Nat} {o : HObject}
    {st : State} {e : Thrown} (h : cloneObjRest rec env a o st = .thrown e) :
    ∃ v st1, rec v st1 = .thrown e := by
  cases o with
  | arr len elems extra => simp [cloneObjRest] at h
  | date ts => simp [cloneObjRest] at h
  | regexp s f => simp [cloneObjRest] at h
  | typedArray kind bufRef off len =>
    simp only [cloneObjRest] at h
    split at h <;> cases h
  | arrayBuffer bytes =>
    simp only [cloneObjRest] at h
    cases h
  | set elems =>
    simp only [cloneObjRest] at h
    split at h
    case _ vs st3 hvals => cases h
    case _ e2 hvals =>
      cases h
      exact cloneVals_thrown hvals
    all_goals cases h
  | map entries =>
    simp only [cloneObjRest] at h
    split at h
    case _ vs st3 hvals => cases h
    case _ e2 hvals =>
      cases h
      exact cloneEntries_thrown hvals
    all_goals cases h
  | plain props =>
    simp only [cloneObjRest] at h
    split at h
    · exact absurd h (cloneBufferLike_not_thrown _ _ _ _ _)
    · split at h
      case _ strDone st3 hprops => cases h
      case _ e2 hprops =>
        cases h
        exact cloneProps_thrown hprops
      all_goals cases h
  | inst proto props =>
    simp only [cloneObjRest] at h
    split at h
    · exact absurd h (cloneBufferLike_not_thrown _ _ _ _ _)
    · split at h
      case _ strDone st3 hprops => cases h
      case _ e2 hprops =>
        cases h
        exact cloneProps_thrown hprops
      all_goals cases h

theorem cloneObj_thrown {rec : Rec} {env : Env} {i : Nat} {a : Nat} {o : HObject}
    {st : State} {e : Thrown} (hp : env.probe = .throwNonErr i)
    (h : cloneObj rec env a o st = .thrown e) :
    ∃ v st1, rec v st1 = .thrown e := by
  cases o with
  | arr len elems extra =>
    simp only [cloneObj] at h
    split at h
    · split at h
      case _ es st3 hf => cases h
      case _ e2 hf =>
        cases h
        exact cloneSparse_thrown hf
      all_goals cases h
    · split at h
      · split at h
        case _ es st3 hf => cases h
        case _ e2 hf =>
          cases h
          exact cloneDense_thrown hf
        all_goals cases h
      · split at h
        case _ es st3 hf => cases h
        case _ e2 hf =>
          cases h
          exact cloneSparse_thrown hf
        all_goals cases h
  | date ts => simp [cloneObj] at h
  | regexp s f => simp [cloneObj] at h
  | typedArray kind bufRef off len =>
    simp only [cloneObj] at h
    split at h
    case _ i2 heq => rw [hp] at heq; cases heq
    case _ heq => rw [hp] at heq; cases heq
    · exact cloneObjRest_thrown h
  | arrayBuffer bytes =>
    simp only [cloneObj] at h
    split at h
    case _ i2 heq => rw [hp] at heq; cases heq
    case _ heq => rw [hp] at heq; cases heq
    · exact cloneObjRest_thrown h
  | set elems =>
    simp only [cloneObj] at h
    split at h
    case _ i2 heq => rw [hp] at heq; cases heq
    case _ heq => rw [hp] at heq; cases heq
    · exact cloneObjRest_thrown h
  | map entries =>
    simp only [cloneObj] at h
    split at h
    case _ i2 heq => rw [hp] at heq; cases heq
    case _ heq => rw [hp] at heq; cases heq
    · exact cloneObjRest_thrown h
  | plain props =>
    simp only [cloneObj] at h
    split at h
    case _ i2 heq => rw [hp] at heq; cases heq
    case _ heq => rw [hp] at heq; cases heq
    · exact cloneObjRest_thrown h
  | inst proto props =>
    simp only [cloneObj] at h
    split at h
    case _ i2 heq => rw [hp] at heq; cases heq
    case _ heq => rw [hp] at heq; cases heq
    · exact cloneObjRest_thrown h

/-- Under a probe that throws a non-Error value, no clone run ever
propagates a thrown value: the catch swallows the throw and continues. -/
theorem internalDeepClone_noThrowNonErr (i : Nat) :
    ∀ fuel env v st e, env.probe = .throwNonErr i →
      internalDeepClone fuel env v st ≠ .thrown e := by
  intro fuel
  induction fuel with
  | zero =>
    intro env v st e hp h
    cases h
  | succ fuel ih =>
    intro env v st e hp h
    cases v with
    | vref a =>
      simp only [internalDeepClone] at h
      split at h
      case _ t hhit => cases h
      case _ hmiss =>
        split at h
        · cases h
        case _ o ho =>
          obtain ⟨v2, st1, hrec⟩ := cloneObj_thrown hp h
          exact ih env v2 st1 e hp hrec
    | vundefined => cases h
    | vnull => cases h
    | vbool b => cases h
    | vnum n => cases h
    | vstr s => cases h
    | vsym id => cases h
    | vbig n => cases h
    | vfunc id => cases h

/-- Node kinds that reach the `Buffer.isBuffer` probe (everything past
the array, date and regexp branches). -/
def reachesProbe : HObject → Bool
  | .arr _ _ _ => false
  | .date _ => false
  | .regexp _ _ => false
  | _ => true

/-- The probe throwing a non-Error value, with the normal cell backing. -/
def envNonErr : Env := { probe := .throwNonErr 9, funcBacking := fun _ => .cell 0 }

/-- The probe throwing an `Error` instance. -/
def envErr : Env := { probe := .throwErr 9, funcBacking := fun _ => .cell 0 }

/-- C3 counterexample: with a probe that throws a non-`Error` value while
cloning a `Buffer`, the engine does **not** propagate the throw — the
catch block swallows it and cloning succeeds (lines 92-97: only `error
instanceof Error` is rethrown). -/
theorem C3_probe_throw_cex :
    isOk (deepClone 10 envNonErr (.vref 0) bufState) = true ∧
    deepClone 10 envNonErr (.vref 0) bufState ≠ .thrown (.nonErrValue 9) := by
  exact ⟨rfl, by decide⟩

/-- C3 (amended): a value thrown by the `Buffer.isBuffer` capability
probe propagates to the caller unchanged when it is an `Error` instance;
a thrown non-`Error` value is caught and suppressed, and the run can
never surface it (nor any other throw). -/
theorem C3_probe_throw_amended
    (fuel : Nat) (env : Env) (i : Nat) (st : State) (a : Nat) (o : HObject)
    (hmiss : alookup st.seen a = none)
    (ho : lookupH st.heap a = some o)
    (hreach : reachesProbe o = true) :
    (env.probe = .throwErr i →
      internalDeepClone (fuel + 1) env (.vref a) st = .thrown (.errInstance i)) ∧
    (env.probe = .throwNonErr i →
      ∀ e, internalDeepClone (fuel + 1) env (.vref a) st ≠ .thrown e) := by
  constructor
  · intro hp
    cases o <;>
      first
        | (simp [internalDeepClone, hmiss, ho, cloneObj, hp]; done)
        | exact absurd hreach (by simp [reachesProbe])
  · intro hp e
    exact internalDeepClone_noThrowNonErr i (fuel + 1) env (.vref a) st e hp

/-- C3 amended witness: on the concrete 4-byte buffer, the `Error` probe
throw surfaces with its payload intact and the non-`Error` throw never
surfaces. -/
theorem C3_probe_throw_amended_witness :
    internalDeepClone 10 envErr (.vref 0) bufState = .thrown (.errInstance 9) ∧
    internalDeepClone 10 envNonErr (.vref 0) bufState ≠ .thrown (.nonErrValue 9) := by
  refine ⟨(C3_probe_throw_amended 9 envErr 9 bufState 0
    (.typedArray .nodeBuf 1 0 4) rfl rfl rfl).1 rfl, ?_⟩
  exact (C3_probe_throw_amended 9 envNonErr 9 bufState 0
    (.typedArray .nodeBuf 1 0 4) rfl rfl rfl).2 rfl (.nonErrValue 9)

/-! ### Shape of the plain-object and class-instance branches -/

theorem alookup_append_left {κ α : Type} [DecidableEq κ] {l1 : List (κ × α)}
    (l2 : List (κ × α)) {k : κ} {v : α} (h : alookup l1 k = some v) :
    alookup (l1 ++ l2) k = some v := by
  rw [alookup_append, h]

theorem cloneProps_keys {rec : Rec} {pf : Bool} :
    ∀ {xs : List (PropKey × Desc)} {st : State} {vs : List (PropKey × Desc)} {st2 : State},
      cloneProps rec pf xs st = .ok vs st2 → vs.map Prod.fst = xs.map Prod.fst := by
  intro xs
  induction xs with
  | nil =>
    intro st vs st2 h
    simp only [cloneProps] at h
    cases h
    rfl
  | cons x xs ih =>
    intro st vs st2 h
    obtain ⟨k, d⟩ := x
    cases d with
    | accessor g s e c =>
      simp only [cloneProps] at h
      split at h
      case _ vs2 st3 hr2 =>
        cases h
        simpa using ih hr2
      all_goals cases h
    | data x0 w e c =>
      simp only [cloneProps] at h
      split at h
      case _ v st1 hr =>
        split at h
        case _ vs2 st3 hr2 =>
          cases h
          simpa using ih hr2
        all_goals cases h
      all_goals cases h

/-- Accessor entries pass through `cloneProps` verbatim. -/
theorem cloneProps_accessor {rec : Rec} {pf : Bool} :
    ∀ {xs : List (PropKey × Desc)} {st : State} {vs : List (PropKey × Desc)} {st2 : State}
      {k : PropKey} {g s : Option Nat} {e c : Bool},
      cloneProps rec pf xs st = .ok vs st2 →
      alookup xs k = some (.accessor g s e c) →
      alookup vs k = some (.accessor g s e c) := by
  intro xs
  induction xs with
  | nil =>
    intro st vs st2 k g s e c h hk
    cases hk
  | cons x xs ih =>
    intro st vs st2 k g s e c h hk
    obtain ⟨k2, d⟩ := x
    cases d with
    | accessor g2 s2 e2 c2 =>
      simp only [cloneProps] at h
      split at h
      case _ vs2 st3 hr2 =>
        cases h
        by_cases hkk : k2 = k
        · subst hkk
          rw [alookup_cons, if_pos rfl] at hk ⊢
          exact hk
        · rw [alookup_cons, if_neg hkk] at hk ⊢
          exact ih hr2 hk
      all_goals cases h
    | data x0 w e2 c2 =>
      simp only [cloneProps] at h
      split at h
      case _ v st1 hr =>
        split at h
        case _ vs2 st3 hr2 =>
          cases h
          by_cases hkk : k2 = k
          · subst hkk
            rw [alookup_cons, if_pos rfl] at hk
            cases hk
          · rw [alookup_cons, if_neg hkk] at hk
            rw [alookup_cons, if_neg hkk]
            exact ih hr2 hk
        all_goals cases h
      all_goals cases h

/-- Result shape of the plain-object branch: the target is the fresh
address, populated with the verbatim enumerable symbol descriptors
followed by the processed enumerable string properties. -/
theorem cloneObjRest_plain_shape {rec : Rec} {env : Env} {a : Nat}
    {props : List (PropKey × Desc)} {st : State} {r : JSValue} {st2 : State}
    (hnd : (hasOwnKey props (.str "buffer") && hasOwnKey props (.str "byteLength")) = false)
    (h : cloneObjRest rec env a (.plain props) st = .ok r st2) :
    ∃ strDone st3,
      cloneProps rec (((props.filter isStrKey).filter (fun p => p.2.enum)).any
          (fun p => p.2.isAccessor))
        ((props.filter isStrKey).filter (fun p => p.2.enum))
        { (alloc st (.plain [])).2 with seen := (a, st.next) :: st.seen } = .ok strDone st3 ∧
      r = .vref st.next ∧
      st2 = writeH st3 st.next
        (.plain (((props.filter isSymKey).filter (fun p => p.2.enum)) ++ strDone)) := by
  simp only [cloneObjRest, hnd] at h
  rw [if_neg (by simp)] at h
  split at h
  case _ strDone st3 hprops =>
    cases h
    exact ⟨strDone, st3, hprops, rfl, rfl⟩
  all_goals cases h

/-- Result shape of the class-instance branch: same prototype, processed
enumerable string properties first, verbatim enumerable symbol
descriptors last. -/
theorem cloneObjRest_inst_shape {rec : Rec} {env : Env} {a : Nat} {proto : Option Nat}
    {props : List (PropKey × Desc)} {st : State} {r : JSValue} {st2 : State}
    (hnd : (hasOwnKey props (.str "buffer") && hasOwnKey props (.str "byteLength")) = false)
    (h : cloneObjRest rec env a (.inst proto props) st = .ok r st2) :
    ∃ strDone st3,
      cloneProps rec true ((props.filter isStrKey).filter (fun p => p.2.enum))
        { (alloc st (.inst proto [])).2 with seen := (a, st.next) :: st.seen } = .ok strDone st3 ∧
      r = .vref st.next ∧
      st2 = writeH st3 st.next
        (.inst proto (strDone ++ ((props.filter isSymKey).filter (fun p => p.2.enum)))) := by
  simp only [cloneObjRest, hnd] at h
  rw [if_neg (by simp)] at h
  split at h
  case _ strDone st3 hprops =>
    cases h
    exact ⟨strDone, st3, hprops, rfl, rfl⟩
  all_goals cases h

/-- A successful run on a non-buffer composite passes through the
post-probe dispatch. -/
theorem internal_to_rest {fuel : Nat} {env : Env} {a : Nat} {st : State} {o : HObject}
    {r : JSValue} {st2 : State}
    (hmiss : alookup st.seen a = none)
    (ho : lookupH st.heap a = some o)
    (hnb : isNodeBuffer o = false)
    (hreach : reachesProbe o = true)
    (h : internalDeepClone (fuel + 1) env (.vref a) st = .ok r st2) :
    cloneObjRest (internalDeepClone fuel env) env a o st = .ok r st2 := by
  simp only [internalDeepClone, hmiss, ho] at h
  cases o <;> simp [reachesProbe] at hreach <;>
    simp only [cloneObj] at h <;>
    split at h <;>
    first
      | exact h
      | cases h
      | (rw [hnb] at h
         rw [if_neg (by simp)] at h
         exact h)

/-! ### C2: symbol-keyed data properties -/

/-- The full own-property descriptor of a keyed node. -/
def ownDesc (st : State) (a : Nat) (k : PropKey) : Option Desc :=
  match lookupH st.heap a with
  | some (.plain props) => alookup props k
  | some (.inst _ props) => alookup props k
  | _ => none

/-- `obj = { [sym 5]: {n: 1} }`: a composite value under a symbol key. -/
def symState : State :=
  { heap := [(0, .plain [(.sym 5, .data (.vref 1) true true true)]),
             (1, .plain [(.str "n", .data (.vnum 1) true true true)])],
    seen := [], cells := [], next := 2 }

/-- C2 counterexample: the clone of `{ [sym]: {n: 1} }` holds under the
symbol key the **original** node 1 (descriptor copied verbatim via
`Object.defineProperty(target, sym, desc)`), not a fresh clone — in fact
only the root was allocated, so the composite value is shared by
reference between input and clone, refuting `target[key] =
clone(original[key])` for symbol keys. -/
theorem C2_symbol_props_cex :
    ownData symState 0 (.sym 5) = some (.vref 1) ∧
    resVal (deepClone 10 envA (.vref 0) symState) = .vref 2 ∧
    ownData (resState symState (deepClone 10 envA (.vref 0) symState)) 2 (.sym 5) =
      some (.vref 1) ∧
    (resState symState (deepClone 10 envA (.vref 0) symState)).next = 3 :=
  ⟨rfl, rfl, rfl, rfl⟩

theorem alookup_enum_filter {props : List (PropKey × Desc)} {k : PropKey} {d : Desc}
    (pr : PropKey × Desc → Bool)
    (hk : alookup props k = some d) (hpr : pr (k, d) = true) (henum : d.enum = true) :
    alookup ((props.filter pr).filter (fun p => p.2.enum)) k = some d :=
  alookup_filter _ (alookup_filter pr hk hpr) henum

theorem sym_not_mem_str_keys (props : List (PropKey × Desc)) (sid : Nat) :
    PropKey.sym sid ∉ ((props.filter isStrKey).filter (fun p => p.2.enum)).map Prod.fst := by
  intro hmem
  obtain ⟨p, hp, hfst⟩ := List.mem_map.1 hmem
  have h1 := (List.mem_filter.1 hp).1
  have h2 := (List.mem_filter.1 h1).2
  obtain ⟨k, d⟩ := p
  cases k with
  | str s => cases hfst
  | sym s2 => simp [isStrKey] at h2

theorem str_not_mem_sym_keys (props : List (PropKey × Desc)) (s : String) :
    PropKey.str s ∉ ((props.filter isSymKey).filter (fun p => p.2.enum)).map Prod.fst := by
  intro hmem
  obtain ⟨p, hp, hfst⟩ := List.mem_map.1 hmem
  have h1 := (List.mem_filter.1 hp).1
  have h2 := (List.mem_filter.1 h1).2
  obtain ⟨k, d⟩ := p
  cases k with
  | sym s2 => cases hfst
  | str s3 => simp [isSymKey] at h2

/-- C2 (amended): for plain objects and class instances (outside the
duck-typed buffer-like branch), each enumerable own symbol-keyed
property — data or accessor — is copied onto the clone with its
**identical** descriptor (`Object.defineProperty(target, sym, desc)`), so
the data value is shared by reference with the original rather than
deep-cloned. -/
theorem C2_symbol_props_amended
    (fuel : Nat) (env : Env) (a : Nat) (st : State) (r : JSValue) (st2 : State)
    (props : List (PropKey × Desc)) (proto : Option Nat) (sid : Nat) (d : Desc)
    (hmiss : alookup st.seen a = none)
    (ho : lookupH st.heap a = some (.plain props) ∨
          lookupH st.heap a = some (.inst proto props))
    (hnd : (hasOwnKey props (.str "buffer") && hasOwnKey props (.str "byteLength")) = false)
    (h : internalDeepClone (fuel + 1) env (.vref a) st = .ok r st2)
    (hsym : alookup props (.sym sid) = some d)
    (henum : d.enum = true) :
    r = .vref st.next ∧ ownDesc st2 st.next (.sym sid) = some d := by
  have hsymF : alookup ((props.filter isSymKey).filter (fun p => p.2.enum))
      (.sym sid) = some d :=
    alookup_enum_filter isSymKey hsym (by simp [isSymKey]) henum
  rcases ho with ho | ho
  · have hrest := internal_to_rest hmiss ho (by simp [isNodeBuffer]) (by simp [reachesProbe]) h
    obtain ⟨strDone, st3, hprops, hr, hst⟩ := cloneObjRest_plain_shape hnd hrest
    subst hr
    subst hst
    refine ⟨rfl, ?_⟩
    unfold ownDesc
    rw [lookupH_writeH, if_pos rfl]
    exact alookup_append_left _ hsymF
  · have hrest := internal_to_rest hmiss ho (by simp [isNodeBuffer]) (by simp [reachesProbe]) h
    obtain ⟨strDone, st3, hprops, hr, hst⟩ := cloneObjRest_inst_shape hnd hrest
    subst hr
    subst hst
    refine ⟨rfl, ?_⟩
    unfold ownDesc
    rw [lookupH_writeH, if_pos rfl]
    have hkeys := cloneProps_keys hprops
    have hnot : PropKey.sym sid ∉ strDone.map Prod.fst := by
      rw [hkeys]
      exact sym_not_mem_str_keys props sid
    show alookup (strDone ++ (props.filter isSymKey).filter (fun p => p.2.enum))
      (PropKey.sym sid) = some d
    rw [alookup_append_of_not_mem _ hnot]
    exact hsymF

/-- C2 amended witness: on the concrete `{ [sym 5]: {n: 1} }`, the clone
at address 2 holds the original descriptor with the shared reference to
node 1. -/
theorem C2_symbol_props_amended_witness :
    resVal (deepClone 10 envA (.vref 0) symState) = .vref 2 ∧
    ownDesc (resState symState (deepClone 10 envA (.vref 0) symState)) 2 (.sym 5) =
      some (.data (.vref 1) true true true) := by
  have h := C2_symbol_props_amended 9 envA 0 symState
    (resVal (deepClone 10 envA (.vref 0) symState))
    (resState symState (deepClone 10 envA (.vref 0) symState))
    [(.sym 5, .data (.vref 1) true true true)] none 5 (.data (.vref 1) true true true)
    rfl (Or.inl rfl) rfl rfl rfl rfl
  exact ⟨h.1, h.2⟩

/-! ### C7: accessor preservation and setter independence -/

/-- `obj = { get x / set x }` with both accessors backed by the shared
closure cell 0 (initially 0). -/
def accState : State :=
  { heap := [(0, .plain [(.str "x", .accessor (some 7) (some 7) true true)])],
    seen := [], cells := [(0, .vnum 0)], next := 1 }

/-- C7 counterexample: the clone keeps the very same getter/setter pair
(function id 7, closure-backed); invoking the setter **on the clone**
writes the shared closure cell, after which the **original** object's
getter observes the new value — the original's backing state is
affected, refuting the claim for closure-backed accessors (the
repository's own test expects exactly this sharing). -/
theorem C7_accessor_cex :
    ownDesc accState 0 (.str "x") = some (.accessor (some 7) (some 7) true true) ∧
    resVal (deepClone 10 envA (.vref 0) accState) = .vref 1 ∧
    ownDesc (resState accState (deepClone 10 envA (.vref 0) accState)) 1 (.str "x") =
      some (.accessor (some 7) (some 7) true true) ∧
    applyGetter envA (resState accState (deepClone 10 envA (.vref 0) accState)) 0 7 =
      .vnum 0 ∧
    applyGetter envA
      (applySetter envA (resState accState (deepClone 10 envA (.vref 0) accState))
        1 7 (.vnum 42)) 0 7 = .vnum 42 :=
  ⟨rfl, rfl, rfl, rfl, rfl⟩

/-- C7 (amended): for plain objects and class instances (outside the
duck-typed branch), every enumerable own accessor property — string or
symbol keyed — is copied onto the clone with the identical
getter/setter pair (never flattened to a data value); and when a setter
is backed by a field of its receiver (`this`), invoking it on the clone
writes only the clone, leaving every node of the original graph and the
closure cells untouched.  (For a closure-backed setter the backing is
shared, as the counterexample shows.) -/
theorem C7_accessor_amended
    (fuel : Nat) (env : Env) (a : Nat) (st : State) (r : JSValue) (st2 : State)
    (props : List (PropKey × Desc)) (proto : Option Nat) (k : PropKey)
    (g s : Option Nat) (c : Bool)
    (hwf : WF st)
    (hmiss : alookup st.seen a = none)
    (ho : lookupH st.heap a = some (.plain props) ∨
          lookupH st.heap a = some (.inst proto props))
    (hnd : (hasOwnKey props (.str "buffer") && hasOwnKey props (.str "byteLength")) = false)
    (h : internalDeepClone (fuel + 1) env (.vref a) st = .ok r st2)
    (hacc : alookup props k = some (.accessor g s true c)) :
    (r = .vref st.next ∧ ownDesc st2 st.next k = some (.accessor g s true c)) ∧
    (∀ st4 sid name arg, env.funcBacking sid = .thisField name →
      lookupH (applySetter env st4 st.next sid arg).heap a = lookupH st4.heap a ∧
      (applySetter env st4 st.next sid arg).cells = st4.cells) := by
  have hlt : a < st.next := by
    rcases ho with ho | ho <;> exact hwf a _ ho
  have hne : ¬ st.next = a := by omega
  have hB : ∀ st4 sid name arg, env.funcBacking sid = .thisField name →
      lookupH (applySetter env st4 st.next sid arg).heap a = lookupH st4.heap a ∧
      (applySetter env st4 st.next sid arg).cells = st4.cells := by
    intro st4 sid name arg hset
    unfold applySetter
    rw [hset]
    cases hl : lookupH st4.heap st.next with
    | none => exact ⟨rfl, rfl⟩
    | some o2 =>
      cases o2 <;>
        first
          | exact ⟨rfl, rfl⟩
          | exact ⟨by rw [lookupH_writeH, if_neg hne], rfl⟩
  refine ⟨?_, hB⟩
  rcases ho with ho | ho
  · have hrest := internal_to_rest hmiss ho (by simp [isNodeBuffer])
      (by simp [reachesProbe]) h
    obtain ⟨strDone, st3, hprops, hr, hst⟩ := cloneObjRest_plain_shape hnd hrest
    subst hr
    subst hst
    refine ⟨rfl, ?_⟩
    unfold ownDesc
    rw [lookupH_writeH, if_pos rfl]
    cases k with
    | str s2 =>
      show alookup ((props.filter isSymKey).filter (fun p => p.2.enum) ++ strDone)
        (PropKey.str s2) = some (.accessor g s true c)
      rw [alookup_append_of_not_mem _ (str_not_mem_sym_keys props s2)]
      exact cloneProps_accessor hprops
        (alookup_enum_filter isStrKey hacc (by simp [isStrKey]) rfl)
    | sym sid2 =>
      exact alookup_append_left _
        (alookup_enum_filter isSymKey hacc (by simp [isSymKey]) rfl)
  · have hrest := internal_to_rest hmiss ho (by simp [isNodeBuffer])
      (by simp [reachesProbe]) h
    obtain ⟨strDone, st3, hprops, hr, hst⟩ := cloneObjRest_inst_shape hnd hrest
    subst hr
    subst hst
    refine ⟨rfl, ?_⟩
    unfold ownDesc
    rw [lookupH_writeH, if_pos rfl]
    cases k with
    | str s2 =>
      exact alookup_append_left _ (cloneProps_accessor hprops
        (alookup_enum_filter isStrKey hacc (by simp [isStrKey]) rfl))
    | sym sid2 =>
      show alookup (strDone ++ (props.filter isSymKey).filter (fun p => p.2.enum))
        (PropKey.sym sid2) = some (.accessor g s true c)
      have hnot : PropKey.sym sid2 ∉ strDone.map Prod.fst := by
        rw [cloneProps_keys hprops]
        exact sym_not_mem_str_keys props sid2
      rw [alookup_append_of_not_mem _ hnot]
      exact alookup_enum_filter isSymKey hacc (by simp [isSymKey]) rfl

/-- Accessors backed by a field of the receiver: function id 8 reads and
writes `this.backing`. -/
def envT : Env :=
  { probe := .avail,
    funcBacking := fun i => if i = 8 then .thisField "backing" else .cell 0 }

/-- `obj = { backing: 0, get x / set x (this-backed) }`. -/
def accTState : State :=
  { heap := [(0, .plain [(.str "backing", .data (.vnum 0) true true true),
                         (.str "x", .accessor (some 8) (some 8) true true)])],
    seen := [], cells := [], next := 1 }

/-- C7 amended witness: the concrete this-backed accessor keeps its pair
on the clone, and invoking the setter on the clone leaves the original
node 0 untouched. -/
theorem C7_accessor_amended_witness :
    resVal (deepClone 10 envT (.vref 0) accTState) = .vref 1 ∧
    ownDesc (resState accTState (deepClone 10 envT (.vref 0) accTState)) 1 (.str "x") =
      some (.accessor (some 8) (some 8) true true) ∧
    lookupH (applySetter envT
        (resState accTState (deepClone 10 envT (.vref 0) accTState)) 1 8 (.vnum 42)).heap 0 =
      lookupH (resState accTState (deepClone 10 envT (.vref 0) accTState)).heap 0 := by
  have hwf : WF accTState := by
    intro a o h
    show a < 1
    by_cases h0 : (0 : Nat) = a
    · omega
    · simp [accTState, lookupH, alookup, h0] at h
  have h := C7_accessor_amended 9 envT 0 accTState
    (resVal (deepClone 10 envT (.vref 0) accTState))
    (resState accTState (deepClone 10 envT (.vref 0) accTState))
    [(.str "backing", .data (.vnum 0) true true true),
     (.str "x", .accessor (some 8) (some 8) true true)] none (.str "x")
    (some 8) (some 8) true hwf rfl (Or.inl rfl) rfl rfl rfl
  exact ⟨h.1.1, h.1.2,
    (h.2 (resState accTState (deepClone 10 envT (.vref 0) accTState)) 8 "backing"
      (.vnum 42) rfl).1⟩

/-! ### C5: sparse arrays and hole preservation -/

/-- The value stored at an index of an array node (`none` is a hole). -/
def arrElemAt (st : State) (a i : Nat) : Option JSValue :=
  match lookupH st.heap a with
  | some (.arr _ es _) => alookup es i
  | _ => none

theorem cloneSparse_keys {rec : Rec} {elems : List (Nat × JSValue)} :
    ∀ {is : List Nat} {st : State} {vs : List (Nat × JSValue)} {st2 : State},
      cloneSparse rec elems is st = .ok vs st2 →
      vs.map Prod.fst = is.filter (fun i => (alookup elems i).isSome) := by
  intro is
  induction is with
  | nil =>
    intro st vs st2 h
    simp only [cloneSparse] at h
    cases h
    rfl
  | cons i is ih =>
    intro st vs st2 h
    simp only [cloneSparse] at h
    split at h
    case _ hx =>
      have h2 := ih h
      simp [List.filter_cons, hx, h2]
    case _ x hx =>
      split at h
      case _ v st1 hr =>
        split at h
        case _ vs2 st3 hr2 =>
          cases h
          have h2 := ih hr2
          simp [List.filter_cons, hx, h2]
        all_goals cases h
      all_goals cases h

/-- Shape of the array branch of a successful run: the clone is an array
of the same length whose named extra properties are dropped; the element
list comes from the sparse fold unless the length is at least 32 and the
`Object.keys` density heuristic fires, in which case it comes from the
dense fold. -/
theorem internal_arr_shape {fuel : Nat} {env : Env} {a : Nat} {st : State}
    {len : Nat} {elems : List (Nat × JSValue)} {extra : List (String × JSValue)}
    {r : JSValue} {st2 : State}
    (hmiss : alookup st.seen a = none)
    (ho : lookupH st.heap a = some (.arr len elems extra))
    (h : internalDeepClone (fuel + 1) env (.vref a) st = .ok r st2) :
    ∃ es st3,
      r = .vref st.next ∧
      st2 = writeH st3 st.next (.arr len es []) ∧
      ((len < 32 ∨ elems.length + extra.length ≠ len) →
        cloneSparse (internalDeepClone fuel env) elems (List.range len)
          { (alloc st (.arr len [] [])).2 with seen := (a, st.next) :: st.seen } =
          .ok es st3) ∧
      ((¬ len < 32 ∧ elems.length + extra.length = len) →
        cloneDense (internalDeepClone fuel env) elems (List.range len)
          { (alloc st (.arr len [] [])).2 with seen := (a, st.next) :: st.seen } =
          .ok es st3) := by
  simp only [internalDeepClone, hmiss, ho] at h
  simp only [cloneObj] at h
  split at h
  case _ hlen =>
    split at h
    case _ es st3 hf =>
      cases h
      exact ⟨es, st3, rfl, rfl, fun _ => hf, fun hcon => absurd hlen hcon.1.elim⟩
    all_goals cases h
  case _ hlen =>
    split at h
    case _ hdense =>
      split at h
      case _ es st3 hf =>
        cases h
        refine ⟨es, st3, rfl, rfl, fun hd => ?_, fun _ => hf⟩
        rcases hd with hd | hd
        · exact absurd hd hlen
        · exact absurd hdense hd
      all_goals cases h
    case _ hdense =>
      split at h
      case _ es st3 hf =>
        cases h
        refine ⟨es, st3, rfl, rfl, fun _ => hf, fun hcon => absurd hcon.2 hdense⟩
      all_goals cases h

/-- Length-32 array with a hole at index 0, values at 1..31, and one
extra enumerable named property, so `Object.keys(obj).length === 32`
fools the density heuristic. -/
def big32State : State :=
  { heap := [(0, .arr 32 ((List.range 31).map (fun i => (i + 1, JSValue.vnum i)))
               [("x", .vnum 0)])],
    seen := [], cells := [], next := 1 }

/-- C5 counterexample: the input has a hole at index 0, but the clone has
a materialised own index 0 holding `undefined`: for a length ≥ 32 array
whose own enumerable key count equals its length because of an extra
named key, the dense fast path reads every index and assigns the result,
filling holes. -/
theorem C5_sparse_holes_cex :
    arrElemAt big32State 0 0 = none ∧
    resVal (deepClone 40 envA (.vref 0) big32State) = .vref 1 ∧
    arrElemAt (resState big32State (deepClone 40 envA (.vref 0) big32State)) 1 0 =
      some .vundefined :=
  ⟨rfl, rfl, rfl⟩

/-- C5 (amended): for every array of length below 32, and for every
longer array whose own enumerable string key count differs from its
length, the clone is an array of the same length whose present indices
are exactly the input's present indices (holes are preserved, nothing is
materialised), each present value being the recursive clone of the
original element; named extra properties are dropped.  (When the length
is at least 32 and the key count equals the length while holes exist —
possible only with extra named keys — the dense path materialises every
index, as the counterexample shows.) -/
theorem C5_sparse_holes_amended
    (fuel : Nat) (env : Env) (a : Nat) (st : State) (r : JSValue) (st2 : State)
    (len : Nat) (elems : List (Nat × JSValue)) (extra : List (String × JSValue))
    (hmiss : alookup st.seen a = none)
    (ho : lookupH st.heap a = some (.arr len elems extra))
    (hgood : len < 32 ∨ elems.length + extra.length ≠ len)
    (h : internalDeepClone (fuel + 1) env (.vref a) st = .ok r st2) :
    ∃ es st3,
      r = .vref st.next ∧
      lookupH st2.heap st.next = some (.arr len es []) ∧
      es.map Prod.fst = (List.range len).filter (fun i => (alookup elems i).isSome) ∧
      cloneSparse (internalDeepClone fuel env) elems (List.range len)
        { (alloc st (.arr len [] [])).2 with seen := (a, st.next) :: st.seen } =
        .ok es st3 := by
  obtain ⟨es, st3, hr, hst, hsp, _⟩ := internal_arr_shape hmiss ho h
  have hf := hsp hgood
  subst hr
  subst hst
  exact ⟨es, st3, rfl, by rw [lookupH_writeH, if_pos rfl], cloneSparse_keys hf, hf⟩

/-- Length-6 array with only index 5 present. -/
def sparse6State : State :=
  { heap := [(0, .arr 6 [(5, .vstr "five")] [])],
    seen := [], cells := [], next := 1 }

/-- C5 amended witness: the array with only index 5 set clones to an
array with exactly the present index 5 and holes at 0-4. -/
theorem C5_sparse_holes_amended_witness :
    ((6 : Nat) < 32 ∨ (1 : Nat) + 0 ≠ 6) ∧
    resVal (deepClone 10 envA (.vref 0) sparse6State) = .vref 1 ∧
    arrElemAt (resState sparse6State (deepClone 10 envA (.vref 0) sparse6State)) 1 0 =
      none ∧
    arrElemAt (resState sparse6State (deepClone 10 envA (.vref 0) sparse6State)) 1 5 =
      some (.vstr "five") := by
  have h := C5_sparse_holes_amended 9 envA 0 sparse6State
    (resVal (deepClone 10 envA (.vref 0) sparse6State))
    (resState sparse6State (deepClone 10 envA (.vref 0) sparse6State))
    6 [(5, .vstr "five")] [] rfl rfl (Or.inl (by decide)) rfl
  exact ⟨Or.inl (by decide), rfl, rfl, rfl⟩

/-! ### C6: typed views over buffers -/

/-- C6: cloning a typed view (any element kind, any byte offset/length
window, including a Node `Buffer` under a working probe) produces a new
view of the same element kind over a **newly allocated** buffer holding
exactly the bytes the original view exposes, with byte offset zero and a
tight length; the new buffer is a different node from the original's
buffer, which is left untouched, so mutating the clone's bytes cannot
affect the original. -/
theorem C6_typed_view
    (fuel : Nat) (env : Env) (a : Nat) (st : State) (r : JSValue) (st2 : State)
    (kind : TAKind) (bufRef off len : Nat) (bytes : List Nat)
    (hwf : WF st)
    (hmiss : alookup st.seen a = none)
    (ho : lookupH st.heap a = some (.typedArray kind bufRef off len))
    (hbuf : lookupH st.heap bufRef = some (.arrayBuffer bytes))
    (hp : env.probe = .avail)
    (h : internalDeepClone (fuel + 1) env (.vref a) st = .ok r st2) :
    r = .vref (st.next + 1) ∧
    lookupH st2.heap (st.next + 1) =
      some (.typedArray kind st.next 0 (sliceBytes bytes off (off + len)).length) ∧
    lookupH st2.heap st.next = some (.arrayBuffer (sliceBytes bytes off (off + len))) ∧
    st.next ≠ bufRef ∧
    lookupH st2.heap bufRef = some (.arrayBuffer bytes) := by
  have hlt : bufRef < st.next := hwf bufRef _ hbuf
  simp only [internalDeepClone, hmiss, ho] at h
  simp only [cloneObj] at h
  split at h
  case _ i heq => rw [hp] at heq; cases heq
  case _ =>
    by_cases hk : kind = TAKind.nodeBuf
    · subst hk
      rw [if_pos (by simp [isNodeBuffer])] at h
      simp only [cloneNodeBuffer] at h
      split at h
      case _ bytes2 heq =>
        rw [hbuf] at heq
        cases heq
        cases h
        refine ⟨rfl, ?_, ?_, by omega, ?_⟩
        · show alookup ((st.next + 1,
            HObject.typedArray .nodeBuf st.next 0 (sliceBytes bytes off (off + len)).length) ::
            (st.next, HObject.arrayBuffer (sliceBytes bytes off (off + len))) :: st.heap)
            (st.next + 1) = _
          rw [alookup_cons, if_pos rfl]
        · show alookup ((st.next + 1,
            HObject.typedArray .nodeBuf st.next 0 (sliceBytes bytes off (off + len)).length) ::
            (st.next, HObject.arrayBuffer (sliceBytes bytes off (off + len))) :: st.heap)
            st.next = _
          rw [alookup_cons, if_neg (by omega), alookup_cons, if_pos rfl]
        · show alookup ((st.next + 1,
            HObject.typedArray .nodeBuf st.next 0 (sliceBytes bytes off (off + len)).length) ::
            (st.next, HObject.arrayBuffer (sliceBytes bytes off (off + len))) :: st.heap)
            bufRef = _
          rw [alookup_cons, if_neg (by omega), alookup_cons, if_neg (by omega)]
          exact hbuf
      all_goals cases h
    · rw [if_neg (by simp [isNodeBuffer, hk])] at h
      simp only [cloneObjRest] at h
      split at h
      case _ bytes2 heq =>
        rw [hbuf] at heq
        cases heq
        cases h
        refine ⟨rfl, ?_, ?_, by omega, ?_⟩
        · show alookup ((st.next + 1,
            HObject.typedArray kind st.next 0 (sliceBytes bytes off (off + len)).length) ::
            (st.next, HObject.arrayBuffer (sliceBytes bytes off (off + len))) :: st.heap)
            (st.next + 1) = _
          rw [alookup_cons, if_pos rfl]
        · show alookup ((st.next + 1,
            HObject.typedArray kind st.next 0 (sliceBytes bytes off (off + len)).length) ::
            (st.next, HObject.arrayBuffer (sliceBytes bytes off (off + len))) :: st.heap)
            st.next = _
          rw [alookup_cons, if_neg (by omega), alookup_cons, if_pos rfl]
        · show alookup ((st.next + 1,
            HObject.typedArray kind st.next 0 (sliceBytes bytes off (off + len)).length) ::
            (st.next, HObject.arrayBuffer (sliceBytes bytes off (off + len))) :: st.heap)
            bufRef = _
          rw [alookup_cons, if_neg (by omega), alookup_cons, if_neg (by omega)]
          exact hbuf
      all_goals cases h
  case _ =>
    exact absurd hp (by assumption)

/-- An `Int16Array` view over bytes 2-5 of an 8-byte buffer. -/
def viewState : State :=
  { heap := [(0, .typedArray .int16 1 2 4),
             (1, .arrayBuffer [10, 11, 12, 13, 14, 15, 16, 17])],
    seen := [], cells := [], next := 2 }

/-- C6 witness: the windowed `Int16Array` clones to a same-kind view of
offset zero over a fresh 4-byte buffer holding exactly the window, with
the original buffer untouched. -/
theorem C6_typed_view_witness :
    resVal (internalDeepClone 10 envA (.vref 0) viewState) = .vref 3 ∧
    lookupH (resState viewState (internalDeepClone 10 envA (.vref 0) viewState)).heap 3 =
      some (.typedArray .int16 2 0 4) ∧
    lookupH (resState viewState (internalDeepClone 10 envA (.vref 0) viewState)).heap 2 =
      some (.arrayBuffer [12, 13, 14, 15]) ∧
    (2 : Nat) ≠ 1 ∧
    lookupH (resState viewState (internalDeepClone 10 envA (.vref 0) viewState)).heap 1 =
      some (.arrayBuffer [10, 11, 12, 13, 14, 15, 16, 17]) := by
  have hwf : WF viewState := by
    intro a o h
    show a < 2
    by_cases h0 : (0 : Nat) = a
    · omega
    · by_cases h1 : (1 : Nat) = a
      · omega
      · simp [viewState, lookupH, alookup, h0, h1] at h
  have h := C6_typed_view 9 envA 0 viewState
    (resVal (internalDeepClone 10 envA (.vref 0) viewState))
    (resState viewState (internalDeepClone 10 envA (.vref 0) viewState))
    .int16 1 2 4 [10, 11, 12, 13, 14, 15, 16, 17] hwf rfl rfl rfl rfl rfl
  exact ⟨h.1, h.2.1, h.2.2.1, by decide, h.2.2.2.2⟩

/-! ### C4: termination on cyclic graphs -/

/-- Address of a reference value. -/
def refOf : JSValue → Option Nat
  | .vref a => some a
  | _ => none

/-- References among the enumerable string-keyed data property values
(the only property values the engine recurses into). -/
def propChildRefs (props : List (PropKey × Desc)) : List Nat :=
  props.filterMap (fun p =>
    match p with
    | (.str _, .data v _ true _) => refOf v
    | _ => none)

/-- The child references a clone of this node recurses into. -/
def childRefs : HObject → List Nat
  | .arr _ elems _ => elems.filterMap (fun p => refOf p.2)
  | .set elems => elems.filterMap refOf
  | .map entries => entries.filterMap (fun p => refOf p.2)
  | .plain props => propChildRefs props
  | .inst _ props => propChildRefs props
  | _ => []

/-- `A` is a closed over-approximation of the traversable region: every
address of `A` is allocated and its traversed children stay in `A`. -/
def Closure (A : List Nat) (st : State) : Prop :=
  ∀ x ∈ A, ∃ o, lookupH st.heap x = some o ∧ ∀ c ∈ childRefs o, c ∈ A

/-- Number of addresses of `A` not yet registered in the seen map: the
termination measure. -/
def unseenCount (A : List Nat) (st : State) : Nat :=
  (A.filter (fun x => (alookup st.seen x).isNone)).length

theorem filter_length_mono {A : List Nat} {p q : Nat → Bool}
    (h : ∀ x, p x = true → q x = true) :
    (A.filter p).length ≤ (A.filter q).length := by
  induction A with
  | nil => simp
  | cons a A ih =>
    by_cases hp : p a = true
    · simp [List.filter_cons, hp, h a hp]
      omega
    · simp only [List.filter_cons]
      rw [if_neg (by simp [hp])]
      by_cases hq : q a = true
      · rw [if_pos (by simp [hq])]
        simp
        omega
      · rw [if_neg (by simp [hq])]
        exact ih

theorem filter_length_lt {A : List Nat} {p q : Nat → Bool} {a : Nat}
    (h : ∀ x, p x = true → q x = true) (hpa : p a = false) (hqa : q a = true)
    (ha : a ∈ A) :
    (A.filter p).length < (A.filter q).length := by
  induction A with
  | nil => cases ha
  | cons x A ih =>
    rcases List.mem_cons.1 ha with hx | hx
    · subst hx
      simp only [List.filter_cons]
      rw [if_neg (by simp [hpa]), if_pos (by simp [hqa])]
      simp only [List.length_cons]
      have := filter_length_mono (A := A) h
      omega
    · have hlt := ih hx
      simp only [List.filter_cons]
      by_cases hp : p x = true
      · rw [if_pos (by simp [hp]), if_pos (by simp [h x hp])]
        simpa using hlt
      · rw [if_neg (by simp [hp])]
        by_cases hq : q x = true
        · rw [if_pos (by simp [hq])]
          simp only [List.length_cons]
          omega
        · rw [if_neg (by simp [hq])]
          exact hlt

/-- A state step never increases the termination measure. -/
theorem unseenCount_step {A : List Nat} {st st2 : State} (hs : Step st st2) :
    unseenCount A st2 ≤ unseenCount A st := by
  refine filter_length_mono ?_
  intro x hx
  cases h2 : alookup st.seen x with
  | none => rfl
  | some t =>
    have := hs.2.2.1 x t h2
    rw [this] at hx
    cases hx

/-- Registering an unseen address of `A` strictly decreases the measure. -/
theorem unseenCount_register {A : List Nat} {st st2 : State} {a t : Nat}
    (ha : a ∈ A) (hmiss : alookup st.seen a = none)
    (hseen : st2.seen = (a, t) :: st.seen) :
    unseenCount A st2 < unseenCount A st := by
  unfold unseenCount
  rw [hseen]
  refine filter_length_lt (p := fun x => (alookup ((a, t) :: st.seen) x).isNone)
    (q := fun x => (alookup st.seen x).isNone) ?_ ?_ ?_ ha
  · intro x hx
    show (alookup st.seen x).isNone = true
    have hx2 : (alookup ((a, t) :: st.seen) x).isNone = true := hx
    rw [alookup_cons] at hx2
    by_cases hax : a = x
    · rw [if_pos hax] at hx2
      cases hx2
    · rw [if_neg hax] at hx2
      exact hx2
  · show (alookup ((a, t) :: st.seen) a).isNone = false
    rw [alookup_cons, if_pos rfl]
    rfl
  · show (alookup st.seen a).isNone = true
    rw [hmiss]
    rfl

/-- Closure of `A` survives a state step. -/
theorem closure_step {A : List Nat} {st st2 : State}
    (hc : Closure A st) (hwf : WF st) (hs : Step st st2) : Closure A st2 := by
  intro x hx
  obtain ⟨o, ho, hch⟩ := hc x hx
  exact ⟨o, hs.2.1 x o (hwf x o ho) ho, hch⟩

/-- Precondition for a recursive clone call at a given fuel budget. -/
def Pre (A : List Nat) (fc : Nat) (st : State) : Prop :=
  Closure A st ∧ WF st ∧ unseenCount A st < fc

/-- A recursive clone call that cannot run out of fuel under the
precondition. -/
def RecNoOom (A : List Nat) (fc : Nat) (rec : Rec) : Prop :=
  ∀ v st, Pre A fc st → (∀ c, v = .vref c → c ∈ A) → rec v st ≠ .oom

theorem pre_step {A : List Nat} {fc : Nat} {st st2 : State}
    (hpre : Pre A fc st) (hs : Step st st2) : Pre A fc st2 :=
  ⟨closure_step hpre.1 hpre.2.1 hs, hs.2.2.2.2.2.1 hpre.2.1,
    lt_of_le_of_lt (unseenCount_step hs) hpre.2.2⟩

theorem cloneVals_no_oom {A : List Nat} {fc : Nat} {rec : Rec}
    (hstep : RecStep rec) (hrec : RecNoOom A fc rec) :
    ∀ xs st, Pre A fc st → (∀ x ∈ xs, ∀ c, x = .vref c → c ∈ A) →
      cloneVals rec xs st ≠ .oom := by
  intro xs
  induction xs with
  | nil => intro st _ _; simp [cloneVals]
  | cons x xs ih =>
    intro st hpre hxs
    simp only [cloneVals]
    cases hr : rec x st with
    | ok v st1 =>
      cases hr2 : cloneVals rec xs st1 with
      | ok vs st2 => simp [hr, hr2]
      | thrown e => simp [hr, hr2]
      | stuck => simp [hr, hr2]
      | oom =>
        exact absurd hr2 (ih st1 (pre_step hpre (hstep _ _ _ _ hr))
          (fun y hy => hxs y (List.mem_cons_of_mem _ hy)))
    | thrown e => simp [hr]
    | stuck => simp [hr]
    | oom => exact absurd hr (hrec x st hpre (hxs x (List.mem_cons_self _ _)))

theorem cloneEntries_no_oom {A : List Nat} {fc : Nat} {rec : Rec}
    (hstep : RecStep rec) (hrec : RecNoOom A fc rec) :
    ∀ xs st, Pre A fc st → (∀ p ∈ xs, ∀ c, (p : JSValue × JSValue).2 = .vref c → c ∈ A) →
      cloneEntries rec xs st ≠ .oom := by
  intro xs
  induction xs with
  | nil => intro st _ _; simp [cloneEntries]
  | cons x xs ih =>
    intro st hpre hxs
    obtain ⟨k, x0⟩ := x
    simp only [cloneEntries]
    cases hr : rec x0 st with
    | ok v st1 =>
      cases hr2 : cloneEntries rec xs st1 with
      | ok vs st2 => simp [hr, hr2]
      | thrown e => simp [hr, hr2]
      | stuck => simp [hr, hr2]
      | oom =>
        exact absurd hr2 (ih st1 (pre_step hpre (hstep _ _ _ _ hr))
          (fun y hy => hxs y (List.mem_cons_of_mem _ hy)))
    | thrown e => simp [hr]
    | stuck => simp [hr]
    | oom => exact absurd hr (hrec x0 st hpre (hxs (k, x0) (List.mem_cons_self _ _)))

theorem cloneSparse_no_oom {A : List Nat} {fc : Nat} {rec : Rec}
    {elems : List (Nat × JSValue)}
    (hstep : RecStep rec) (hrec : RecNoOom A fc rec)
    (helems : ∀ i x, alookup elems i = some x → ∀ c, x = .vref c → c ∈ A) :
    ∀ is st, Pre A fc st → cloneSparse rec elems is st ≠ .oom := by
  intro is
  induction is with
  | nil => intro st _; simp [cloneSparse]
  | cons i is ih =>
    intro st hpre
    simp only [cloneSparse]
    cases hx : alookup elems i with
    | none => exact ih st hpre
    | some x =>
      cases hr : rec x st with
      | ok v st1 =>
        cases hr2 : cloneSparse rec elems is st1 with
        | ok vs st2 => simp [hr, hr2]
        | thrown e => simp [hr, hr2]
        | stuck => simp [hr, hr2]
        | oom => exact absurd hr2 (ih st1 (pre_step hpre (hstep _ _ _ _ hr)))
      | thrown e => simp [hr]
      | stuck => simp [hr]
      | oom => exact absurd hr (hrec x st hpre (helems i x hx))

theorem cloneDense_no_oom {A : List Nat} {fc : Nat} {rec : Rec}
    {elems : List (Nat × JSValue)}
    (hstep : RecStep rec) (hrec : RecNoOom A fc rec)
    (helems : ∀ i x, alookup elems i = some x → ∀ c, x = .vref c → c ∈ A) :
    ∀ is st, Pre A fc st → cloneDense rec elems is st ≠ .oom := by
  intro is
  induction is with
  | nil => intro st _; simp [cloneDense]
  | cons i is ih =>
    intro st hpre
    simp only [cloneDense]
    cases hr : rec ((alookup elems i).getD .vundefined) st with
    | ok v st1 =>
      cases hr2 : cloneDense rec elems is st1 with
      | ok vs st2 => simp [hr, hr2]
      | thrown e => simp [hr, hr2]
      | stuck => simp [hr, hr2]
      | oom => exact absurd hr2 (ih st1 (pre_step hpre (hstep _ _ _ _ hr)))
    | thrown e => simp [hr]
    | stuck => simp [hr]
    | oom =>
      refine absurd hr (hrec _ st hpre ?_)
      intro c hc
      cases hx : alookup elems i with
      | none => rw [hx] at hc; cases hc
      | some x =>
        rw [hx] at hc
        exact helems i x hx c hc

theorem cloneProps_no_oom {A : List Nat} {fc : Nat} {rec : Rec} {pf : Bool}
    (hstep : RecStep rec) (hrec : RecNoOom A fc rec) :
    ∀ xs st, Pre A fc st →
      (∀ p ∈ xs, ∀ v w e c2 c, (p : PropKey × Desc).2 = .data v w e c2 →
        v = .vref c → c ∈ A) →
      cloneProps rec pf xs st ≠ .oom := by
  intro xs
  induction xs with
  | nil => intro st _ _; simp [cloneProps]
  | cons x xs ih =>
    intro st hpre hxs
    obtain ⟨k, d⟩ := x
    cases d with
    | accessor g s e c =>
      simp only [cloneProps]
      cases hr2 : cloneProps rec pf xs st with
      | ok vs st2 => simp [hr2]
      | thrown e2 => simp [hr2]
      | stuck => simp [hr2]
      | oom =>
        exact absurd hr2 (ih st hpre (fun y hy => hxs y (List.mem_cons_of_mem _ hy)))
    | data x0 w e c =>
      simp only [cloneProps]
      cases hr : rec x0 st with
      | ok v st1 =>
        cases hr2 : cloneProps rec pf xs st1 with
        | ok vs st2 => simp [hr, hr2]
        | thrown e2 => simp [hr, hr2]
        | stuck => simp [hr, hr2]
        | oom =>
          exact absurd hr2 (ih st1 (pre_step hpre (hstep _ _ _ _ hr))
            (fun y hy => hxs y (List.mem_cons_of_mem _ hy)))
      | thrown e2 => simp [hr]
      | stuck => simp [hr]
      | oom =>
        exact absurd hr (hrec x0 st hpre
          (fun c2 hc => hxs (k, .data x0 w e c) (List.mem_cons_self _ _) x0 w e c c2 rfl hc))

theorem cloneBufferLike_no_oom (env : Env) (a : Nat) (props : List (PropKey × Desc))
    (st : State) : cloneBufferLike env a props st ≠ .oom := by
  unfold cloneBufferLike
  split
  · split
    case _ b =>
      split
      case _ bytes =>
        split
        case _ offN lenN => split <;> simp
        all_goals simp
      all_goals simp
    all_goals simp
  · split <;> simp

theorem cloneNodeBuffer_no_oom (o : HObject) (st : State) :
    cloneNodeBuffer o st ≠ .oom := by
  unfold cloneNodeBuffer
  split
  · split <;> simp
  · simp

theorem cloneObjRest_no_oom {A : List Nat} {fc : Nat} {rec : Rec} {env : Env}
    {a : Nat} {o : HObject} {st : State}
    (hstep : RecStep rec) (hrec : RecNoOom A fc rec)
    (hcl : Closure A st) (hwf : WF st)
    (hcount : unseenCount A st < fc + 1)
    (hmiss : alookup st.seen a = none) (ha : a ∈ A)
    (hch : ∀ c ∈ childRefs o, c ∈ A) :
    cloneObjRest rec env a o st ≠ .oom := by
  intro h
  cases o with
  | arr len elems extra => simp [cloneObjRest] at h
  | date ts => simp [cloneObjRest] at h
  | regexp s f => simp [cloneObjRest] at h
  | typedArray kind bufRef off len =>
    simp only [cloneObjRest] at h
    split at h <;> cases h
  | arrayBuffer bytes => simp [cloneObjRest] at h
  | set elems =>
    simp only [cloneObjRest] at h
    split at h
    · cases h
    · cases h
    · cases h
    · rename_i hvals
      have hreg := step_register (HObject.set []) hmiss
      refine absurd hvals (cloneVals_no_oom hstep hrec elems _
        ⟨closure_step hcl hwf hreg, hreg.2.2.2.2.2.1 hwf,
          lt_of_lt_of_le (unseenCount_register ha hmiss rfl)
            (Nat.lt_succ_iff.mp hcount)⟩ ?_)
      intro x hx c hc
      refine hch c (List.mem_filterMap.2 ⟨x, hx, ?_⟩)
      rw [hc]
      rfl
  | map entries =>
    simp only [cloneObjRest] at h
    split at h
    · cases h
    · cases h
    · cases h
    · rename_i hvals
      have hreg := step_register (HObject.map []) hmiss
      refine absurd hvals (cloneEntries_no_oom hstep hrec entries _
        ⟨closure_step hcl hwf hreg, hreg.2.2.2.2.2.1 hwf,
          lt_of_lt_of_le (unseenCount_register ha hmiss rfl)
            (Nat.lt_succ_iff.mp hcount)⟩ ?_)
      intro p hp c hc
      refine hch c (List.mem_filterMap.2 ⟨p, hp, ?_⟩)
      rw [hc]
      rfl
  | plain props =>
    simp only [cloneObjRest] at h
    split at h
    · exact absurd h (cloneBufferLike_no_oom _ _ _ _)
    · split at h
      · cases h
      · cases h
      · cases h
      · rename_i hprops
        have hreg := step_register (HObject.plain []) hmiss
        refine absurd hprops (cloneProps_no_oom hstep hrec _ _
          ⟨closure_step hcl hwf hreg, hreg.2.2.2.2.2.1 hwf,
            lt_of_lt_of_le (unseenCount_register ha hmiss rfl)
              (Nat.lt_succ_iff.mp hcount)⟩ ?_)
        intro p hpmem v w e c2 c hdata hv
        obtain ⟨k, d⟩ := p
        have h1 := List.mem_filter.1 hpmem
        have h2 := List.mem_filter.1 h1.1
        have henum := h1.2
        cases hdata
        cases k with
        | sym s2 => simp [isStrKey] at h2
        | str s2 =>
          have he : e = true := by simpa [Desc.enum] using henum
          subst he
          refine hch c (List.mem_filterMap.2 ⟨(.str s2, .data v w true c2), h2.1, ?_⟩)
          rw [hv]
          rfl
  | inst proto props =>
    simp only [cloneObjRest] at h
    split at h
    · exact absurd h (cloneBufferLike_no_oom _ _ _ _)
    · split at h
      · cases h
      · cases h
      · cases h
      · rename_i hprops
        have hreg := step_register (HObject.inst proto []) hmiss
        refine absurd hprops (cloneProps_no_oom hstep hrec _ _
          ⟨closure_step hcl hwf hreg, hreg.2.2.2.2.2.1 hwf,
            lt_of_lt_of_le (unseenCount_register ha hmiss rfl)
              (Nat.lt_succ_iff.mp hcount)⟩ ?_)
        intro p hpmem v w e c2 c hdata hv
        obtain ⟨k, d⟩ := p
        have h1 := List.mem_filter.1 hpmem
        have h2 := List.mem_filter.1 h1.1
        have henum := h1.2
        cases hdata
        cases k with
        | sym s2 => simp [isStrKey] at h2
        | str s2 =>
          have he : e = true := by simpa [Desc.enum] using henum
          subst he
          refine hch c (List.mem_filterMap.2 ⟨(.str s2, .data v w true c2), h2.1, ?_⟩)
          rw [hv]
          rfl

theorem cloneObj_no_oom {A : List Nat} {fc : Nat} {rec : Rec} {env : Env}
    {a : Nat} {o : HObject} {st : State}
    (hstep : RecStep rec) (hrec : RecNoOom A fc rec)
    (hcl : Closure A st) (hwf : WF st)
    (hcount : unseenCount A st < fc + 1)
    (hmiss : alookup st.seen a = none) (ha : a ∈ A)
    (hch : ∀ c ∈ childRefs o, c ∈ A) :
    cloneObj rec env a o st ≠ .oom := by
  intro h
  cases o with
  | arr len elems extra =>
    have helems2 : ∀ i x, alookup elems i = some x → ∀ c, x = .vref c → c ∈ A := by
      intro i x hx c hc
      subst hc
      obtain ⟨p, hp, hpx⟩ := List.mem_map.1 (alookup_mem_values hx)
      refine hch c (List.mem_filterMap.2 ⟨p, hp, ?_⟩)
      rw [hpx]
      rfl
    have hreg := step_register (HObject.arr len [] []) hmiss
    have hpre2 : Pre A fc { (alloc st (HObject.arr len [] [])).2 with
        seen := (a, st.next) :: st.seen } :=
      ⟨closure_step hcl hwf hreg, hreg.2.2.2.2.2.1 hwf,
        lt_of_lt_of_le (unseenCount_register ha hmiss rfl) (Nat.lt_succ_iff.mp hcount)⟩
    simp only [cloneObj] at h
    split at h
    · split at h
      · cases h
      · cases h
      · cases h
      · rename_i hf
        exact absurd hf (cloneSparse_no_oom hstep hrec helems2 _ _ hpre2)
    · split at h
      · split at h
        · cases h
        · cases h
        · cases h
        · rename_i hf
          exact absurd hf (cloneDense_no_oom hstep hrec helems2 _ _ hpre2)
      · split at h
        · cases h
        · cases h
        · cases h
        · rename_i hf
          exact absurd hf (cloneSparse_no_oom hstep hrec helems2 _ _ hpre2)
  | date ts => simp [cloneObj] at h
  | regexp s f => simp [cloneObj] at h
  | typedArray kind bufRef off len =>
    simp only [cloneObj] at h
    split at h
    · cases h
    · split at h
      · exact absurd h (cloneNodeBuffer_no_oom _ _)
      · exact absurd h (cloneObjRest_no_oom hstep hrec hcl hwf hcount hmiss ha hch)
    · exact absurd h (cloneObjRest_no_oom hstep hrec hcl hwf hcount hmiss ha hch)
  | arrayBuffer bytes =>
    simp only [cloneObj] at h
    split at h
    · cases h
    · split at h
      · exact absurd h (cloneNodeBuffer_no_oom _ _)
      · exact absurd h (cloneObjRest_no_oom hstep hrec hcl hwf hcount hmiss ha hch)
    · exact absurd h (cloneObjRest_no_oom hstep hrec hcl hwf hcount hmiss ha hch)
  | set elems =>
    simp only [cloneObj] at h
    split at h
    · cases h
    · split at h
      · exact absurd h (cloneNodeBuffer_no_oom _ _)
      · exact absurd h (cloneObjRest_no_oom hstep hrec hcl hwf hcount hmiss ha hch)
    · exact absurd h (cloneObjRest_no_oom hstep hrec hcl hwf hcount hmiss ha hch)
  | map entries =>
    simp only [cloneObj] at h
    split at h
    · cases h
    · split at h
      · exact absurd h (cloneNodeBuffer_no_oom _ _)
      · exact absurd h (cloneObjRest_no_oom hstep hrec hcl hwf hcount hmiss ha hch)
    · exact absurd h (cloneObjRest_no_oom hstep hrec hcl hwf hcount hmiss ha hch)
  | plain props =>
    simp only [cloneObj] at h
    split at h
    · cases h
    · split at h
      · exact absurd h (cloneNodeBuffer_no_oom _ _)
      · exact absurd h (cloneObjRest_no_oom hstep hrec hcl hwf hcount hmiss ha hch)
    · exact absurd h (cloneObjRest_no_oom hstep hrec hcl hwf hcount hmiss ha hch)
  | inst proto props =>
    simp only [cloneObj] at h
    split at h
    · cases h
    · split at h
      · exact absurd h (cloneNodeBuffer_no_oom _ _)
      · exact absurd h (cloneObjRest_no_oom hstep hrec hcl hwf hcount hmiss ha hch)
    · exact absurd h (cloneObjRest_no_oom hstep hrec hcl hwf hcount hmiss ha hch)

/-- C4: on every well-formed input graph — cyclic or not — the clone
worker terminates: with any fuel exceeding the number of unregistered
addresses of a closed over-approximation `A` of the traversable region,
the run never exhausts its fuel, because every branch that recurses into
children first registers the freshly allocated target in the visited
map, so the number of unregistered traversable addresses strictly
decreases with recursion depth. -/
theorem C4_cycle_termination :
    ∀ (fuel : Nat) (A : List Nat) (env : Env) (v : JSValue) (st : State),
      Closure A st → WF st → (∀ c, v = .vref c → c ∈ A) →
      unseenCount A st < fuel →
      internalDeepClone fuel env v st ≠ .oom := by
  intro fuel
  induction fuel with
  | zero =>
    intro A env v st _ _ _ hcount
    exact absurd hcount (Nat.not_lt_zero _)
  | succ fuel ih =>
    intro A env v st hcl hwf hv hcount h
    cases v with
    | vref a =>
      simp only [internalDeepClone] at h
      split at h
      case _ t hhit => cases h
      case _ hmiss =>
        split at h
        · cases h
        case _ o ho =>
          have ha : a ∈ A := hv a rfl
          obtain ⟨o2, ho2, hch⟩ := hcl a ha
          rw [ho] at ho2
          cases ho2
          refine absurd h (cloneObj_no_oom
            (fun v2 st0 r2 st02 h2 => internalDeepClone_step fuel env v2 st0 r2 st02 h2)
            (fun v2 st0 hpre hv2 => ih A env v2 st0 hpre.1 hpre.2.1 hv2 hpre.2.2)
            hcl hwf hcount hmiss ha hch)
    | vundefined => cases h
    | vnull => cases h
    | vbool b => cases h
    | vnum n => cases h
    | vstr s => cases h
    | vsym id => cases h
    | vbig n => cases h
    | vfunc id => cases h

/-- C4 witness: the self-referential `{a: 1, self: v}` is cloned with
fuel 2 already, and the clone's `self` points back to the clone itself. -/
theorem C4_cycle_termination_witness :
    internalDeepClone 2 envA (.vref 0) cycState ≠ .oom ∧
    resVal (internalDeepClone 10 envA (.vref 0) cycState) = .vref 1 ∧
    ownData (resState cycState (internalDeepClone 10 envA (.vref 0) cycState)) 1
      (.str "self") = some (.vref 1) := by
  refine ⟨C4_cycle_termination 2 [0] envA (.vref 0) cycState ?_ ?_ ?_ ?_, rfl, rfl⟩
  · intro x hx
    have hx0 : x = 0 := by simpa using hx
    subst hx0
    exact ⟨_, rfl, by decide⟩
  · intro a o hlk
    show a < 1
    by_cases h0 : (0 : Nat) = a
    · omega
    · simp [cycState, lookupH, alookup, h0] at hlk
  · intro c hc
    cases hc
    simp
  · decide

/-! ### C9: structural equality -/

/-- Pairwise Boolean test of two lists. -/
def allZip {α β : Type} (f : α → β → Bool) : List α → List β → Bool
  | [], [] => true
  | x :: xs, y :: ys => f x y && allZip f xs ys
  | _, _ => false

/-- Structural equality of two descriptors, values compared by `rec`. -/
def descEqF (rec : JSValue → JSValue → Bool) : Desc → Desc → Bool
  | .data v1 w1 e1 c1, .data v2 w2 e2 c2 =>
    rec v1 v2 && (w1 == w2) && (e1 == e2) && (c1 == c2)
  | .accessor g1 s1 e1 c1, .accessor g2 s2 e2 c2 =>
    (g1 == g2) && (s1 == s2) && (e1 == e2) && (c1 == c2)
  | _, _ => false

/-- Structural equality of two heap nodes, children compared by `rec`. -/
def nodeEqF (rec : JSValue → JSValue → Bool) : HObject → HObject → Bool
  | .arr len1 elems1 extra1, .arr len2 elems2 extra2 =>
    (len1 == len2) &&
    allZip (fun p1 p2 => (p1.1 == p2.1) && rec p1.2 p2.2) elems1 elems2 &&
    allZip (fun p1 p2 => (p1.1 == p2.1) && rec p1.2 p2.2) extra1 extra2
  | .date t1, .date t2 => t1 == t2
  | .regexp s1 f1, .regexp s2 f2 => (s1 == s2) && (f1 == f2)
  | .typedArray k1 b1 o1 l1, .typedArray k2 b2 o2 l2 =>
    (k1 == k2) && (o1 == o2) && (l1 == l2) && rec (.vref b1) (.vref b2)
  | .arrayBuffer b1, .arrayBuffer b2 => b1 == b2
  | .set e1, .set e2 => allZip rec e1 e2
  | .map e1, .map e2 =>
    allZip (fun p1 p2 => rec p1.1 p2.1 && rec p1.2 p2.2) e1 e2
  | .plain p1, .plain p2 =>
    allZip (fun q1 q2 => (q1.1 == q2.1) && descEqF rec q1.2 q2.2) p1 p2
  | .inst pr1 p1, .inst pr2 p2 =>
    (pr1 == pr2) &&
    allZip (fun q1 q2 => (q1.1 == q2.1) && descEqF rec q1.2 q2.2) p1 p2
  | _, _ => false

/-- Strict structural equality up to unfolding depth `n` of two values in
one heap: at depth 0 everything is equal; references compare the
referenced nodes component-wise, recursing at one less depth.  Two
values are structurally equal when they are so at every depth, which on
finitely branching graphs is bisimilarity. -/
def structEqF : Nat → List (Nat × HObject) → JSValue → JSValue → Bool
  | 0, _, _, _ => true
  | n + 1, H, .vref a, .vref b =>
    match lookupH H a, lookupH H b with
    | some o1, some o2 => nodeEqF (structEqF n H) o1 o2
    | none, none => true
    | _, _ => false
  | _ + 1, _, x, y => x == y

/-- `(x || d) || d` is `x || d`: the defaulting of the buffer-like
branch is idempotent. -/
theorem jsOr_idem (x d : JSValue) : jsOr (jsOr x d) d = jsOr x d := by
  unfold jsOr
  by_cases h : truthy x = true
  · rw [if_pos h, if_pos h]
  · rw [if_neg h]
    by_cases h2 : truthy d = true
    · rw [if_pos h2]
    · rw [if_neg h2]

theorem cloneDense_keys {rec : Rec} {elems : List (Nat × JSValue)} :
    ∀ {is : List Nat} {st : State} {vs : List (Nat × JSValue)} {st2 : State},
      cloneDense rec elems is st = .ok vs st2 → vs.map Prod.fst = is := by
  intro is
  induction is with
  | nil =>
    intro st vs st2 h
    simp only [cloneDense] at h
    cases h
    rfl
  | cons i is ih =>
    intro st vs st2 h
    simp only [cloneDense] at h
    split at h
    case _ v st1 hr =>
      split at h
      case _ vs2 st3 hr2 =>
        cases h
        simpa using ih hr2
      all_goals cases h
    all_goals cases h

/-- Normality of a plain (non-buffer-like) object produced by the
engine: symbol entries first then string entries, everything enumerable,
and default attributes on string data properties when no string accessor
exists (the fast assignment path). -/
def PlainNormal (props : List (PropKey × Desc)) : Prop :=
  props = props.filter isSymKey ++ props.filter isStrKey ∧
  (∀ p ∈ props, p.2.enum = true) ∧
  ((props.filter isStrKey).any (fun p => p.2.isAccessor) = false →
    ∀ k v w e c, (PropKey.str k, Desc.data v w e c) ∈ props → w = true ∧ c = true)

/-- Normality of a buffer-like record produced by the duck-typed branch:
exactly the five fields in order, default attributes, an `ArrayBuffer`
behind `buffer`, and `||`-stable defaulted fields. -/
def DuckNormal (H : List (Nat × HObject)) (props : List (PropKey × Desc)) : Prop :=
  ∃ b bytes vbl vbo vl vbe,
    props = [(.str "buffer", .data (.vref b) true true true),
             (.str "byteLength", .data vbl true true true),
             (.str "byteOffset", .data vbo true true true),
             (.str "length", .data vl true true true),
             (.str "BYTES_PER_ELEMENT", .data vbe true true true)] ∧
    lookupH H b = some (.arrayBuffer bytes) ∧
    jsOr vbo (.vnum 0) = vbo ∧ jsOr vl vbl = vl ∧ jsOr vbe (.vnum 1) = vbe

/-- Nodes as the clone engine itself produces them: re-cloning such a
node reproduces it exactly.  Typed views have offset zero over a tight
buffer; arrays carry their present indices in ascending order and no
named properties; plain objects and instances have only enumerable
properties in the engine's emission order. -/
def NormalNode (env : Env) (H : List (Nat × HObject)) : HObject → Prop
  | .arr len elems extra =>
    extra = [] ∧
    elems.map Prod.fst = (List.range len).filter (fun i => (alookup elems i).isSome)
  | .date _ => True
  | .regexp _ _ => True
  | .arrayBuffer _ => True
  | .typedArray _ bufRef off len =>
    off = 0 ∧ ∃ bytes, lookupH H bufRef = some (.arrayBuffer bytes) ∧ len = bytes.length
  | .set _ => True
  | .map _ => True
  | .plain props =>
    if hasOwnKey props (.str "buffer") && hasOwnKey props (.str "byteLength")
    then DuckNormal H props ∧ env.probe ≠ .unavailable
    else PlainNormal props
  | .inst _ props =>
    (hasOwnKey props (.str "buffer") && hasOwnKey props (.str "byteLength")) = false ∧
    props = props.filter isStrKey ++ props.filter isSymKey ∧
    (∀ p ∈ props, p.2.enum = true)

/-- A fresh atomic copy of an unregistered node: dates, regexps and raw
buffers are copied verbatim; typed views become same-kind tight views
over an equal fresh buffer; buffer-like records are reproduced with a
fresh equal buffer. -/
def AtomicNodeCopy (H : List (Nat × HObject)) (o2 o1 : HObject) : Prop :=
  (o2 = o1 ∧ (match o1 with
    | .date _ => True | .regexp _ _ => True | .arrayBuffer _ => True | _ => False)) ∨
  (∃ kind b1 b2 bytes, o1 = .typedArray kind b1 0 bytes.length ∧
    o2 = .typedArray kind b2 0 bytes.length ∧
    lookupH H b1 = some (.arrayBuffer bytes) ∧ lookupH H b2 = some (.arrayBuffer bytes)) ∨
  (∃ b1 b2 bytes vbl vbo vl vbe,
    o1 = .plain [(.str "buffer", .data (.vref b1) true true true),
                 (.str "byteLength", .data vbl true true true),
                 (.str "byteOffset", .data vbo true true true),
                 (.str "length", .data vl true true true),
                 (.str "BYTES_PER_ELEMENT", .data vbe true true true)] ∧
    o2 = .plain [(.str "buffer", .data (.vref b2) true true true),
                 (.str "byteLength", .data vbl true true true),
                 (.str "byteOffset", .data vbo true true true),
                 (.str "length", .data vl true true true),
                 (.str "BYTES_PER_ELEMENT", .data vbe true true true)] ∧
    lookupH H b1 = some (.arrayBuffer bytes) ∧ lookupH H b2 = some (.arrayBuffer bytes))

/-- How the value a clone call returns relates to its argument: it is
the identical value (primitives and shared references), the registered
clone of the argument, or a fresh atomic copy of it. -/
def ValRel (S : List (Nat × Nat)) (H : List (Nat × HObject)) (y x : JSValue) : Prop :=
  y = x ∨
  (∃ b tb, x = .vref b ∧ y = .vref tb ∧ alookup S b = some tb) ∨
  (∃ b tb o1 o2, x = .vref b ∧ y = .vref tb ∧ lookupH H b = some o1 ∧
    lookupH H tb = some o2 ∧ AtomicNodeCopy H o2 o1)

/-- Relation between a cloned descriptor and its original: identical, or
a data descriptor with the same attributes and a related value. -/
def DescRel (S : List (Nat × Nat)) (H : List (Nat × HObject)) (d2 d1 : Desc) : Prop :=
  d2 = d1 ∨ (∃ y x w e c, d1 = .data x w e c ∧ d2 = .data y w e c ∧ ValRel S H y x)

/-- The registered clone of a normal node copies it component-wise. -/
def NodeCopy (S : List (Nat × Nat)) (H : List (Nat × HObject)) : HObject → HObject → Prop
  | .arr len2 elems2 extra2, .arr len1 elems1 _ =>
    len2 = len1 ∧ extra2 = [] ∧ elems2.map Prod.fst = elems1.map Prod.fst ∧
    ∀ p ∈ elems2, ∃ x, alookup elems1 p.1 = some x ∧ ValRel S H p.2 x
  | .set e2, .set e1 => List.Forall₂ (ValRel S H) e2 e1
  | .map m2, .map m1 =>
    List.Forall₂ (fun p2 p1 => p2.1 = p1.1 ∧ ValRel S H p2.2 p1.2) m2 m1
  | .plain p2, .plain p1 =>
    List.Forall₂ (fun q2 q1 => q2.1 = q1.1 ∧ DescRel S H q2.2 q1.2) p2 p1
  | .inst pr2 p2, .inst pr1 p1 =>
    pr2 = pr1 ∧ List.Forall₂ (fun q2 q1 => q2.1 = q1.1 ∧ DescRel S H q2.2 q1.2) p2 p1
  | _, _ => False

/-- A matched seen-map entry: the registered target is a component-wise
copy of the original. -/
def MatchE (S : List (Nat × Nat)) (H : List (Nat × HObject)) (a t : Nat) : Prop :=
  ∃ o1 o2, lookupH H a = some o1 ∧ lookupH H t = some o2 ∧ NodeCopy S H o2 o1

theorem lookup_step {st st2 : State} (hs : Step st st2) (hwf : WF st) {z : Nat}
    {o : HObject} (h : lookupH st.heap z = some o) : lookupH st2.heap z = some o :=
  hs.2.1 z o (hwf z o h) h

theorem atomicNodeCopy_step {st st2 : State} {o2 o1 : HObject}
    (hs : Step st st2) (hwf : WF st) (h : AtomicNodeCopy st.heap o2 o1) :
    AtomicNodeCopy st2.heap o2 o1 := by
  rcases h with h | h | h
  · exact Or.inl h
  · obtain ⟨kind, b1, b2, bytes, h1, h2, h3, h4⟩ := h
    exact Or.inr (Or.inl ⟨kind, b1, b2, bytes, h1, h2,
      lookup_step hs hwf h3, lookup_step hs hwf h4⟩)
  · obtain ⟨b1, b2, bytes, vbl, vbo, vl, vbe, h1, h2, h3, h4⟩ := h
    exact Or.inr (Or.inr ⟨b1, b2, bytes, vbl, vbo, vl, vbe, h1, h2,
      lookup_step hs hwf h3, lookup_step hs hwf h4⟩)

theorem valRel_step {st st2 : State} {y x : JSValue}
    (hs : Step st st2) (hwf : WF st) (h : ValRel st.seen st.heap y x) :
    ValRel st2.seen st2.heap y x := by
  rcases h with h | h | h
  · exact Or.inl h
  · obtain ⟨b, tb, h1, h2, h3⟩ := h
    exact Or.inr (Or.inl ⟨b, tb, h1, h2, hs.2.2.1 b tb h3⟩)
  · obtain ⟨b, tb, o1, o2, h1, h2, h3, h4, h5⟩ := h
    exact Or.inr (Or.inr ⟨b, tb, o1, o2, h1, h2, lookup_step hs hwf h3,
      lookup_step hs hwf h4, atomicNodeCopy_step hs hwf h5⟩)

theorem descRel_step {st st2 : State} {d2 d1 : Desc}
    (hs : Step st st2) (hwf : WF st) (h : DescRel st.seen st.heap d2 d1) :
    DescRel st2.seen st2.heap d2 d1 := by
  rcases h with h | h
  · exact Or.inl h
  · obtain ⟨y, x, w, e, c, h1, h2, h3⟩ := h
    exact Or.inr ⟨y, x, w, e, c, h1, h2, valRel_step hs hwf h3⟩

theorem nodeCopy_step {st st2 : State} {o2 o1 : HObject}
    (hs : Step st st2) (hwf : WF st) (h : NodeCopy st.seen st.heap o2 o1) :
    NodeCopy st2.seen st2.heap o2 o1 := by
  cases o2 <;> cases o1 <;> simp only [NodeCopy] at h ⊢ <;> try exact h
  · obtain ⟨h1, h2, h3, h4⟩ := h
    exact ⟨h1, h2, h3, fun p hp =>
      (h4 p hp).elim (fun x hx => ⟨x, hx.1, valRel_step hs hwf hx.2⟩)⟩
  · exact h.imp (fun _ _ h2 => valRel_step hs hwf h2)
  · exact h.imp (fun _ _ h2 => ⟨h2.1, valRel_step hs hwf h2.2⟩)
  · exact h.imp (fun _ _ h2 => ⟨h2.1, descRel_step hs hwf h2.2⟩)
  · exact ⟨h.1, h.2.imp (fun _ _ h2 => ⟨h2.1, descRel_step hs hwf h2.2⟩)⟩

theorem matchE_step {st st2 : State} {a t : Nat}
    (hs : Step st st2) (hwf : WF st) (h : MatchE st.seen st.heap a t) :
    MatchE st2.seen st2.heap a t := by
  obtain ⟨o1, o2, h1, h2, h3⟩ := h
  exact ⟨o1, o2, lookup_step hs hwf h1, lookup_step hs hwf h2, nodeCopy_step hs hwf h3⟩

theorem normalNode_step {env : Env} {st st2 : State} {o : HObject}
    (hs : Step st st2) (hwf : WF st) (h : NormalNode env st.heap o) :
    NormalNode env st2.heap o := by
  cases o <;> simp only [NormalNode] at h ⊢ <;> try exact h
  · obtain ⟨h1, bytes, h2, h3⟩ := h
    exact ⟨h1, bytes, lookup_step hs hwf h2, h3⟩
  · split at h
    case _ hduck =>
      rw [if_pos hduck]
      obtain ⟨⟨b, bytes, vbl, vbo, vl, vbe, h1, h2, h3, h4, h5⟩, hp⟩ := h
      exact ⟨⟨b, bytes, vbl, vbo, vl, vbe, h1, lookup_step hs hwf h2, h3, h4, h5⟩, hp⟩
    case _ hduck =>
      rw [if_neg hduck]
      exact h

theorem allZip_self {α : Type} {f : α → α → Bool} :
    ∀ {l : List α}, (∀ x ∈ l, f x x = true) → allZip f l l = true := by
  intro l
  induction l with
  | nil => intro _; rfl
  | cons x xs ih =>
    intro h
    simp only [allZip, Bool.and_eq_true]
    exact ⟨h x (List.mem_cons_self _ _), ih (fun y hy => h y (List.mem_cons_of_mem _ hy))⟩

theorem descEqF_refl {rec : JSValue → JSValue → Bool} {d : Desc}
    (hrec : ∀ v, rec v v = true) : descEqF rec d d = true := by
  cases d <;> simp [descEqF, hrec]

theorem nodeEqF_refl {rec : JSValue → JSValue → Bool} {o : HObject}
    (hrec : ∀ v, rec v v = true) : nodeEqF rec o o = true := by
  cases o with
  | arr len elems extra =>
    simp only [nodeEqF, Bool.and_eq_true]
    refine ⟨⟨by simp, allZip_self (fun p _ => ?_)⟩, allZip_self (fun p _ => ?_)⟩ <;>
      simp [hrec]
  | date ts => simp [nodeEqF]
  | regexp s f => simp [nodeEqF]
  | typedArray kind b o2 l => simp [nodeEqF, hrec]
  | arrayBuffer bytes => simp [nodeEqF]
  | set elems => exact allZip_self (fun x _ => hrec x)
  | map entries =>
    exact allZip_self (fun p _ => by simp [hrec])
  | plain props =>
    exact allZip_self (fun p _ => by simp [descEqF_refl hrec])
  | inst proto props =>
    simp only [nodeEqF, Bool.and_eq_true]
    exact ⟨by simp, allZip_self (fun p _ => by simp [descEqF_refl hrec])⟩

/-- A value is structurally equal to itself at every depth. -/
theorem structEqF_refl (H : List (Nat × HObject)) :
    ∀ n x, structEqF n H x x = true := by
  intro n
  induction n with
  | zero => intro x; rfl
  | succ n ih =>
    intro x
    cases x <;> simp only [structEqF] <;> try simp
    case vref a =>
      cases h : lookupH H a with
      | none => rfl
      | some o => exact nodeEqF_refl ih

/-! ### Generic relational properties of the clone folds

Each fold lemma is parameterised by an invariant `Inv` on states, a
relation `Q` between a cloned child and its original (at the state the
fold ends in), and a guard `G` restricting the values the recursive
call is fed (the fuel induction hypothesis only covers region
children). -/

theorem cloneVals_rel {Inv : State → Prop} {Q : State → JSValue → JSValue → Prop}
    {G : JSValue → Prop} {rec : Rec} (hstep : RecStep rec)
    (hrec : ∀ x st y st2, G x → Inv st → rec x st = .ok y st2 → Inv st2 ∧ Q st2 y x)
    (hQmono : ∀ st st2 y x, Inv st → Q st y x → Step st st2 → Q st2 y x) :
    ∀ xs st vs st2, (∀ x ∈ xs, G x) → Inv st → cloneVals rec xs st = .ok vs st2 →
      Inv st2 ∧ List.Forall₂ (fun y x => Q st2 y x) vs xs := by
  intro xs
  induction xs with
  | nil =>
    intro st vs st2 _ hInv h
    simp only [cloneVals] at h
    cases h
    exact ⟨hInv, List.Forall₂.nil⟩
  | cons x xs ih =>
    intro st vs st2 hG hInv h
    simp only [cloneVals] at h
    split at h
    case _ v st1 hr =>
      split at h
      case _ vs2 st3 hr2 =>
        cases h
        obtain ⟨hInv1, hQ1⟩ := hrec x st v st1 (hG x (List.mem_cons_self _ _)) hInv hr
        obtain ⟨hInv3, hF⟩ := ih st1 vs2 st2 (fun y hy => hG y (List.mem_cons_of_mem _ hy))
          hInv1 hr2
        exact ⟨hInv3, List.Forall₂.cons
          (hQmono st1 st2 v x hInv1 hQ1 (cloneVals_step hstep xs st1 vs2 st2 hr2)) hF⟩
      all_goals cases h
    all_goals cases h

theorem cloneEntries_rel {Inv : State → Prop} {Q : State → JSValue → JSValue → Prop}
    {G : JSValue → Prop} {rec : Rec} (hstep : RecStep rec)
    (hrec : ∀ x st y st2, G x → Inv st → rec x st = .ok y st2 → Inv st2 ∧ Q st2 y x)
    (hQmono : ∀ st st2 y x, Inv st → Q st y x → Step st st2 → Q st2 y x) :
    ∀ xs st vs st2, (∀ p ∈ xs, G (p : JSValue × JSValue).2) → Inv st →
      cloneEntries rec xs st = .ok vs st2 →
      Inv st2 ∧ List.Forall₂ (fun p2 p1 =>
        (p2 : JSValue × JSValue).1 = (p1 : JSValue × JSValue).1 ∧ Q st2 p2.2 p1.2) vs xs := by
  intro xs
  induction xs with
  | nil =>
    intro st vs st2 _ hInv h
    simp only [cloneEntries] at h
    cases h
    exact ⟨hInv, List.Forall₂.nil⟩
  | cons x xs ih =>
    intro st vs st2 hG hInv h
    obtain ⟨k, x0⟩ := x
    simp only [cloneEntries] at h
    split at h
    case _ v st1 hr =>
      split at h
      case _ vs2 st3 hr2 =>
        cases h
        obtain ⟨hInv1, hQ1⟩ := hrec x0 st v st1 (hG (k, x0) (List.mem_cons_self _ _)) hInv hr
        obtain ⟨hInv3, hF⟩ := ih st1 vs2 st2 (fun p hp => hG p (List.mem_cons_of_mem _ hp))
          hInv1 hr2
        exact ⟨hInv3, List.Forall₂.cons
          ⟨rfl, hQmono st1 st2 v x0 hInv1 hQ1 (cloneEntries_step hstep xs st1 vs2 st2 hr2)⟩ hF⟩
      all_goals cases h
    all_goals cases h

theorem cloneProps_rel {Inv : State → Prop} {Q : State → JSValue → JSValue → Prop}
    {G : JSValue → Prop} {rec : Rec} {pf : Bool} (hstep : RecStep rec)
    (hrec : ∀ x st y st2, G x → Inv st → rec x st = .ok y st2 → Inv st2 ∧ Q st2 y x)
    (hQmono : ∀ st st2 y x, Inv st → Q st y x → Step st st2 → Q st2 y x) :
    ∀ xs st vs st2,
      (∀ p ∈ xs, ∀ v w e c, (p : PropKey × Desc).2 = .data v w e c → G v) → Inv st →
      cloneProps rec pf xs st = .ok vs st2 →
      Inv st2 ∧ List.Forall₂ (fun p2 p1 =>
        (p2 : PropKey × Desc).1 = (p1 : PropKey × Desc).1 ∧
        ((p2.2 = p1.2 ∧ p1.2.isAccessor = true) ∨
         (∃ y x w e c, p1.2 = .data x w e c ∧
           p2.2 = .data y (if pf then w else true) (if pf then e else true)
             (if pf then c else true) ∧ Q st2 y x))) vs xs := by
  intro xs
  induction xs with
  | nil =>
    intro st vs st2 _ hInv h
    simp only [cloneProps] at h
    cases h
    exact ⟨hInv, List.Forall₂.nil⟩
  | cons x xs ih =>
    intro st vs st2 hG hInv h
    obtain ⟨k, d⟩ := x
    cases d with
    | accessor g s e c =>
      simp only [cloneProps] at h
      split at h
      case _ vs2 st3 hr2 =>
        cases h
        obtain ⟨hInv3, hF⟩ := ih st vs2 st2 (fun p hp => hG p (List.mem_cons_of_mem _ hp))
          hInv hr2
        exact ⟨hInv3, List.Forall₂.cons ⟨rfl, Or.inl ⟨rfl, rfl⟩⟩ hF⟩
      all_goals cases h
    | data x0 w e c =>
      simp only [cloneProps] at h
      split at h
      case _ v st1 hr =>
        split at h
        case _ vs2 st3 hr2 =>
          cases h
          obtain ⟨hInv1, hQ1⟩ := hrec x0 st v st1
            (hG (k, .data x0 w e c) (List.mem_cons_self _ _) x0 w e c rfl) hInv hr
          obtain ⟨hInv3, hF⟩ := ih st1 vs2 st2 (fun p hp => hG p (List.mem_cons_of_mem _ hp))
            hInv1 hr2
          refine ⟨hInv3, List.Forall₂.cons ⟨rfl, Or.inr ⟨v, x0, w, e, c, rfl, ?_, ?_⟩⟩ hF⟩
          · cases pf <;> simp
          · exact hQmono st1 st2 v x0 hInv1 hQ1 (cloneProps_step hstep pf xs st1 vs2 st2 hr2)
        all_goals cases h
      all_goals cases h

theorem cloneSparse_rel {Inv : State → Prop} {Q : State → JSValue → JSValue → Prop}
    {G : JSValue → Prop} {rec : Rec} {elems : List (Nat × JSValue)} (hstep : RecStep rec)
    (hrec : ∀ x st y st2, G x → Inv st → rec x st = .ok y st2 → Inv st2 ∧ Q st2 y x)
    (hQmono : ∀ st st2 y x, Inv st → Q st y x → Step st st2 → Q st2 y x)
    (hG : ∀ i x, alookup elems i = some x → G x) :
    ∀ is st vs st2, Inv st → cloneSparse rec elems is st = .ok vs st2 →
      Inv st2 ∧ ∀ p ∈ vs, ∃ x, alookup elems (p : Nat × JSValue).1 = some x ∧ Q st2 p.2 x := by
  intro is
  induction is with
  | nil =>
    intro st vs st2 hInv h
    simp only [cloneSparse] at h
    cases h
    exact ⟨hInv, by simp⟩
  | cons i is ih =>
    intro st vs st2 hInv h
    simp only [cloneSparse] at h
    split at h
    case _ hx => exact ih st vs st2 hInv h
    case _ x hx =>
      split at h
      case _ v st1 hr =>
        split at h
        case _ vs2 st3 hr2 =>
          cases h
          obtain ⟨hInv1, hQ1⟩ := hrec x st v st1 (hG i x hx) hInv hr
          obtain ⟨hInv3, hF⟩ := ih st1 vs2 st2 hInv1 hr2
          refine ⟨hInv3, fun p hp => ?_⟩
          rcases List.mem_cons.1 hp with hp | hp
          · subst hp
            exact ⟨x, hx, hQmono st1 st2 v x hInv1 hQ1
              (cloneSparse_step hstep elems is st1 vs2 st2 hr2)⟩
          · exact hF p hp
        all_goals cases h
      all_goals cases h

theorem cloneDense_rel {Inv : State → Prop} {Q : State → JSValue → JSValue → Prop}
    {G : JSValue → Prop} {rec : Rec} {elems : List (Nat × JSValue)} (hstep : RecStep rec)
    (hrec : ∀ x st y st2, G x → Inv st → rec x st = .ok y st2 → Inv st2 ∧ Q st2 y x)
    (hQmono : ∀ st st2 y x, Inv st → Q st y x → Step st st2 → Q st2 y x)
    (hG : ∀ i, G ((alookup elems i).getD .vundefined)) :
    ∀ is st vs st2, Inv st → cloneDense rec elems is st = .ok vs st2 →
      Inv st2 ∧ ∀ p ∈ vs, Q st2 (p : Nat × JSValue).2 ((alookup elems p.1).getD .vundefined) := by
  intro is
  induction is with
  | nil =>
    intro st vs st2 hInv h
    simp only [cloneDense] at h
    cases h
    exact ⟨hInv, by simp⟩
  | cons i is ih =>
    intro st vs st2 hInv h
    simp only [cloneDense] at h
    split at h
    case _ v st1 hr =>
      split at h
      case _ vs2 st3 hr2 =>
        cases h
        obtain ⟨hInv1, hQ1⟩ := hrec _ st v st1 (hG i) hInv hr
        obtain ⟨hInv3, hF⟩ := ih st1 vs2 st2 hInv1 hr2
        refine ⟨hInv3, fun p hp => ?_⟩
        rcases List.mem_cons.1 hp with hp | hp
        · subst hp
          exact hQmono st1 st2 v _ hInv1 hQ1 (cloneDense_step hstep elems is st1 vs2 st2 hr2)
        · exact hF p hp
      all_goals cases h
    all_goals cases h

/-! ### C9: the two-run invariants

`L` is the allocation counter before the first clone run; everything the
first run builds lives at addresses `≥ L` and is a *normal* node.  `M`
is the counter before the second run; the second run only ever
dispatches on nodes in `[L, M)`, which it never modifies. -/

/-- The condition a predicate imposes on exactly the child values a
clone of this node recurses into: array elements, set elements, map
values, and enumerable string-keyed data property values — except that
the duck-typed buffer-like branch recurses into nothing. -/
def OnRecChildren (Pr : JSValue → Prop) : HObject → Prop
  | .arr _ elems _ => ∀ p ∈ elems, Pr p.2
  | .set elems => ∀ v ∈ elems, Pr v
  | .map entries => ∀ p ∈ entries, Pr p.2
  | .plain props =>
    if hasOwnKey props (.str "buffer") && hasOwnKey props (.str "byteLength") then True
    else ∀ s v w c, (PropKey.str s, Desc.data v w true c) ∈ props → Pr v
  | .inst _ props => ∀ s v w c, (PropKey.str s, Desc.data v w true c) ∈ props → Pr v
  | _ => True

theorem onRecChildren_mono {Pr Q : JSValue → Prop} {o : HObject}
    (himp : ∀ v, Pr v → Q v) (h : OnRecChildren Pr o) : OnRecChildren Q o := by
  cases o <;> simp only [OnRecChildren] at h ⊢
  · exact fun p hp => himp _ (h p hp)
  · exact fun v hv => himp _ (h v hv)
  · exact fun p hp => himp _ (h p hp)
  · split at h
    case _ hduck => rw [if_pos hduck]; trivial
    case _ hduck =>
      rw [if_neg hduck]
      exact fun s v w c hm => himp _ (h s v w c hm)
  · exact fun s v w c hm => himp _ (h s v w c hm)

/-- During the first run, every node at or above `L` is an engine-built
normal node whose traversed children are again in the region and already
allocated. -/
def GoodRegionN (env : Env) (L : Nat) (H : List (Nat × HObject)) (n : Nat) : Prop :=
  ∀ a o, L ≤ a → lookupH H a = some o →
    NormalNode env H o ∧
    OnRecChildren (fun v => ∀ b, v = .vref b → L ≤ b ∧ b < n) o

/-- During the second run, the frozen band `[L, M)` of first-run output
nodes: normal, with traversed children staying inside the band. -/
def GoodRegionC (env : Env) (L M : Nat) (H : List (Nat × HObject)) : Prop :=
  ∀ a o, L ≤ a → a < M → lookupH H a = some o →
    NormalNode env H o ∧
    OnRecChildren (fun v => ∀ b, v = .vref b → L ≤ b ∧ b < M) o

/-- Invariant of the first clone run. -/
def NInv (env : Env) (L : Nat) (st : State) : Prop :=
  WF st ∧ SeenInv st ∧ L ≤ st.next ∧
  (∀ k t, alookup st.seen k = some t → L ≤ t) ∧
  GoodRegionN env L st.heap st.next

/-- What the first run guarantees about a returned value: any reference
it returns was allocated inside the region. -/
def QN (L : Nat) (st : State) (y : JSValue) : Prop :=
  ∀ b, y = .vref b → L ≤ b ∧ b < st.next

/-- A value fed to the second run: any reference falls in the frozen
band. -/
def GC2 (L M : Nat) (x : JSValue) : Prop :=
  ∀ b, x = .vref b → L ≤ b ∧ b < M

/-- All registered originals have a matched (component-wise copied)
target, except the pending ancestors `P` whose targets are still being
populated. -/
def CMatched (P : List Nat) (st : State) : Prop :=
  ∀ a t, alookup st.seen a = some t → a ∈ P ∨ MatchE st.seen st.heap a t

/-- Invariant of the second clone run with pending set `P`. -/
def CInv (env : Env) (L M : Nat) (P : List Nat) (st : State) : Prop :=
  WF st ∧ SeenInv st ∧ M ≤ st.next ∧
  (∀ k t, alookup st.seen k = some t → L ≤ k ∧ k < M) ∧
  GoodRegionC env L M st.heap ∧ CMatched P st

/-- A still-unpopulated registered target. -/
def placeholderEmpty : HObject → Prop
  | .arr _ elems extra => elems = [] ∧ extra = []
  | .set elems => elems = []
  | .map entries => entries = []
  | .plain props => props = []
  | .inst _ props => props = []
  | _ => False

/-! ### List helpers for the idempotence proof -/

theorem sliceBytes_full (bytes : List Nat) : sliceBytes bytes 0 bytes.length = bytes := by
  simp [sliceBytes]

theorem sliceBytes_len {bytes : List Nat} {start n : Nat} (h : start + n ≤ bytes.length) :
    (sliceBytes bytes start (start + n)).length = n := by
  simp only [sliceBytes, List.length_take, List.length_drop]
  omega

theorem forall2_imp_mem {α β : Type} {R S : α → β → Prop} :
    ∀ {l1 : List α} {l2 : List β}, List.Forall₂ R l1 l2 →
      (∀ a b, a ∈ l1 → b ∈ l2 → R a b → S a b) → List.Forall₂ S l1 l2 := by
  intro l1 l2 h
  induction h with
  | nil => intro _; exact List.Forall₂.nil
  | cons hab htl ih =>
    intro himp
    refine List.Forall₂.cons
      (himp _ _ (List.mem_cons_self _ _) (List.mem_cons_self _ _) hab) ?_
    exact ih (fun a b ha hb hr =>
      himp a b (List.mem_cons_of_mem _ ha) (List.mem_cons_of_mem _ hb) hr)

theorem forall2_mem_left {α β : Type} {R : α → β → Prop} :
    ∀ {l1 : List α} {l2 : List β}, List.Forall₂ R l1 l2 →
      ∀ a ∈ l1, ∃ b ∈ l2, R a b := by
  intro l1 l2 h
  induction h with
  | nil => intro a ha; cases ha
  | cons hab htl ih =>
    intro a ha
    rcases List.mem_cons.1 ha with ha | ha
    · subst ha
      exact ⟨_, List.mem_cons_self _ _, hab⟩
    · obtain ⟨b, hb, hr⟩ := ih a ha
      exact ⟨b, List.mem_cons_of_mem _ hb, hr⟩

theorem forall2_of_keys_lookup {α : Type} {R : α → α → Prop} :
    ∀ {l1 l2 : List (Nat × α)},
      l2.map Prod.fst = l1.map Prod.fst → (l1.map Prod.fst).Nodup →
      (∀ p ∈ l2, ∃ x, alookup l1 p.1 = some x ∧ R p.2 x) →
      List.Forall₂ (fun p2 p1 => p2.1 = p1.1 ∧ R p2.2 p1.2) l2 l1 := by
  intro l1
  induction l1 with
  | nil =>
    intro l2 hk _ _
    have : l2 = [] := by
      cases l2 with
      | nil => rfl
      | cons p l2 => simp at hk
    subst this
    exact List.Forall₂.nil
  | cons p1 l1 ih =>
    intro l2 hk hnd h
    cases l2 with
    | nil => simp at hk
    | cons p2 l2 =>
      simp only [List.map_cons, List.cons.injEq] at hk
      have hnd2 := hnd
      rw [List.map_cons, List.nodup_cons] at hnd2
      obtain ⟨x, hx, hr⟩ := h p2 (List.mem_cons_self _ _)
      rw [alookup_cons, hk.1, if_pos rfl] at hx
      cases hx
      refine List.Forall₂.cons ⟨hk.1, hr⟩ (ih hk.2 hnd2.2 ?_)
      intro p hp
      obtain ⟨y, hy, hry⟩ := h p (List.mem_cons_of_mem _ hp)
      refine ⟨y, ?_, hry⟩
      rw [alookup_cons] at hy
      by_cases hne : p1.1 = p.1
      · exfalso
        have hmem : p.1 ∈ l1.map Prod.fst := by
          rw [← hk.2]
          exact List.mem_map.2 ⟨p, hp, rfl⟩
        rw [hne] at hnd2
        exact hnd2.1 hmem
      · rw [if_neg hne] at hy
        exact hy

theorem arr_keys_selfdesc {es : List (Nat × JSValue)} {len : Nat} {p : Nat → Bool}
    (h : es.map Prod.fst = (List.range len).filter p) :
    es.map Prod.fst = (List.range len).filter (fun i => (alookup es i).isSome) := by
  rw [h]
  refine List.filter_congr ?_
  intro i hi
  have hiff : (alookup es i).isSome = true ↔ i ∈ es.map Prod.fst := alookup_isSome_iff_mem es i
  rw [h] at hiff
  by_cases hp : p i = true
  · have : i ∈ (List.range len).filter p := List.mem_filter.2 ⟨hi, hp⟩
    rw [hp]
    exact (hiff.2 this).symm
  · have : (alookup es i).isSome ≠ true := by
      intro hs
      exact hp (List.mem_filter.1 (hiff.1 hs)).2
    rw [Bool.eq_false_iff.2 hp] at *
    cases hq : (alookup es i).isSome
    · rfl
    · exact absurd hq this

theorem allZip_of_forall2 {α β : Type} {R : α → β → Prop} {f : α → β → Bool} :
    ∀ {l1 : List α} {l2 : List β}, List.Forall₂ R l1 l2 →
      (∀ a b, R a b → f a b = true) → allZip f l1 l2 = true := by
  intro l1 l2 h
  induction h with
  | nil => intro _; rfl
  | cons hab htl ih =>
    intro himp
    simp only [allZip, Bool.and_eq_true]
    exact ⟨himp _ _ hab, ih himp⟩

/-! ### Transporting facts across a populate-write

Populating a registered target overwrites a placeholder, so a plain
`Step` from the fold's end state does not exist; but nothing the copy
relations look up can sit at the placeholder address, because every
object they mention differs from an empty placeholder. -/

theorem lookup_writeH_ne {st3 : State} {t z : Nat} {P0 oz o2 : HObject}
    (hP : lookupH st3.heap t = some P0) (hz : lookupH st3.heap z = some oz)
    (hne : oz ≠ P0) : lookupH (writeH st3 t o2).heap z = some oz := by
  rw [lookupH_writeH]
  by_cases h : t = z
  · subst h
    rw [hP] at hz
    cases hz
    exact absurd rfl hne
  · rw [if_neg h]
    exact hz

theorem arrayBuffer_ne_placeholder {bytes : List Nat} {P0 : HObject}
    (hP : placeholderEmpty P0) : HObject.arrayBuffer bytes ≠ P0 := by
  intro h
  rw [← h] at hP
  exact hP

theorem atomic_piece_ne_placeholder {P0 : HObject} (hP : placeholderEmpty P0)
    {o2 o1 : HObject} {H : List (Nat × HObject)} (h : AtomicNodeCopy H o2 o1) :
    o2 ≠ P0 ∧ o1 ≠ P0 := by
  rcases h with ⟨he, hsh⟩ | h | h
  · have hne1 : o1 ≠ P0 := by
      intro hc
      rw [← hc] at hP
      cases o1 <;> first | exact hsh | exact hP
    exact ⟨he ▸ hne1, hne1⟩
  · obtain ⟨kind, b1, b2, bytes, h1, h2, _, _⟩ := h
    constructor <;> intro hc
    · rw [h2] at hc; rw [← hc] at hP; exact hP
    · rw [h1] at hc; rw [← hc] at hP; exact hP
  · obtain ⟨b1, b2, bytes, vbl, vbo, vl, vbe, h1, h2, _, _⟩ := h
    constructor <;> intro hc
    · rw [h2] at hc
      rw [← hc] at hP
      cases hP
    · rw [h1] at hc
      rw [← hc] at hP
      cases hP

theorem atomicNodeCopy_writeH {st3 : State} {t : Nat} {P0 o2w o2 o1 : HObject}
    (hP : lookupH st3.heap t = some P0) (hPe : placeholderEmpty P0)
    (h : AtomicNodeCopy st3.heap o2 o1) :
    AtomicNodeCopy (writeH st3 t o2w).heap o2 o1 := by
  rcases h with h | h | h
  · exact Or.inl h
  · obtain ⟨kind, b1, b2, bytes, h1, h2, h3, h4⟩ := h
    exact Or.inr (Or.inl ⟨kind, b1, b2, bytes, h1, h2,
      lookup_writeH_ne hP h3 (arrayBuffer_ne_placeholder hPe),
      lookup_writeH_ne hP h4 (arrayBuffer_ne_placeholder hPe)⟩)
  · obtain ⟨b1, b2, bytes, vbl, vbo, vl, vbe, h1, h2, h3, h4⟩ := h
    exact Or.inr (Or.inr ⟨b1, b2, bytes, vbl, vbo, vl, vbe, h1, h2,
      lookup_writeH_ne hP h3 (arrayBuffer_ne_placeholder hPe),
      lookup_writeH_ne hP h4 (arrayBuffer_ne_placeholder hPe)⟩)

theorem valRel_writeH {st3 : State} {t : Nat} {P0 o2w : HObject} {y x : JSValue}
    (hP : lookupH st3.heap t = some P0) (hPe : placeholderEmpty P0)
    (h : ValRel st3.seen st3.heap y x) :
    ValRel (writeH st3 t o2w).seen (writeH st3 t o2w).heap y x := by
  rcases h with h | h | h
  · exact Or.inl h
  · exact Or.inr (Or.inl h)
  · obtain ⟨b, tb, o1, o2, h1, h2, h3, h4, h5⟩ := h
    obtain ⟨hne2, hne1⟩ := atomic_piece_ne_placeholder hPe h5
    exact Or.inr (Or.inr ⟨b, tb, o1, o2, h1, h2,
      lookup_writeH_ne hP h3 hne1, lookup_writeH_ne hP h4 hne2,
      atomicNodeCopy_writeH hP hPe h5⟩)

theorem descRel_writeH {st3 : State} {t : Nat} {P0 o2w : HObject} {d2 d1 : Desc}
    (hP : lookupH st3.heap t = some P0) (hPe : placeholderEmpty P0)
    (h : DescRel st3.seen st3.heap d2 d1) :
    DescRel (writeH st3 t o2w).seen (writeH st3 t o2w).heap d2 d1 := by
  rcases h with h | h
  · exact Or.inl h
  · obtain ⟨y, x, w, e, c, h1, h2, h3⟩ := h
    exact Or.inr ⟨y, x, w, e, c, h1, h2, valRel_writeH hP hPe h3⟩

theorem nodeCopy_writeH {st3 : State} {t : Nat} {P0 o2w : HObject} {o2 o1 : HObject}
    (hP : lookupH st3.heap t = some P0) (hPe : placeholderEmpty P0)
    (h : NodeCopy st3.seen st3.heap o2 o1) :
    NodeCopy (writeH st3 t o2w).seen (writeH st3 t o2w).heap o2 o1 := by
  cases o2 <;> cases o1 <;> simp only [NodeCopy] at h ⊢ <;> try exact h
  · obtain ⟨h1, h2, h3, h4⟩ := h
    exact ⟨h1, h2, h3, fun p hp =>
      (h4 p hp).elim (fun x hx => ⟨x, hx.1, valRel_writeH hP hPe hx.2⟩)⟩
  · exact h.imp (fun _ _ h2 => valRel_writeH hP hPe h2)
  · exact h.imp (fun _ _ h2 => ⟨h2.1, valRel_writeH hP hPe h2.2⟩)
  · exact h.imp (fun _ _ h2 => ⟨h2.1, descRel_writeH hP hPe h2.2⟩)
  · exact ⟨h.1, h.2.imp (fun _ _ h2 => ⟨h2.1, descRel_writeH hP hPe h2.2⟩)⟩

theorem matchE_writeH {st3 : State} {t : Nat} {P0 o2w : HObject} {k tk : Nat}
    (hP : lookupH st3.heap t = some P0) (hPe : placeholderEmpty P0)
    (hk : k ≠ t) (htk : tk ≠ t)
    (h : MatchE st3.seen st3.heap k tk) :
    MatchE (writeH st3 t o2w).seen (writeH st3 t o2w).heap k tk := by
  obtain ⟨o1, o2, h1, h2, h3⟩ := h
  refine ⟨o1, o2, ?_, ?_, nodeCopy_writeH hP hPe h3⟩
  · rw [lookupH_writeH, if_neg (fun he => hk he.symm)]
    exact h1
  · rw [lookupH_writeH, if_neg (fun he => htk he.symm)]
    exact h2

theorem normalNode_writeH {env : Env} {st3 : State} {t : Nat} {P0 o2w : HObject}
    {o : HObject}
    (hP : lookupH st3.heap t = some P0) (hPe : placeholderEmpty P0)
    (h : NormalNode env st3.heap o) :
    NormalNode env (writeH st3 t o2w).heap o := by
  cases o <;> simp only [NormalNode] at h ⊢ <;> try exact h
  · obtain ⟨h1, bytes, h2, h3⟩ := h
    exact ⟨h1, bytes, lookup_writeH_ne hP h2 (arrayBuffer_ne_placeholder hPe), h3⟩
  · split at h
    case _ hduck =>
      rw [if_pos hduck]
      obtain ⟨⟨b, bytes, vbl, vbo, vl, vbe, h1, h2, h3, h4, h5⟩, hp⟩ := h
      exact ⟨⟨b, bytes, vbl, vbo, vl, vbe, h1,
        lookup_writeH_ne hP h2 (arrayBuffer_ne_placeholder hPe), h3, h4, h5⟩, hp⟩
    case _ hduck =>
      rw [if_neg hduck]
      exact h

theorem wf_writeH {st3 : State} {t : Nat} {o : HObject}
    (hwf : WF st3) (ht : t < st3.next) : WF (writeH st3 t o) := by
  intro a oz hlk
  rw [lookupH_writeH] at hlk
  show a < st3.next
  by_cases he : t = a
  · omega
  · rw [if_neg he] at hlk
    exact hwf a oz hlk

theorem goodRegionN_alloc {env : Env} {L : Nat} {st : State} {o : HObject}
    (hwf : WF st) (hG : GoodRegionN env L st.heap st.next)
    (hn : NormalNode env (alloc st o).2.heap o)
    (hc : OnRecChildren (fun v => ∀ b, v = .vref b → L ≤ b ∧ b < st.next + 1) o) :
    GoodRegionN env L (alloc st o).2.heap (st.next + 1) := by
  intro a o2 ha hlk
  rw [lookupH_alloc] at hlk
  by_cases he : st.next = a
  · rw [if_pos he] at hlk
    cases hlk
    exact ⟨hn, hc⟩
  · rw [if_neg he] at hlk
    obtain ⟨h1, h2⟩ := hG a o2 ha hlk
    refine ⟨normalNode_step (step_alloc st o) hwf h1, ?_⟩
    refine onRecChildren_mono ?_ h2
    intro v hv b hb
    obtain ⟨hL, hlt⟩ := hv b hb
    exact ⟨hL, by omega⟩

theorem goodRegionN_write {env : Env} {L : Nat} {st3 : State} {t : Nat} {P0 o2 : HObject}
    (hP : lookupH st3.heap t = some P0) (hPe : placeholderEmpty P0)
    (hG : GoodRegionN env L st3.heap st3.next)
    (hn : NormalNode env (writeH st3 t o2).heap o2)
    (hc : OnRecChildren (fun v => ∀ b, v = .vref b → L ≤ b ∧ b < st3.next) o2) :
    GoodRegionN env L (writeH st3 t o2).heap st3.next := by
  intro a oz ha hlk
  rw [lookupH_writeH] at hlk
  by_cases he : t = a
  · rw [if_pos he] at hlk
    cases hlk
    exact ⟨hn, hc⟩
  · rw [if_neg he] at hlk
    obtain ⟨h1, h2⟩ := hG a oz ha hlk
    exact ⟨normalNode_writeH hP hPe h1, h2⟩

theorem goodRegionC_alloc {env : Env} {L M : Nat} {st : State} {o : HObject}
    (hwf : WF st) (hM : M ≤ st.next) (hG : GoodRegionC env L M st.heap) :
    GoodRegionC env L M (alloc st o).2.heap := by
  intro a oz ha haM hlk
  rw [lookupH_alloc] at hlk
  have hne : st.next ≠ a := by omega
  rw [if_neg hne] at hlk
  obtain ⟨h1, h2⟩ := hG a oz ha haM hlk
  exact ⟨normalNode_step (step_alloc st o) hwf h1, h2⟩

theorem goodRegionC_write {env : Env} {L M : Nat} {st3 : State} {t : Nat} {P0 o2 : HObject}
    (hP : lookupH st3.heap t = some P0) (hPe : placeholderEmpty P0)
    (hM : M ≤ t) (hG : GoodRegionC env L M st3.heap) :
    GoodRegionC env L M (writeH st3 t o2).heap := by
  intro a oz ha haM hlk
  rw [lookupH_writeH] at hlk
  have hne : t ≠ a := by omega
  rw [if_neg hne] at hlk
  obtain ⟨h1, h2⟩ := hG a oz ha haM hlk
  exact ⟨normalNode_writeH hP hPe h1, h2⟩

/-! ### Shape facts about the property lists the engine emits -/

theorem forall2_fst_eq {α β : Type} {S : (α × β) → (α × β) → Prop}
    {l2 l1 : List (α × β)} (h : List.Forall₂ S l2 l1)
    (hS : ∀ a b, S a b → a.1 = b.1) : l2.map Prod.fst = l1.map Prod.fst := by
  induction h with
  | nil => rfl
  | cons hab htl ih =>
    simp only [List.map_cons, ih]
    rw [hS _ _ hab]

theorem forall2_mem_right {α β : Type} {R : α → β → Prop} :
    ∀ {l1 : List α} {l2 : List β}, List.Forall₂ R l1 l2 →
      ∀ b ∈ l2, ∃ a ∈ l1, R a b := by
  intro l1 l2 h
  induction h with
  | nil => intro b hb; cases hb
  | cons hab htl ih =>
    intro b hb
    rcases List.mem_cons.1 hb with hb | hb
    · subst hb
      exact ⟨_, List.mem_cons_self _ _, hab⟩
    · obtain ⟨a, ha, hr⟩ := ih b hb
      exact ⟨a, List.mem_cons_of_mem _ ha, hr⟩

theorem isStrKey_of_fst_eq {p q : PropKey × Desc} (h : p.1 = q.1) :
    isStrKey p = isStrKey q := by
  obtain ⟨k, d⟩ := p
  obtain ⟨k2, d2⟩ := q
  simp only at h
  subst h
  cases k <;> rfl

theorem isSymKey_of_isStrKey {p : PropKey × Desc} (h : isStrKey p = true) :
    isSymKey p = false := by
  obtain ⟨k, d⟩ := p
  cases k with
  | str s => rfl
  | sym i => simp [isStrKey] at h

theorem hasOwnKey_of_mem_keys {props : List (PropKey × Desc)} {k : PropKey}
    (h : k ∈ ((props.filter isStrKey).filter (fun p => p.2.enum)).map Prod.fst) :
    hasOwnKey props k = true := by
  obtain ⟨p, hp, hk⟩ := List.mem_map.1 h
  have h1 := (List.mem_filter.1 (List.mem_filter.1 hp).1).1
  subst hk
  show (alookup props p.1).isSome = true
  rw [alookup_isSome_iff_mem]
  exact List.mem_map.2 ⟨p, h1, rfl⟩

/-- The relation `cloneProps` establishes between an emitted property
entry and its source entry: accessors verbatim, data values cloned with
attributes preserved (slow path) or defaulted (fast path). -/
def PShape (pf : Bool) (Q : JSValue → JSValue → Prop) (p2 p1 : PropKey × Desc) : Prop :=
  p2.1 = p1.1 ∧
  ((p2.2 = p1.2 ∧ p1.2.isAccessor = true) ∨
   (∃ y x w e c, p1.2 = .data x w e c ∧
     p2.2 = .data y (if pf then w else true) (if pf then e else true)
       (if pf then c else true) ∧ Q y x))

theorem isStrKey_of_isSymKey {p : PropKey × Desc} (h : isSymKey p = true) :
    isStrKey p = false := by
  obtain ⟨k, d⟩ := p
  cases k with
  | sym i => rfl
  | str s => simp [isSymKey] at h

theorem strEnum_facts (props : List (PropKey × Desc)) :
    ∀ p ∈ (props.filter isStrKey).filter (fun p => p.2.enum),
      isStrKey p = true ∧ p.2.enum = true := by
  intro p hp
  have h1 := List.mem_filter.1 hp
  have h2 := List.mem_filter.1 h1.1
  exact ⟨h2.2, by simpa using h1.2⟩

theorem symCopied_facts (props : List (PropKey × Desc)) :
    ∀ p ∈ (props.filter isSymKey).filter (fun p => p.2.enum),
      isSymKey p = true ∧ p.2.enum = true := by
  intro p hp
  have h1 := List.mem_filter.1 hp
  have h2 := List.mem_filter.1 h1.1
  exact ⟨h2.2, by simpa using h1.2⟩

theorem pshape_strDone_facts {pf : Bool} {Q : JSValue → JSValue → Prop}
    {strDone strEnum : List (PropKey × Desc)}
    (hF : List.Forall₂ (PShape pf Q) strDone strEnum)
    (hsrc : ∀ p ∈ strEnum, isStrKey p = true ∧ p.2.enum = true) :
    ∀ p ∈ strDone, isStrKey p = true ∧ p.2.enum = true := by
  intro p hp
  obtain ⟨q, hq, hrel⟩ := forall2_mem_left hF p hp
  obtain ⟨hsq, heq⟩ := hsrc q hq
  refine ⟨by rw [isStrKey_of_fst_eq hrel.1]; exact hsq, ?_⟩
  rcases hrel.2 with ⟨he, _⟩ | ⟨y, x, w, e, c, hd1, hd2, _⟩
  · rw [he]
    exact heq
  · rw [hd2]
    cases pf with
    | false => rfl
    | true =>
      rw [hd1] at heq
      simpa [Desc.enum] using heq

theorem pshape_any_acc {pf : Bool} {Q : JSValue → JSValue → Prop}
    {strDone strEnum : List (PropKey × Desc)}
    (hF : List.Forall₂ (PShape pf Q) strDone strEnum) :
    strDone.any (fun p => p.2.isAccessor) = strEnum.any (fun p => p.2.isAccessor) := by
  induction hF with
  | nil => rfl
  | cons hab htl ih =>
    simp only [List.any_cons, ih]
    rcases hab.2 with ⟨he, _⟩ | ⟨y, x, w, e, c, hd1, hd2, _⟩
    · rw [he]
    · rw [hd1, hd2]
      simp [Desc.isAccessor]

theorem pshape_filters {pf : Bool} {Q : JSValue → JSValue → Prop}
    {props strDone : List (PropKey × Desc)}
    (hF : List.Forall₂ (PShape pf Q) strDone
      ((props.filter isStrKey).filter (fun p => p.2.enum))) :
    (((props.filter isSymKey).filter (fun p => p.2.enum)) ++ strDone).filter isSymKey =
      (props.filter isSymKey).filter (fun p => p.2.enum) ∧
    (((props.filter isSymKey).filter (fun p => p.2.enum)) ++ strDone).filter isStrKey =
      strDone := by
  have hsym := symCopied_facts props
  have hdone := pshape_strDone_facts hF (strEnum_facts props)
  have e1 : ((props.filter isSymKey).filter (fun p => p.2.enum)).filter isSymKey =
      (props.filter isSymKey).filter (fun p => p.2.enum) :=
    List.filter_eq_self.mpr (fun p hp => (hsym p hp).1)
  have e2 : strDone.filter isSymKey = [] :=
    List.filter_eq_nil_iff.mpr
      (fun p hp => by simp [isSymKey_of_isStrKey (hdone p hp).1])
  have e3 : ((props.filter isSymKey).filter (fun p => p.2.enum)).filter isStrKey = [] :=
    List.filter_eq_nil_iff.mpr
      (fun p hp => by simp [isStrKey_of_isSymKey (hsym p hp).1])
  have e4 : strDone.filter isStrKey = strDone :=
    List.filter_eq_self.mpr (fun p hp => (hdone p hp).1)
  constructor
  · rw [List.filter_append, e1, e2]
    simp
  · rw [List.filter_append, e3, e4]
    simp

theorem pshape_duck_false {pf : Bool} {Q : JSValue → JSValue → Prop}
    {props strDone : List (PropKey × Desc)}
    (hnd : (hasOwnKey props (.str "buffer") && hasOwnKey props (.str "byteLength")) = false)
    (hF : List.Forall₂ (PShape pf Q) strDone
      ((props.filter isStrKey).filter (fun p => p.2.enum))) :
    ∀ extra : List (PropKey × Desc),
      (∀ s : String, PropKey.str s ∉ extra.map Prod.fst) →
      (hasOwnKey (extra ++ strDone) (.str "buffer") &&
        hasOwnKey (extra ++ strDone) (.str "byteLength")) = false := by
  intro extra hextra
  have hkeys : strDone.map Prod.fst =
      ((props.filter isStrKey).filter (fun p => p.2.enum)).map Prod.fst :=
    forall2_fst_eq hF (fun a b h => h.1)
  have hmem : ∀ s : String, hasOwnKey (extra ++ strDone) (.str s) = true →
      hasOwnKey props (.str s) = true := by
    intro s hs
    have hs2 : PropKey.str s ∈ (extra ++ strDone).map Prod.fst :=
      (alookup_isSome_iff_mem _ _).1 hs
    rw [List.map_append] at hs2
    rcases List.mem_append.1 hs2 with hs3 | hs3
    · exact absurd hs3 (hextra s)
    · rw [hkeys] at hs3
      exact hasOwnKey_of_mem_keys hs3
  cases hb : hasOwnKey (extra ++ strDone) (.str "buffer") with
  | false => rfl
  | true =>
    cases hbl : hasOwnKey (extra ++ strDone) (.str "byteLength") with
    | false => simp
    | true =>
      rw [hmem _ hb, hmem _ hbl] at hnd
      cases hnd

theorem plain_out_normal (env : Env) (H : List (Nat × HObject))
    {props strDone : List (PropKey × Desc)} {Q : JSValue → JSValue → Prop}
    (hnd : (hasOwnKey props (.str "buffer") && hasOwnKey props (.str "byteLength")) = false)
    (hF : List.Forall₂ (PShape (((props.filter isStrKey).filter (fun p => p.2.enum)).any
        (fun p => p.2.isAccessor)) Q) strDone
      ((props.filter isStrKey).filter (fun p => p.2.enum))) :
    NormalNode env H (.plain
      (((props.filter isSymKey).filter (fun p => p.2.enum)) ++ strDone)) := by
  have hsym := symCopied_facts props
  have hdone := pshape_strDone_facts hF (strEnum_facts props)
  obtain ⟨hfsym, hfstr⟩ := pshape_filters hF
  have hduck := pshape_duck_false hnd hF _ (fun s => str_not_mem_sym_keys props s)
  show NormalNode env H (.plain _)
  simp only [NormalNode]
  rw [if_neg (by rw [hduck]; simp)]
  refine ⟨?_, ?_, ?_⟩
  · rw [hfsym, hfstr]
  · intro p hp
    rcases List.mem_append.1 hp with hp | hp
    · exact (hsym p hp).2
    · exact (hdone p hp).2
  · rw [hfstr]
    intro hnoacc k v w e c hm
    have hpf : (((props.filter isStrKey).filter (fun p => p.2.enum)).any
        (fun p => p.2.isAccessor)) = false := by
      rw [← pshape_any_acc hF]
      exact hnoacc
    rcases List.mem_append.1 hm with hm | hm
    · have := (hsym _ hm).1
      simp [isSymKey] at this
    · obtain ⟨q, hq, hrel⟩ := forall2_mem_left hF _ hm
      rcases hrel.2 with ⟨he, hacc⟩ | ⟨y, x, w2, e2, c2, hd1, hd2, _⟩
      · rw [← he] at hacc
        simp [Desc.isAccessor] at hacc
      · rw [hpf] at hd2
        simp only [if_neg] at hd2
        cases hd2
        exact ⟨rfl, rfl⟩

theorem inst_out_normal (env : Env) (H : List (Nat × HObject))
    {props strDone : List (PropKey × Desc)} {proto : Option Nat} {pf : Bool}
    {Q : JSValue → JSValue → Prop}
    (hnd : (hasOwnKey props (.str "buffer") && hasOwnKey props (.str "byteLength")) = false)
    (hF : List.Forall₂ (PShape pf Q) strDone
      ((props.filter isStrKey).filter (fun p => p.2.enum))) :
    NormalNode env H (.inst proto
      (strDone ++ ((props.filter isSymKey).filter (fun p => p.2.enum)))) := by
  have hsym := symCopied_facts props
  have hdone := pshape_strDone_facts hF (strEnum_facts props)
  have e2 : strDone.filter isSymKey = [] :=
    List.filter_eq_nil_iff.mpr
      (fun p hp => by simp [isSymKey_of_isStrKey (hdone p hp).1])
  have e3 : ((props.filter isSymKey).filter (fun p => p.2.enum)).filter isStrKey = [] :=
    List.filter_eq_nil_iff.mpr
      (fun p hp => by simp [isStrKey_of_isSymKey (hsym p hp).1])
  have e1 : ((props.filter isSymKey).filter (fun p => p.2.enum)).filter isSymKey =
      (props.filter isSymKey).filter (fun p => p.2.enum) :=
    List.filter_eq_self.mpr (fun p hp => (hsym p hp).1)
  have e4 : strDone.filter isStrKey = strDone :=
    List.filter_eq_self.mpr (fun p hp => (hdone p hp).1)
  show NormalNode env H (.inst _ _)
  simp only [NormalNode]
  refine ⟨?_, ?_, ?_⟩
  · have hkeys : ∀ s : String, hasOwnKey
        (strDone ++ ((props.filter isSymKey).filter (fun p => p.2.enum))) (.str s) = true →
        hasOwnKey (((props.filter isSymKey).filter (fun p => p.2.enum)) ++ strDone)
          (.str s) = true := by
      intro s hs
      have hs2 := (alookup_isSome_iff_mem _ _).1 hs
      rw [List.map_append] at hs2
      show (alookup _ _).isSome = true
      rw [alookup_isSome_iff_mem, List.map_append]
      exact List.mem_append.2 (List.mem_append.1 hs2).symm
    have hduck := pshape_duck_false hnd hF _ (fun s => str_not_mem_sym_keys props s)
    cases hb : hasOwnKey
        (strDone ++ ((props.filter isSymKey).filter (fun p => p.2.enum)))
        (.str "buffer") with
    | false => rfl
    | true =>
      cases hbl : hasOwnKey
          (strDone ++ ((props.filter isSymKey).filter (fun p => p.2.enum)))
          (.str "byteLength") with
      | false => simp
      | true =>
        rw [hkeys _ hb, hkeys _ hbl] at hduck
        cases hduck
  · rw [List.filter_append, List.filter_append, e4, e3, e2, e1]
    simp
  · intro p hp
    rcases List.mem_append.1 hp with hp | hp
    · exact (hdone p hp).2
    · exact (hsym p hp).2

/-- The traversed-children condition of an emitted property block. -/
theorem pshape_children {Pr : JSValue → Prop} {pf : Bool}
    {strDone strEnum : List (PropKey × Desc)}
    (hF : List.Forall₂ (PShape pf (fun y _ => Pr y)) strDone strEnum) :
    ∀ s v w c, (PropKey.str s, Desc.data v w true c) ∈ strDone → Pr v := by
  intro s v w c hm
  obtain ⟨q, hq, hrel⟩ := forall2_mem_left hF _ hm
  rcases hrel.2 with ⟨he, hacc⟩ | ⟨y, x, w2, e2, c2, hd1, hd2, hqv⟩
  · rw [← he] at hacc
    simp [Desc.isAccessor] at hacc
  · have h2 : Desc.data v w true c = Desc.data y (if pf then w2 else true)
        (if pf then e2 else true) (if pf then c2 else true) := hd2
    injection h2 with h2a h2b h2c h2d
    rw [h2a]
    exact hqv

/-! ### The first run: everything it builds is normal -/

theorem placeholder_normal_arr (env : Env) (H : List (Nat × HObject)) (len : Nat) :
    NormalNode env H (.arr len [] []) := by
  refine ⟨rfl, ?_⟩
  simp

theorem placeholder_normal_plain (env : Env) (H : List (Nat × HObject)) :
    NormalNode env H (.plain []) := by
  simp only [NormalNode]
  rw [if_neg (by simp [hasOwnKey])]
  exact ⟨by simp, by simp, fun _ k v w e c hm => absurd hm (List.not_mem_nil _)⟩

theorem placeholder_normal_inst (env : Env) (H : List (Nat × HObject)) (proto : Option Nat) :
    NormalNode env H (.inst proto []) := by
  exact ⟨by simp [hasOwnKey], by simp, fun p hp => absurd hp (List.not_mem_nil _)⟩

theorem placeholder_children {Pr : JSValue → Prop} {o : HObject}
    (h : placeholderEmpty o) : OnRecChildren Pr o := by
  cases o <;> simp only [placeholderEmpty] at h <;> simp only [OnRecChildren]
  · obtain ⟨h1, _⟩ := h
    subst h1
    simp
  · subst h
    simp
  · subst h
    simp
  · subst h
    rw [if_neg (by simp [hasOwnKey])]
    exact fun s v w c hm => absurd hm (List.not_mem_nil _)
  · subst h
    exact fun s v w c hm => absurd hm (List.not_mem_nil _)

theorem ninv_alloc {env : Env} {L : Nat} {st : State} {o : HObject}
    (hInv : NInv env L st)
    (hn : NormalNode env (alloc st o).2.heap o)
    (hc : OnRecChildren (fun v => ∀ b, v = .vref b → L ≤ b ∧ b < st.next + 1) o) :
    NInv env L (alloc st o).2 := by
  obtain ⟨hwf, hsi, hL, hT, hG⟩ := hInv
  have hs := step_alloc st o
  refine ⟨hs.2.2.2.2.2.1 hwf, hs.2.2.2.2.2.2 hsi, by simp; omega, ?_, ?_⟩
  · intro k t h
    exact hT k t h
  · exact goodRegionN_alloc hwf hG hn hc

theorem ninv_register {env : Env} {L : Nat} {st : State} {a : Nat} {P0 : HObject}
    (hInv : NInv env L st)
    (hmiss : alookup st.seen a = none)
    (hn : NormalNode env (alloc st P0).2.heap P0)
    (hc : OnRecChildren (fun v => ∀ b, v = .vref b → L ≤ b ∧ b < st.next + 1) P0) :
    NInv env L { (alloc st P0).2 with seen := (a, st.next) :: st.seen } := by
  obtain ⟨hwf, hsi, hL, hT, hG⟩ := hInv
  have hs := step_register P0 hmiss
  refine ⟨hs.2.2.2.2.2.1 hwf, hs.2.2.2.2.2.2 hsi, by simp; omega, ?_, ?_⟩
  · intro k t h
    have h2 : (if a = k then some st.next else alookup st.seen k) = some t := h
    by_cases hak : a = k
    · rw [if_pos hak] at h2
      cases h2
      exact hL
    · rw [if_neg hak] at h2
      exact hT k t h2
  · exact goodRegionN_alloc hwf hG hn hc

theorem ninv_populate {env : Env} {L : Nat} {st3 : State} {t : Nat} {P0 nodeO : HObject}
    (hInv3 : NInv env L st3)
    (hP3 : lookupH st3.heap t = some P0) (hPe : placeholderEmpty P0)
    (ht3 : t < st3.next)
    (hn : NormalNode env (writeH st3 t nodeO).heap nodeO)
    (hc : OnRecChildren (fun v => ∀ b, v = .vref b → L ≤ b ∧ b < st3.next) nodeO) :
    NInv env L (writeH st3 t nodeO) := by
  obtain ⟨hwf, hsi, hL, hT, hG⟩ := hInv3
  refine ⟨wf_writeH hwf ht3, ?_, hL, hT, ?_⟩
  · exact ⟨fun k t2 h => hsi.1 k t2 h, fun k1 k2 t2 h1 h2 => hsi.2 k1 k2 t2 h1 h2⟩
  · exact goodRegionN_write hP3 hPe hG hn hc

theorem bufferLikeCopy_shape {env : Env} {a : Nat} {props : List (PropKey × Desc)}
    {st : State} {bufObj : HObject}
    (h : bufferLikeCopy env a props st = some bufObj) :
    ∃ bs, bufObj = .arrayBuffer bs := by
  unfold bufferLikeCopy at h
  split at h
  · split at h
    · cases h
      exact ⟨_, rfl⟩
    · split at h
      · cases h
        exact ⟨_, rfl⟩
      · cases h
  · split at h
    · cases h
      exact ⟨_, rfl⟩
    · cases h

theorem lookupH_alloc2_first (st : State) (o1 o2 : HObject) :
    lookupH (alloc (alloc st o1).2 o2).2.heap st.next = some o1 := by
  rw [lookupH_alloc]
  rw [if_neg (by simp)]
  rw [lookupH_alloc, if_pos rfl]

theorem qn_two_alloc {L : Nat} {st : State} {o1 o2 : HObject} (hL : L ≤ st.next) :
    QN L (alloc (alloc st o1).2 o2).2 (.vref (st.next + 1)) := by
  intro b hb
  injection hb with hb
  subst hb
  refine ⟨by omega, ?_⟩
  simp

theorem cloneBufferLikeN {env : Env} {L : Nat} {a : Nat} {props : List (PropKey × Desc)}
    {st : State} {r : JSValue} {st2 : State}
    (hInv : NInv env L st)
    (h : cloneBufferLike env a props st = .ok r st2) :
    NInv env L st2 ∧ QN L st2 r := by
  have hL := hInv.2.2.1
  cases hpr : env.probe with
  | unavailable =>
    simp only [cloneBufferLike, hpr] at h
    split at h
    case _ b hb =>
      split at h
      case _ bytes hbytes =>
        split at h
        case _ offN lenN hoff hlen =>
          split at h
          case _ hle =>
            cases h
            have hlk := lookupH_alloc2_first st
              (.arrayBuffer (sliceBytes bytes offN (offN + lenN)))
              (.typedArray .uint8 st.next 0 lenN)
            refine ⟨ninv_alloc (ninv_alloc hInv trivial trivial) ?_ trivial,
              qn_two_alloc hL⟩
            exact ⟨rfl, sliceBytes bytes offN (offN + lenN), hlk,
              (sliceBytes_len hle).symm⟩
          · cases h
        all_goals cases h
      all_goals cases h
    all_goals cases h
  | avail =>
    simp only [cloneBufferLike, hpr] at h
    split at h
    · cases h
    case _ bufObj hbo =>
      cases h
      obtain ⟨bs, hbs⟩ := bufferLikeCopy_shape hbo
      subst hbs
      refine ⟨ninv_alloc (ninv_alloc hInv trivial trivial) ?_ ?_, qn_two_alloc hL⟩
      · show NormalNode env _ (.plain _)
        simp only [NormalNode]
        rw [if_pos (by simp [hasOwnKey, alookup])]
        refine ⟨⟨st.next, bs, _, _, _, _, rfl, lookupH_alloc2_first st _ _,
          jsOr_idem _ _, jsOr_idem _ _, jsOr_idem _ _⟩, by rw [hpr]; simp⟩
      · show OnRecChildren _ (.plain _)
        simp only [OnRecChildren]
        rw [if_pos (by simp [hasOwnKey, alookup])]
        trivial
  | throwErr i =>
    simp only [cloneBufferLike, hpr] at h
    split at h
    · cases h
    case _ bufObj hbo =>
      cases h
      obtain ⟨bs, hbs⟩ := bufferLikeCopy_shape hbo
      subst hbs
      refine ⟨ninv_alloc (ninv_alloc hInv trivial trivial) ?_ ?_, qn_two_alloc hL⟩
      · show NormalNode env _ (.plain _)
        simp only [NormalNode]
        rw [if_pos (by simp [hasOwnKey, alookup])]
        refine ⟨⟨st.next, bs, _, _, _, _, rfl, lookupH_alloc2_first st _ _,
          jsOr_idem _ _, jsOr_idem _ _, jsOr_idem _ _⟩, by rw [hpr]; simp⟩
      · show OnRecChildren _ (.plain _)
        simp only [OnRecChildren]
        rw [if_pos (by simp [hasOwnKey, alookup])]
        trivial
  | throwNonErr i =>
    simp only [cloneBufferLike, hpr] at h
    split at h
    · cases h
    case _ bufObj hbo =>
      cases h
      obtain ⟨bs, hbs⟩ := bufferLikeCopy_shape hbo
      subst hbs
      refine ⟨ninv_alloc (ninv_alloc hInv trivial trivial) ?_ ?_, qn_two_alloc hL⟩
      · show NormalNode env _ (.plain _)
        simp only [NormalNode]
        rw [if_pos (by simp [hasOwnKey, alookup])]
        refine ⟨⟨st.next, bs, _, _, _, _, rfl, lookupH_alloc2_first st _ _,
          jsOr_idem _ _, jsOr_idem _ _, jsOr_idem _ _⟩, by rw [hpr]; simp⟩
      · show OnRecChildren _ (.plain _)
        simp only [OnRecChildren]
        rw [if_pos (by simp [hasOwnKey, alookup])]
        trivial

theorem qn_one_alloc {L : Nat} {st : State} {o : HObject} (hL : L ≤ st.next) :
    QN L (alloc st o).2 (.vref st.next) := by
  intro b hb
  injection hb with hb
  subst hb
  refine ⟨hL, ?_⟩
  simp

theorem cloneObjRestN {env : Env} {L : Nat} {rec : Rec} {a : Nat} {o : HObject}
    {st : State} {r : JSValue} {st2 : State}
    (hstep : RecStep rec)
    (hrec : ∀ x st0 y st02, NInv env L st0 → rec x st0 = .ok y st02 →
      NInv env L st02 ∧ QN L st02 y)
    (hInv : NInv env L st) (hmiss : alookup st.seen a = none)
    (h : cloneObjRest rec env a o st = .ok r st2) :
    NInv env L st2 ∧ QN L st2 r := by
  have hL := hInv.2.2.1
  have hrec2 : ∀ (x : JSValue) st0 y st02, True → NInv env L st0 →
      rec x st0 = .ok y st02 → NInv env L st02 ∧ QN L st02 y :=
    fun x st0 y st02 _ hI h0 => hrec x st0 y st02 hI h0
  have hQmono : ∀ st0 st02 (y x : JSValue), NInv env L st0 → QN L st0 y →
      Step st0 st02 → QN L st02 y :=
    fun st0 st02 y x _ hq hs b hb => ⟨(hq b hb).1, lt_of_lt_of_le (hq b hb).2 hs.1⟩
  cases o with
  | arr len elems extra => exact absurd h (by simp [cloneObjRest])
  | date ts => exact absurd h (by simp [cloneObjRest])
  | regexp s f => exact absurd h (by simp [cloneObjRest])
  | typedArray kind bufRef off len =>
    simp only [cloneObjRest] at h
    split at h
    case _ bytes hbytes =>
      cases h
      refine ⟨ninv_alloc (ninv_alloc hInv trivial trivial) ?_ trivial, qn_two_alloc hL⟩
      exact ⟨rfl, sliceBytes bytes off (off + len), lookupH_alloc2_first st _ _, rfl⟩
    all_goals cases h
  | arrayBuffer bytes =>
    simp only [cloneObjRest] at h
    cases h
    exact ⟨ninv_alloc hInv trivial trivial, qn_one_alloc hL⟩
  | set elems =>
    simp only [cloneObjRest] at h
    split at h
    case _ vs st3 hvals =>
      cases h
      have hInv2 : NInv env L
          { (alloc st (HObject.set [])).2 with seen := (a, st.next) :: st.seen } :=
        ninv_register hInv hmiss trivial (by simp [OnRecChildren])
      obtain ⟨hInv3, hF⟩ := cloneVals_rel hstep hrec2 hQmono elems _ vs st3
        (fun x hx => trivial) hInv2 hvals
      have hfold := cloneVals_step hstep elems _ vs st3 hvals
      have h2 : st.next + 1 ≤ st3.next := hfold.1
      have hP3 : lookupH st3.heap st.next = some (.set []) := by
        refine hfold.2.1 st.next _ ?_ ?_
        · show st.next < st.next + 1
          omega
        · show lookupH (alloc st (HObject.set [])).2.heap st.next = some (.set [])
          rw [lookupH_alloc, if_pos rfl]
      refine ⟨ninv_populate hInv3 hP3 rfl (by show st.next < st3.next; omega) trivial ?_, ?_⟩
      · show ∀ v ∈ vs, _
        intro v hv
        obtain ⟨x, _, hq⟩ := forall2_mem_left hF v hv
        exact hq
      · intro b hb
        injection hb with hb
        subst hb
        exact ⟨hL, by simpa using (by omega : st.next < st3.next)⟩
    all_goals cases h
  | map entries =>
    simp only [cloneObjRest] at h
    split at h
    case _ vs st3 hvals =>
      cases h
      have hInv2 : NInv env L
          { (alloc st (HObject.map [])).2 with seen := (a, st.next) :: st.seen } :=
        ninv_register hInv hmiss trivial (by simp [OnRecChildren])
      obtain ⟨hInv3, hF⟩ := cloneEntries_rel hstep hrec2 hQmono entries _ vs st3
        (fun p hp => trivial) hInv2 hvals
      have hfold := cloneEntries_step hstep entries _ vs st3 hvals
      have h2 : st.next + 1 ≤ st3.next := hfold.1
      have hP3 : lookupH st3.heap st.next = some (.map []) := by
        refine hfold.2.1 st.next _ ?_ ?_
        · show st.next < st.next + 1
          omega
        · show lookupH (alloc st (HObject.map [])).2.heap st.next = some (.map [])
          rw [lookupH_alloc, if_pos rfl]
      refine ⟨ninv_populate hInv3 hP3 rfl (by show st.next < st3.next; omega) trivial ?_, ?_⟩
      · show ∀ p ∈ vs, _
        intro p hp
        obtain ⟨q, _, hq⟩ := forall2_mem_left hF p hp
        exact hq.2
      · intro b hb
        injection hb with hb
        subst hb
        exact ⟨hL, by simpa using (by omega : st.next < st3.next)⟩
    all_goals cases h
  | plain props =>
    simp only [cloneObjRest] at h
    split at h
    case _ hduck => exact cloneBufferLikeN hInv h
    case _ hduck =>
      have hnd : (hasOwnKey props (.str "buffer") &&
          hasOwnKey props (.str "byteLength")) = false := by
        revert hduck
        cases hasOwnKey props (.str "buffer") && hasOwnKey props (.str "byteLength") <;> simp
      split at h
      case _ strDone st3 hprops =>
        cases h
        have hInv2 : NInv env L
            { (alloc st (HObject.plain [])).2 with seen := (a, st.next) :: st.seen } :=
          ninv_register hInv hmiss (placeholder_normal_plain env _)
            (placeholder_children rfl)
        obtain ⟨hInv3, hF⟩ := cloneProps_rel hstep hrec2 hQmono _ _ strDone st3
          (fun p hp v w e c hd => trivial) hInv2 hprops
        have hfold := cloneProps_step hstep _ _ _ strDone st3 hprops
        have h2 : st.next + 1 ≤ st3.next := hfold.1
        have hP3 : lookupH st3.heap st.next = some (.plain []) := by
          refine hfold.2.1 st.next _ ?_ ?_
          · show st.next < st.next + 1
            omega
          · show lookupH (alloc st (HObject.plain [])).2.heap st.next = some (.plain [])
            rw [lookupH_alloc, if_pos rfl]
        have hFp : List.Forall₂ (PShape (((props.filter isStrKey).filter
            (fun p => p.2.enum)).any (fun p => p.2.isAccessor))
            (fun y x => ∀ b, y = .vref b → L ≤ b ∧ b < st3.next)) strDone
            ((props.filter isStrKey).filter (fun p => p.2.enum)) := hF
        refine ⟨ninv_populate hInv3 hP3 rfl (by show st.next < st3.next; omega)
          (plain_out_normal env _ hnd hFp) ?_, ?_⟩
        · show OnRecChildren _ (.plain _)
          simp only [OnRecChildren]
          rw [if_neg (by rw [pshape_duck_false hnd hFp _
            (fun s => str_not_mem_sym_keys props s)]; simp)]
          intro s v w c hm
          rcases List.mem_append.1 hm with hm | hm
          · have := (symCopied_facts props _ hm).1
            simp [isSymKey] at this
          · exact pshape_children hFp s v w c hm
        · intro b hb
          injection hb with hb
          subst hb
          exact ⟨hL, by simpa using (by omega : st.next < st3.next)⟩
      all_goals cases h
  | inst proto props =>
    simp only [cloneObjRest] at h
    split at h
    case _ hduck => exact cloneBufferLikeN hInv h
    case _ hduck =>
      have hnd : (hasOwnKey props (.str "buffer") &&
          hasOwnKey props (.str "byteLength")) = false := by
        revert hduck
        cases hasOwnKey props (.str "buffer") && hasOwnKey props (.str "byteLength") <;> simp
      split at h
      case _ strDone st3 hprops =>
        cases h
        have hInv2 : NInv env L
            { (alloc st (HObject.inst proto [])).2 with
              seen := (a, st.next) :: st.seen } :=
          ninv_register hInv hmiss (placeholder_normal_inst env _ proto)
            (placeholder_children rfl)
        obtain ⟨hInv3, hF⟩ := cloneProps_rel hstep hrec2 hQmono _ _ strDone st3
          (fun p hp v w e c hd => trivial) hInv2 hprops
        have hfold := cloneProps_step hstep _ _ _ strDone st3 hprops
        have h2 : st.next + 1 ≤ st3.next := hfold.1
        have hP3 : lookupH st3.heap st.next = some (.inst proto []) := by
          refine hfold.2.1 st.next _ ?_ ?_
          · show st.next < st.next + 1
            omega
          · show lookupH (alloc st (HObject.inst proto [])).2.heap st.next =
              some (.inst proto [])
            rw [lookupH_alloc, if_pos rfl]
        have hFp : List.Forall₂ (PShape true
            (fun y x => ∀ b, y = .vref b → L ≤ b ∧ b < st3.next)) strDone
            ((props.filter isStrKey).filter (fun p => p.2.enum)) := hF
        refine ⟨ninv_populate hInv3 hP3 rfl (by show st.next < st3.next; omega)
          (inst_out_normal env _ hnd hFp) ?_, ?_⟩
        · show OnRecChildren _ (.inst _ _)
          simp only [OnRecChildren]
          intro s v w c hm
          rcases List.mem_append.1 hm with hm | hm
          · exact pshape_children hFp s v w c hm
          · have := (symCopied_facts props _ hm).1
            simp [isSymKey] at this
        · intro b hb
          injection hb with hb
          subst hb
          exact ⟨hL, by simpa using (by omega : st.next < st3.next)⟩
      all_goals cases h

theorem cloneObjN {env : Env} {L : Nat} {rec : Rec} {a : Nat} {o : HObject}
    {st : State} {r : JSValue} {st2 : State}
    (hstep : RecStep rec)
    (hrec : ∀ x st0 y st02, NInv env L st0 → rec x st0 = .ok y st02 →
      NInv env L st02 ∧ QN L st02 y)
    (hInv : NInv env L st) (hmiss : alookup st.seen a = none)
    (h : cloneObj rec env a o st = .ok r st2) :
    NInv env L st2 ∧ QN L st2 r := by
  have hL := hInv.2.2.1
  have hrec2 : ∀ (x : JSValue) st0 y st02, True → NInv env L st0 →
      rec x st0 = .ok y st02 → NInv env L st02 ∧ QN L st02 y :=
    fun x st0 y st02 _ hI h0 => hrec x st0 y st02 hI h0
  have hQmono : ∀ st0 st02 (y x : JSValue), NInv env L st0 → QN L st0 y →
      Step st0 st02 → QN L st02 y :=
    fun st0 st02 y x _ hq hs b hb => ⟨(hq b hb).1, lt_of_lt_of_le (hq b hb).2 hs.1⟩
  cases o with
  | arr len elems extra =>
    have hInv2 : NInv env L
        { (alloc st (HObject.arr len [] [])).2 with seen := (a, st.next) :: st.seen } :=
      ninv_register hInv hmiss (placeholder_normal_arr env _ len)
        (placeholder_children ⟨rfl, rfl⟩)
    simp only [cloneObj] at h
    split at h
    · split at h
      case _ es st3 hf =>
        cases h
        obtain ⟨hInv3, hall⟩ := cloneSparse_rel hstep hrec2 hQmono
          (fun i x hx => trivial) (List.range len) _ es st3 hInv2 hf
        have hfold := cloneSparse_step hstep elems _ _ es st3 hf
        have h2 : st.next + 1 ≤ st3.next := hfold.1
        have hP3 : lookupH st3.heap st.next = some (.arr len [] []) := by
          refine hfold.2.1 st.next _ ?_ ?_
          · show st.next < st.next + 1
            omega
          · show lookupH (alloc st (HObject.arr len [] [])).2.heap st.next =
              some (.arr len [] [])
            rw [lookupH_alloc, if_pos rfl]
        refine ⟨ninv_populate hInv3 hP3 ⟨rfl, rfl⟩ (by show st.next < st3.next; omega)
          ⟨rfl, arr_keys_selfdesc (cloneSparse_keys hf)⟩ ?_, ?_⟩
        · show ∀ p ∈ es, _
          intro p hp
          obtain ⟨x, _, hq⟩ := hall p hp
          exact hq
        · intro b hb
          injection hb with hb
          subst hb
          exact ⟨hL, by simpa using (by omega : st.next < st3.next)⟩
      all_goals cases h
    · split at h
      · split at h
        case _ es st3 hf =>
          cases h
          obtain ⟨hInv3, hall⟩ := cloneDense_rel hstep hrec2 hQmono
            (fun i => trivial) (List.range len) _ es st3 hInv2 hf
          have hfold := cloneDense_step hstep elems _ _ es st3 hf
          have h2 : st.next + 1 ≤ st3.next := hfold.1
          have hP3 : lookupH st3.heap st.next = some (.arr len [] []) := by
            refine hfold.2.1 st.next _ ?_ ?_
            · show st.next < st.next + 1
              omega
            · show lookupH (alloc st (HObject.arr len [] [])).2.heap st.next =
                some (.arr len [] [])
              rw [lookupH_alloc, if_pos rfl]
          have hkeys : es.map Prod.fst = (List.range len).filter (fun _ => true) := by
            rw [cloneDense_keys hf]
            simp
          refine ⟨ninv_populate hInv3 hP3 ⟨rfl, rfl⟩ (by show st.next < st3.next; omega)
            ⟨rfl, arr_keys_selfdesc hkeys⟩ ?_, ?_⟩
          · show ∀ p ∈ es, _
            intro p hp
            exact hall p hp
          · intro b hb
            injection hb with hb
            subst hb
            exact ⟨hL, by simpa using (by omega : st.next < st3.next)⟩
        all_goals cases h
      · split at h
        case _ es st3 hf =>
          cases h
          obtain ⟨hInv3, hall⟩ := cloneSparse_rel hstep hrec2 hQmono
            (fun i x hx => trivial) (List.range len) _ es st3 hInv2 hf
          have hfold := cloneSparse_step hstep elems _ _ es st3 hf
          have h2 : st.next + 1 ≤ st3.next := hfold.1
          have hP3 : lookupH st3.heap st.next = some (.arr len [] []) := by
            refine hfold.2.1 st.next _ ?_ ?_
            · show st.next < st.next + 1
              omega
            · show lookupH (alloc st (HObject.arr len [] [])).2.heap st.next =
                some (.arr len [] [])
              rw [lookupH_alloc, if_pos rfl]
          refine ⟨ninv_populate hInv3 hP3 ⟨rfl, rfl⟩ (by show st.next < st3.next; omega)
            ⟨rfl, arr_keys_selfdesc (cloneSparse_keys hf)⟩ ?_, ?_⟩
          · show ∀ p ∈ es, _
            intro p hp
            obtain ⟨x, _, hq⟩ := hall p hp
            exact hq
          · intro b hb
            injection hb with hb
            subst hb
            exact ⟨hL, by simpa using (by omega : st.next < st3.next)⟩
        all_goals cases h
  | date ts =>
    simp only [cloneObj] at h
    cases h
    exact ⟨ninv_alloc hInv trivial trivial, qn_one_alloc hL⟩
  | regexp s f =>
    simp only [cloneObj] at h
    cases h
    exact ⟨ninv_alloc hInv trivial trivial, qn_one_alloc hL⟩
  | typedArray kind bufRef off len =>
    simp only [cloneObj] at h
    split at h
    · cases h
    · split at h
      · simp only [cloneNodeBuffer] at h
        split at h
        case _ bytes hbytes =>
          cases h
          refine ⟨ninv_alloc (ninv_alloc hInv trivial trivial) ?_ trivial,
            qn_two_alloc hL⟩
          exact ⟨rfl, sliceBytes bytes off (off + len), lookupH_alloc2_first st _ _, rfl⟩
        all_goals cases h
      · exact cloneObjRestN hstep hrec hInv hmiss h
    · exact cloneObjRestN hstep hrec hInv hmiss h
  | arrayBuffer bytes =>
    simp only [cloneObj] at h
    split at h
    · cases h
    · split at h
      · simp only [cloneNodeBuffer] at h
        cases h
      · exact cloneObjRestN hstep hrec hInv hmiss h
    · exact cloneObjRestN hstep hrec hInv hmiss h
  | set elems =>
    simp only [cloneObj] at h
    split at h
    · cases h
    · split at h
      · simp only [cloneNodeBuffer] at h
        cases h
      · exact cloneObjRestN hstep hrec hInv hmiss h
    · exact cloneObjRestN hstep hrec hInv hmiss h
  | map entries =>
    simp only [cloneObj] at h
    split at h
    · cases h
    · split at h
      · simp only [cloneNodeBuffer] at h
        cases h
      · exact cloneObjRestN hstep hrec hInv hmiss h
    · exact cloneObjRestN hstep hrec hInv hmiss h
  | plain props =>
    simp only [cloneObj] at h
    split at h
    · cases h
    · split at h
      · simp only [cloneNodeBuffer] at h
        cases h
      · exact cloneObjRestN hstep hrec hInv hmiss h
    · exact cloneObjRestN hstep hrec hInv hmiss h
  | inst proto props =>
    simp only [cloneObj] at h
    split at h
    · cases h
    · split at h
      · simp only [cloneNodeBuffer] at h
        cases h
      · exact cloneObjRestN hstep hrec hInv hmiss h
    · exact cloneObjRestN hstep hrec hInv hmiss h

/-- The first clone run maintains its invariant: everything it builds is
a normal node in the region `[L, next)`, and every reference it returns
falls inside the region. -/
theorem internalDeepCloneN (env : Env) (L : Nat) :
    ∀ fuel x st r st2, internalDeepClone fuel env x st = .ok r st2 →
      NInv env L st → NInv env L st2 ∧ QN L st2 r := by
  intro fuel
  induction fuel with
  | zero =>
    intro x st r st2 h
    cases h
  | succ fuel ih =>
    intro x st r st2 h hInv
    cases x with
    | vref a =>
      simp only [internalDeepClone] at h
      split at h
      case _ t hhit =>
        cases h
        refine ⟨hInv, ?_⟩
        intro b hb
        injection hb with hb
        subst hb
        exact ⟨hInv.2.2.2.1 a _ hhit, hInv.2.1.1 a _ hhit⟩
      case _ hmiss =>
        split at h
        · cases h
        case _ o ho =>
          exact cloneObjN
            (fun v2 st0 r2 st02 h2 => internalDeepClone_step fuel env v2 st0 r2 st02 h2)
            (fun x2 st0 y st02 hI h0 => ih x2 st0 y st02 h0 hI) hInv hmiss h
    | vundefined => cases h; exact ⟨hInv, fun b hb => by cases hb⟩
    | vnull => cases h; exact ⟨hInv, fun b hb => by cases hb⟩
    | vbool b2 => cases h; exact ⟨hInv, fun b hb => by cases hb⟩
    | vnum n => cases h; exact ⟨hInv, fun b hb => by cases hb⟩
    | vstr s => cases h; exact ⟨hInv, fun b hb => by cases hb⟩
    | vsym i => cases h; exact ⟨hInv, fun b hb => by cases hb⟩
    | vbig n => cases h; exact ⟨hInv, fun b hb => by cases hb⟩
    | vfunc i => cases h; exact ⟨hInv, fun b hb => by cases hb⟩

/-! ### The second run: cloning a normal region copies it -/

theorem lookupH_alloc2_second (st : State) (o1 o2 : HObject) :
    lookupH (alloc (alloc st o1).2 o2).2.heap (st.next + 1) = some o2 := by
  rw [lookupH_alloc, if_pos (by simp)]

theorem lookupH_alloc2_old {st : State} {z : Nat} {oz : HObject} (o1 o2 : HObject)
    (hwf : WF st) (hz : lookupH st.heap z = some oz) :
    lookupH (alloc (alloc st o1).2 o2).2.heap z = some oz := by
  have h1 := hwf z oz hz
  rw [lookupH_alloc]
  rw [if_neg (by simp; omega)]
  rw [lookupH_alloc, if_neg (by omega)]
  exact hz

theorem filter_enum_self {props : List (PropKey × Desc)} (pr : PropKey × Desc → Bool)
    (henum : ∀ p ∈ props, p.2.enum = true) :
    (props.filter pr).filter (fun p => p.2.enum) = props.filter pr :=
  List.filter_eq_self.mpr
    (fun p hp => by simpa using henum p (List.mem_of_mem_filter hp))

theorem forall2_append {α β : Type} {R : α → β → Prop} :
    ∀ {l1 : List α} {l2 : List β} {u1 : List α} {u2 : List β},
      List.Forall₂ R l1 l2 → List.Forall₂ R u1 u2 →
      List.Forall₂ R (l1 ++ u1) (l2 ++ u2) := by
  intro l1 l2 u1 u2 h hu
  induction h with
  | nil => exact hu
  | cons hab htl ih => exact List.Forall₂.cons hab ih

theorem cinv_alloc {env : Env} {L M : Nat} {P : List Nat} {st : State} {o : HObject}
    (hInv : CInv env L M P st) : CInv env L M P (alloc st o).2 := by
  obtain ⟨hwf, hsi, hM, hK, hG, hCM⟩ := hInv
  have hs := step_alloc st o
  refine ⟨hs.2.2.2.2.2.1 hwf, hs.2.2.2.2.2.2 hsi, by simp; omega, hK,
    goodRegionC_alloc hwf hM hG, ?_⟩
  intro k t h
  rcases hCM k t h with hp | hm
  · exact Or.inl hp
  · exact Or.inr (matchE_step hs hwf hm)

theorem cinv_register {env : Env} {L M : Nat} {P : List Nat} {st : State} {a : Nat}
    (P0 : HObject)
    (hInv : CInv env L M P st) (hmiss : alookup st.seen a = none)
    (ha : L ≤ a ∧ a < M) :
    CInv env L M (a :: P) { (alloc st P0).2 with seen := (a, st.next) :: st.seen } := by
  obtain ⟨hwf, hsi, hM, hK, hG, hCM⟩ := hInv
  have hs := step_register P0 hmiss
  refine ⟨hs.2.2.2.2.2.1 hwf, hs.2.2.2.2.2.2 hsi, by simp; omega, ?_,
    goodRegionC_alloc hwf hM hG, ?_⟩
  · intro k t h
    have h2 : (if a = k then some st.next else alookup st.seen k) = some t := h
    by_cases hak : a = k
    · rw [← hak]
      exact ha
    · rw [if_neg hak] at h2
      exact hK k t h2
  · intro k t h
    have h2 : (if a = k then some st.next else alookup st.seen k) = some t := h
    by_cases hak : a = k
    · subst hak
      exact Or.inl (List.mem_cons_self _ _)
    · rw [if_neg hak] at h2
      rcases hCM k t h2 with hp | hm
      · exact Or.inl (List.mem_cons_of_mem _ hp)
      · exact Or.inr (matchE_step hs hwf hm)

theorem cinv_populate {env : Env} {L M : Nat} {P : List Nat} {st3 : State}
    {a t : Nat} {P0 nodeO : HObject}
    (hInv3 : CInv env L M (a :: P) st3)
    (hP3 : lookupH st3.heap t = some P0) (hPe : placeholderEmpty P0)
    (ht3 : t < st3.next) (htM : M ≤ t)
    (hreg : alookup st3.seen a = some t)
    (hMa : MatchE (writeH st3 t nodeO).seen (writeH st3 t nodeO).heap a t) :
    CInv env L M P (writeH st3 t nodeO) := by
  obtain ⟨hwf, hsi, hM, hK, hG, hCM⟩ := hInv3
  refine ⟨wf_writeH hwf ht3, ⟨fun k t2 h => hsi.1 k t2 h,
    fun k1 k2 t2 h1 h2 => hsi.2 k1 k2 t2 h1 h2⟩, hM, hK,
    goodRegionC_write hP3 hPe htM hG, ?_⟩
  intro k tk hk
  have hk2 : alookup st3.seen k = some tk := hk
  by_cases hka : k = a
  · subst hka
    rw [hreg] at hk2
    cases hk2
    exact Or.inr hMa
  · rcases hCM k tk hk2 with hp | hm
    · rcases List.mem_cons.1 hp with hp2 | hp2
      · exact absurd hp2 hka
      · exact Or.inl hp2
    · refine Or.inr (matchE_writeH hP3 hPe ?_ ?_ hm)
      · have := (hK k tk hk2).2
        omega
      · intro he
        subst he
        exact hka (hsi.2 k a _ hk2 hreg)

theorem cloneBufferLikeC {env : Env} {L M : Nat} {P : List Nat} {a : Nat}
    {props : List (PropKey × Desc)} {st : State} {r : JSValue} {st2 : State}
    (hInv : CInv env L M P st)
    (haM : L ≤ a ∧ a < M)
    (ho : lookupH st.heap a = some (.plain props))
    (hduck : (hasOwnKey props (.str "buffer") &&
      hasOwnKey props (.str "byteLength")) = true)
    (h : cloneBufferLike env a props st = .ok r st2) :
    CInv env L M P st2 ∧ ValRel st2.seen st2.heap r (.vref a) := by
  obtain ⟨hnorm, _⟩ := hInv.2.2.2.2.1 a _ haM.1 haM.2 ho
  simp only [NormalNode] at hnorm
  rw [if_pos hduck] at hnorm
  obtain ⟨⟨b, bytes, vbl, vbo, vl, vbe, hprops, hb, hvbo, hvl, hvbe⟩, hprobe⟩ := hnorm
  subst hprops
  have hwf := hInv.1
  have e1 : propGet env st a
      [(PropKey.str "buffer", Desc.data (.vref b) true true true),
       (PropKey.str "byteLength", Desc.data vbl true true true),
       (PropKey.str "byteOffset", Desc.data vbo true true true),
       (PropKey.str "length", Desc.data vl true true true),
       (PropKey.str "BYTES_PER_ELEMENT", Desc.data vbe true true true)]
      (.str "buffer") = .vref b := by simp [propGet, alookup]
  have e2 : propGet env st a
      [(PropKey.str "buffer", Desc.data (.vref b) true true true),
       (PropKey.str "byteLength", Desc.data vbl true true true),
       (PropKey.str "byteOffset", Desc.data vbo true true true),
       (PropKey.str "length", Desc.data vl true true true),
       (PropKey.str "BYTES_PER_ELEMENT", Desc.data vbe true true true)]
      (.str "byteLength") = vbl := by simp [propGet, alookup]
  have e3 : propGet env st a
      [(PropKey.str "buffer", Desc.data (.vref b) true true true),
       (PropKey.str "byteLength", Desc.data vbl true true true),
       (PropKey.str "byteOffset", Desc.data vbo true true true),
       (PropKey.str "length", Desc.data vl true true true),
       (PropKey.str "BYTES_PER_ELEMENT", Desc.data vbe true true true)]
      (.str "byteOffset") = vbo := by simp [propGet, alookup]
  have e4 : propGet env st a
      [(PropKey.str "buffer", Desc.data (.vref b) true true true),
       (PropKey.str "byteLength", Desc.data vbl true true true),
       (PropKey.str "byteOffset", Desc.data vbo true true true),
       (PropKey.str "length", Desc.data vl true true true),
       (PropKey.str "BYTES_PER_ELEMENT", Desc.data vbe true true true)]
      (.str "length") = vl := by simp [propGet, alookup]
  have e5 : propGet env st a
      [(PropKey.str "buffer", Desc.data (.vref b) true true true),
       (PropKey.str "byteLength", Desc.data vbl true true true),
       (PropKey.str "byteOffset", Desc.data vbo true true true),
       (PropKey.str "length", Desc.data vl true true true),
       (PropKey.str "BYTES_PER_ELEMENT", Desc.data vbe true true true)]
      (.str "BYTES_PER_ELEMENT") = vbe := by simp [propGet, alookup]
  have hbo : bufferLikeCopy env a
      [(PropKey.str "buffer", Desc.data (.vref b) true true true),
       (PropKey.str "byteLength", Desc.data vbl true true true),
       (PropKey.str "byteOffset", Desc.data vbo true true true),
       (PropKey.str "length", Desc.data vl true true true),
       (PropKey.str "BYTES_PER_ELEMENT", Desc.data vbe true true true)]
      st = some (.arrayBuffer bytes) := by
    simp only [bufferLikeCopy, e1, hb]
  cases hpr : env.probe
  case unavailable => exact absurd hpr hprobe
  all_goals (
    simp only [cloneBufferLike, hpr, hbo] at h
    rw [e2, e3, e4, e5, hvbo, hvl, hvbe] at h
    cases h
    refine ⟨cinv_alloc (cinv_alloc hInv),
      Or.inr (Or.inr ⟨a, st.next + 1, _, _, rfl, rfl,
        lookupH_alloc2_old _ _ hwf ho, lookupH_alloc2_second st _ _, ?_⟩)⟩
    exact Or.inr (Or.inr ⟨b, st.next, bytes, vbl, vbo, vl, vbe, rfl, rfl,
      lookupH_alloc2_old _ _ hwf hb, lookupH_alloc2_first st _ _⟩))

theorem lookupH_alloc_old {st : State} {z : Nat} {oz : HObject} (o : HObject)
    (hwf : WF st) (hz : lookupH st.heap z = some oz) :
    lookupH (alloc st o).2.heap z = some oz := by
  have := hwf z oz hz
  rw [lookupH_alloc, if_neg (by omega)]
  exact hz

theorem pshape_to_descRel {S : List (Nat × Nat)} {H : List (Nat × HObject)}
    {props strDone : List (PropKey × Desc)}
    (henum : ∀ p ∈ props, p.2.enum = true)
    (hflags : (props.filter isStrKey).any (fun p => p.2.isAccessor) = false →
      ∀ k v w e c, (PropKey.str k, Desc.data v w e c) ∈ props → w = true ∧ c = true)
    (hF : List.Forall₂ (PShape ((props.filter isStrKey).any (fun p => p.2.isAccessor))
        (fun y x => ValRel S H y x)) strDone (props.filter isStrKey)) :
    List.Forall₂ (fun q2 q1 => (q2 : PropKey × Desc).1 = (q1 : PropKey × Desc).1 ∧
      DescRel S H q2.2 q1.2) strDone (props.filter isStrKey) := by
  refine forall2_imp_mem hF ?_
  intro q2 q1 h2m h1m hr
  refine ⟨hr.1, ?_⟩
  rcases hr.2 with ⟨he, _⟩ | ⟨y, x, w, e, c, h1, h2, hq⟩
  · exact Or.inl he
  · cases hpf : (props.filter isStrKey).any (fun p => p.2.isAccessor) with
    | true =>
      rw [hpf] at h2
      rw [if_pos rfl, if_pos rfl, if_pos rfl] at h2
      exact Or.inr ⟨y, x, w, e, c, h1, h2, hq⟩
    | false =>
      rw [hpf] at h2
      rw [if_neg (by simp), if_neg (by simp), if_neg (by simp)] at h2
      have hq1p : q1 ∈ props := List.mem_of_mem_filter h1m
      have he2 : e = true := by
        have := henum q1 hq1p
        rw [h1] at this
        exact this
      obtain ⟨k, d⟩ := q1
      have hks := (List.mem_filter.1 h1m).2
      cases k with
      | sym i => simp [isStrKey] at hks
      | str s =>
        simp only at h1
        obtain ⟨hw, hc⟩ := hflags hpf s x w e c (by rw [← h1]; exact hq1p)
        subst he2
        subst hw
        subst hc
        exact Or.inr ⟨y, x, true, true, true, h1, h2, hq⟩

theorem pshape_true_to_descRel {S : List (Nat × Nat)} {H : List (Nat × HObject)}
    {strDone src : List (PropKey × Desc)}
    (hF : List.Forall₂ (PShape true (fun y x => ValRel S H y x)) strDone src) :
    List.Forall₂ (fun q2 q1 => (q2 : PropKey × Desc).1 = (q1 : PropKey × Desc).1 ∧
      DescRel S H q2.2 q1.2) strDone src := by
  refine forall2_imp_mem hF ?_
  intro q2 q1 h2m h1m hr
  refine ⟨hr.1, ?_⟩
  rcases hr.2 with ⟨he, _⟩ | ⟨y, x, w, e, c, h1, h2, hq⟩
  · exact Or.inl he
  · rw [if_pos rfl, if_pos rfl, if_pos rfl] at h2
    exact Or.inr ⟨y, x, w, e, c, h1, h2, hq⟩

theorem pshape_transport {pf : Bool} {Q1 Q2 : JSValue → JSValue → Prop}
    {p2 p1 : PropKey × Desc}
    (himp : ∀ y x, Q1 y x → Q2 y x) (h : PShape pf Q1 p2 p1) : PShape pf Q2 p2 p1 := by
  refine ⟨h.1, h.2.imp id ?_⟩
  rintro ⟨y, x, w, e, c, h1, h2, hq⟩
  exact ⟨y, x, w, e, c, h1, h2, himp y x hq⟩

theorem cloneObjRestC {env : Env} {L M : Nat} {P : List Nat} {rec : Rec} {a : Nat}
    {o : HObject} {st : State} {r : JSValue} {st2 : State}
    (hstep : RecStep rec)
    (hrec : ∀ (PP : List Nat) (x : JSValue) st0 y st02, GC2 L M x →
      CInv env L M PP st0 → rec x st0 = .ok y st02 →
      CInv env L M PP st02 ∧ ValRel st02.seen st02.heap y x)
    (hInv : CInv env L M P st) (hmiss : alookup st.seen a = none)
    (haM : L ≤ a ∧ a < M)
    (ho : lookupH st.heap a = some o)
    (h : cloneObjRest rec env a o st = .ok r st2) :
    CInv env L M P st2 ∧ ValRel st2.seen st2.heap r (.vref a) := by
  have hwf := hInv.1
  have hM := hInv.2.2.1
  have ha_lt : a < st.next := hwf a o ho
  obtain ⟨hnorm, hchild⟩ := hInv.2.2.2.2.1 a o haM.1 haM.2 ho
  have hrec2 : ∀ (x : JSValue) st0 y st02, GC2 L M x → CInv env L M (a :: P) st0 →
      rec x st0 = .ok y st02 → CInv env L M (a :: P) st02 ∧ ValRel st02.seen st02.heap y x :=
    fun x st0 y st02 => hrec (a :: P) x st0 y st02
  have hQmono : ∀ st0 st02 (y x : JSValue), CInv env L M (a :: P) st0 →
      ValRel st0.seen st0.heap y x → Step st0 st02 → ValRel st02.seen st02.heap y x :=
    fun st0 st02 y x hI hv hs => valRel_step hs hI.1 hv
  cases o with
  | arr len elems extra => exact absurd h (by simp [cloneObjRest])
  | date ts => exact absurd h (by simp [cloneObjRest])
  | regexp s f => exact absurd h (by simp [cloneObjRest])
  | typedArray kind bufRef off len =>
    obtain ⟨hoff, bytes2, hbuf2, hlen⟩ := hnorm
    subst hoff
    subst hlen
    simp only [cloneObjRest] at h
    split at h
    case _ bytes hbytes =>
      rw [hbuf2] at hbytes
      cases hbytes
      cases h
      have hsl : sliceBytes bytes2 0 (0 + bytes2.length) = bytes2 := by
        rw [Nat.zero_add]
        exact sliceBytes_full bytes2
      rw [hsl]
      refine ⟨cinv_alloc (cinv_alloc hInv),
        Or.inr (Or.inr ⟨a, st.next + 1,
          .typedArray kind bufRef 0 bytes2.length,
          .typedArray kind st.next 0 bytes2.length, rfl, rfl,
          lookupH_alloc2_old _ _ hwf ho,
          lookupH_alloc2_second st _ _, ?_⟩)⟩
      exact Or.inr (Or.inl ⟨kind, bufRef, st.next, bytes2, rfl, rfl,
        lookupH_alloc2_old _ _ hwf hbuf2, lookupH_alloc2_first st _ _⟩)
    all_goals cases h
  | arrayBuffer bytes =>
    simp only [cloneObjRest] at h
    cases h
    refine ⟨cinv_alloc hInv,
      Or.inr (Or.inr ⟨a, st.next, _, _, rfl, rfl,
        lookupH_alloc_old _ hwf ho, by rw [lookupH_alloc, if_pos rfl], ?_⟩)⟩
    exact Or.inl ⟨rfl, trivial⟩
  | set elems =>
    simp only [cloneObjRest] at h
    split at h
    case _ vs st3 hvals =>
      cases h
      have hInv2 := cinv_register (HObject.set []) hInv hmiss haM
      obtain ⟨hInv3, hF⟩ := cloneVals_rel hstep hrec2 hQmono elems _ vs st3 hchild hInv2 hvals
      have hfold := cloneVals_step hstep elems _ vs st3 hvals
      have h2 : st.next + 1 ≤ st3.next := hfold.1
      have hP3 : lookupH st3.heap st.next = some (.set []) := by
        refine hfold.2.1 st.next _ ?_ ?_
        · show st.next < st.next + 1
          omega
        · show lookupH (alloc st (HObject.set [])).2.heap st.next = some (.set [])
          rw [lookupH_alloc, if_pos rfl]
      have hreg3 : alookup st3.seen a = some st.next := by
        refine hfold.2.2.1 a st.next ?_
        show alookup ((a, st.next) :: st.seen) a = some st.next
        rw [alookup_cons, if_pos rfl]
      have hlkA3 : lookupH st3.heap a = some (.set elems) := by
        refine hfold.2.1 a _ ?_ ?_
        · show a < st.next + 1
          omega
        · show lookupH (alloc st (HObject.set [])).2.heap a = some (.set elems)
          exact lookupH_alloc_old _ hwf ho
      refine ⟨cinv_populate hInv3 hP3 rfl (by show st.next < st3.next; omega) hM hreg3
        ⟨.set elems, .set vs, ?_, by rw [lookupH_writeH, if_pos rfl], ?_⟩,
        Or.inr (Or.inl ⟨a, st.next, rfl, rfl, hreg3⟩)⟩
      · rw [lookupH_writeH, if_neg (by simp; omega)]
        exact hlkA3
      · show List.Forall₂ _ vs elems
        exact forall2_imp_mem hF (fun y x _ _ hr => valRel_writeH hP3 rfl hr)
    all_goals cases h
  | map entries =>
    simp only [cloneObjRest] at h
    split at h
    case _ vs st3 hvals =>
      cases h
      have hInv2 := cinv_register (HObject.map []) hInv hmiss haM
      obtain ⟨hInv3, hF⟩ := cloneEntries_rel hstep hrec2 hQmono entries _ vs st3 hchild
        hInv2 hvals
      have hfold := cloneEntries_step hstep entries _ vs st3 hvals
      have h2 : st.next + 1 ≤ st3.next := hfold.1
      have hP3 : lookupH st3.heap st.next = some (.map []) := by
        refine hfold.2.1 st.next _ ?_ ?_
        · show st.next < st.next + 1
          omega
        · show lookupH (alloc st (HObject.map [])).2.heap st.next = some (.map [])
          rw [lookupH_alloc, if_pos rfl]
      have hreg3 : alookup st3.seen a = some st.next := by
        refine hfold.2.2.1 a st.next ?_
        show alookup ((a, st.next) :: st.seen) a = some st.next
        rw [alookup_cons, if_pos rfl]
      have hlkA3 : lookupH st3.heap a = some (.map entries) := by
        refine hfold.2.1 a _ ?_ ?_
        · show a < st.next + 1
          omega
        · show lookupH (alloc st (HObject.map [])).2.heap a = some (.map entries)
          exact lookupH_alloc_old _ hwf ho
      refine ⟨cinv_populate hInv3 hP3 rfl (by show st.next < st3.next; omega) hM hreg3
        ⟨.map entries, .map vs, ?_, by rw [lookupH_writeH, if_pos rfl], ?_⟩,
        Or.inr (Or.inl ⟨a, st.next, rfl, rfl, hreg3⟩)⟩
      · rw [lookupH_writeH, if_neg (by simp; omega)]
        exact hlkA3
      · show List.Forall₂ _ vs entries
        exact forall2_imp_mem hF
          (fun y x _ _ hr => ⟨hr.1, valRel_writeH hP3 rfl hr.2⟩)
    all_goals cases h
  | plain props =>
    simp only [cloneObjRest] at h
    split at h
    case _ hduck => exact cloneBufferLikeC hInv haM ho hduck h
    case _ hduck =>
      have hnd : (hasOwnKey props (.str "buffer") &&
          hasOwnKey props (.str "byteLength")) = false := by
        revert hduck
        cases hasOwnKey props (.str "buffer") && hasOwnKey props (.str "byteLength") <;> simp
      simp only [NormalNode] at hnorm
      rw [if_neg (by rw [hnd]; simp)] at hnorm
      obtain ⟨horder, henum, hflags⟩ := hnorm
      simp only [OnRecChildren] at hchild
      rw [if_neg (by rw [hnd]; simp)] at hchild
      have hstrEnum : (props.filter isStrKey).filter (fun p => p.2.enum) =
          props.filter isStrKey := filter_enum_self isStrKey henum
      have hsymEnum : (props.filter isSymKey).filter (fun p => p.2.enum) =
          props.filter isSymKey := filter_enum_self isSymKey henum
      split at h
      case _ strDone st3 hprops =>
        cases h
        have hInv2 := cinv_register (HObject.plain []) hInv hmiss haM
        have hGf : ∀ p ∈ (props.filter isStrKey).filter (fun p => p.2.enum),
            ∀ v w e c, (p : PropKey × Desc).2 = .data v w e c → GC2 L M v := by
          intro p hp v w e c hd
          rw [hstrEnum] at hp
          have hq1p : p ∈ props := List.mem_of_mem_filter hp
          have hks := (List.mem_filter.1 hp).2
          have he : e = true := by
            have := henum p hq1p
            rw [hd] at this
            exact this
          obtain ⟨k, d⟩ := p
          cases k with
          | sym i => simp [isStrKey] at hks
          | str s =>
            simp only at hd
            subst hd
            subst he
            exact hchild s v w c hq1p
        obtain ⟨hInv3, hF⟩ := cloneProps_rel hstep hrec2 hQmono _ _ strDone st3 hGf
          hInv2 hprops
        have hfold := cloneProps_step hstep _ _ _ strDone st3 hprops
        have h2 : st.next + 1 ≤ st3.next := hfold.1
        have hP3 : lookupH st3.heap st.next = some (.plain []) := by
          refine hfold.2.1 st.next _ ?_ ?_
          · show st.next < st.next + 1
            omega
          · show lookupH (alloc st (HObject.plain [])).2.heap st.next = some (.plain [])
            rw [lookupH_alloc, if_pos rfl]
        have hreg3 : alookup st3.seen a = some st.next := by
          refine hfold.2.2.1 a st.next ?_
          show alookup ((a, st.next) :: st.seen) a = some st.next
          rw [alookup_cons, if_pos rfl]
        have hlkA3 : lookupH st3.heap a = some (.plain props) := by
          refine hfold.2.1 a _ ?_ ?_
          · show a < st.next + 1
            omega
          · show lookupH (alloc st (HObject.plain [])).2.heap a = some (.plain props)
            exact lookupH_alloc_old _ hwf ho
        have hFp : List.Forall₂ (PShape ((props.filter isStrKey).any
            (fun p => p.2.isAccessor))
            (fun y x => ValRel st3.seen st3.heap y x)) strDone
            (props.filter isStrKey) := by
          have hF2 := hF
          rw [hstrEnum] at hF2
          exact hF2
        have hFw : List.Forall₂ (PShape ((props.filter isStrKey).any
            (fun p => p.2.isAccessor))
            (fun y x => ValRel (writeH st3 st.next
              (.plain (((props.filter isSymKey).filter (fun p => p.2.enum)) ++
                strDone))).seen
              (writeH st3 st.next
                (.plain (((props.filter isSymKey).filter (fun p => p.2.enum)) ++
                  strDone))).heap y x)) strDone (props.filter isStrKey) :=
          forall2_imp_mem hFp (fun p2 p1 _ _ hr =>
            pshape_transport (fun y x hq => valRel_writeH hP3 rfl hq) hr)
        have hFdesc := pshape_to_descRel henum hflags hFw
        have hFsym : List.Forall₂ (fun q2 q1 =>
            (q2 : PropKey × Desc).1 = (q1 : PropKey × Desc).1 ∧
            DescRel (writeH st3 st.next
              (.plain (((props.filter isSymKey).filter (fun p => p.2.enum)) ++
                strDone))).seen
              (writeH st3 st.next
                (.plain (((props.filter isSymKey).filter (fun p => p.2.enum)) ++
                  strDone))).heap q2.2 q1.2)
            (props.filter isSymKey) (props.filter isSymKey) :=
          List.forall₂_same.2 (fun q hq => ⟨rfl, Or.inl rfl⟩)
        refine ⟨cinv_populate hInv3 hP3 rfl (by show st.next < st3.next; omega) hM hreg3
          ⟨.plain props, .plain (((props.filter isSymKey).filter (fun p => p.2.enum)) ++
            strDone), ?_, by rw [lookupH_writeH, if_pos rfl], ?_⟩,
          Or.inr (Or.inl ⟨a, st.next, rfl, rfl, hreg3⟩)⟩
        · rw [lookupH_writeH, if_neg (by simp; omega)]
          exact hlkA3
        · show List.Forall₂ _ _ props
          rw [hsymEnum]
          have hFull := forall2_append hFsym hFdesc
          rw [← horder] at hFull
          rw [hsymEnum] at hFull
          exact hFull
      all_goals cases h
  | inst proto props =>
    obtain ⟨hnd, horder, henum⟩ := hnorm
    simp only [cloneObjRest] at h
    split at h
    case _ hduck =>
      rw [hnd] at hduck
      cases hduck
    case _ hduck =>
      have hstrEnum : (props.filter isStrKey).filter (fun p => p.2.enum) =
          props.filter isStrKey := filter_enum_self isStrKey henum
      have hsymEnum : (props.filter isSymKey).filter (fun p => p.2.enum) =
          props.filter isSymKey := filter_enum_self isSymKey henum
      split at h
      case _ strDone st3 hprops =>
        cases h
        have hInv2 := cinv_register (HObject.inst proto []) hInv hmiss haM
        have hGf : ∀ p ∈ (props.filter isStrKey).filter (fun p => p.2.enum),
            ∀ v w e c, (p : PropKey × Desc).2 = .data v w e c → GC2 L M v := by
          intro p hp v w e c hd
          rw [hstrEnum] at hp
          have hq1p : p ∈ props := List.mem_of_mem_filter hp
          have hks := (List.mem_filter.1 hp).2
          have he : e = true := by
            have := henum p hq1p
            rw [hd] at this
            exact this
          obtain ⟨k, d⟩ := p
          cases k with
          | sym i => simp [isStrKey] at hks
          | str s =>
            simp only at hd
            subst hd
            subst he
            exact hchild s v w c hq1p
        obtain ⟨hInv3, hF⟩ := cloneProps_rel hstep hrec2 hQmono _ _ strDone st3 hGf
          hInv2 hprops
        have hfold := cloneProps_step hstep _ _ _ strDone st3 hprops
        have h2 : st.next + 1 ≤ st3.next := hfold.1
        have hP3 : lookupH st3.heap st.next = some (.inst proto []) := by
          refine hfold.2.1 st.next _ ?_ ?_
          · show st.next < st.next + 1
            omega
          · show lookupH (alloc st (HObject.inst proto [])).2.heap st.next =
              some (.inst proto [])
            rw [lookupH_alloc, if_pos rfl]
        have hreg3 : alookup st3.seen a = some st.next := by
          refine hfold.2.2.1 a st.next ?_
          show alookup ((a, st.next) :: st.seen) a = some st.next
          rw [alookup_cons, if_pos rfl]
        have hlkA3 : lookupH st3.heap a = some (.inst proto props) := by
          refine hfold.2.1 a _ ?_ ?_
          · show a < st.next + 1
            omega
          · show lookupH (alloc st (HObject.inst proto [])).2.heap a =
              some (.inst proto props)
            exact lookupH_alloc_old _ hwf ho
        have hFp : List.Forall₂ (PShape true
            (fun y x => ValRel st3.seen st3.heap y x)) strDone
            (props.filter isStrKey) := by
          have hF2 := hF
          rw [hstrEnum] at hF2
          exact hF2
        have hFw : List.Forall₂ (PShape true
            (fun y x => ValRel (writeH st3 st.next
              (.inst proto (strDone ++
                ((props.filter isSymKey).filter (fun p => p.2.enum))))).seen
              (writeH st3 st.next
                (.inst proto (strDone ++
                  ((props.filter isSymKey).filter (fun p => p.2.enum))))).heap y x))
            strDone (props.filter isStrKey) :=
          forall2_imp_mem hFp (fun p2 p1 _ _ hr =>
            pshape_transport (fun y x hq => valRel_writeH hP3 rfl hq) hr)
        have hFdesc := pshape_true_to_descRel hFw
        have hFsym : List.Forall₂ (fun q2 q1 =>
            (q2 : PropKey × Desc).1 = (q1 : PropKey × Desc).1 ∧
            DescRel (writeH st3 st.next
              (.inst proto (strDone ++
                ((props.filter isSymKey).filter (fun p => p.2.enum))))).seen
              (writeH st3 st.next
                (.inst proto (strDone ++
                  ((props.filter isSymKey).filter (fun p => p.2.enum))))).heap q2.2 q1.2)
            (props.filter isSymKey) (props.filter isSymKey) :=
          List.forall₂_same.2 (fun q hq => ⟨rfl, Or.inl rfl⟩)
        refine ⟨cinv_populate hInv3 hP3 rfl (by show st.next < st3.next; omega) hM hreg3
          ⟨.inst proto props, .inst proto (strDone ++
            ((props.filter isSymKey).filter (fun p => p.2.enum))),
            ?_, by rw [lookupH_writeH, if_pos rfl], ?_⟩,
          Or.inr (Or.inl ⟨a, st.next, rfl, rfl, hreg3⟩)⟩
        · rw [lookupH_writeH, if_neg (by simp; omega)]
          exact hlkA3
        · refine ⟨rfl, ?_⟩
          show List.Forall₂ _ _ props
          rw [hsymEnum]
          have hFull := forall2_append hFdesc hFsym
          rw [← horder] at hFull
          rw [hsymEnum] at hFull
          exact hFull
      all_goals cases h

theorem cloneObjC {env : Env} {L M : Nat} {P : List Nat} {rec : Rec} {a : Nat}
    {o : HObject} {st : State} {r : JSValue} {st2 : State}
    (hstep : RecStep rec)
    (hrec : ∀ (PP : List Nat) (x : JSValue) st0 y st02, GC2 L M x →
      CInv env L M PP st0 → rec x st0 = .ok y st02 →
      CInv env L M PP st02 ∧ ValRel st02.seen st02.heap y x)
    (hInv : CInv env L M P st) (hmiss : alookup st.seen a = none)
    (haM : L ≤ a ∧ a < M)
    (ho : lookupH st.heap a = some o)
    (h : cloneObj rec env a o st = .ok r st2) :
    CInv env L M P st2 ∧ ValRel st2.seen st2.heap r (.vref a) := by
  have hwf := hInv.1
  have hM := hInv.2.2.1
  have ha_lt : a < st.next := hwf a o ho
  obtain ⟨hnorm, hchild⟩ := hInv.2.2.2.2.1 a o haM.1 haM.2 ho
  have hrec2 : ∀ (x : JSValue) st0 y st02, GC2 L M x → CInv env L M (a :: P) st0 →
      rec x st0 = .ok y st02 → CInv env L M (a :: P) st02 ∧ ValRel st02.seen st02.heap y x :=
    fun x st0 y st02 => hrec (a :: P) x st0 y st02
  have hQmono : ∀ st0 st02 (y x : JSValue), CInv env L M (a :: P) st0 →
      ValRel st0.seen st0.heap y x → Step st0 st02 → ValRel st02.seen st02.heap y x :=
    fun st0 st02 y x hI hv hs => valRel_step hs hI.1 hv
  cases o with
  | arr len elems extra =>
    obtain ⟨hext, hkeys1⟩ := hnorm
    subst hext
    have hGs : ∀ i x, alookup elems i = some x → GC2 L M x := by
      intro i x hx
      obtain ⟨p, hp, hpx⟩ := List.mem_map.1 (alookup_mem_values hx)
      exact hpx ▸ hchild p hp
    have hGd : ∀ i, GC2 L M ((alookup elems i).getD .vundefined) := by
      intro i
      cases hx : alookup elems i with
      | none =>
        intro b hb
        cases hb
      | some x => exact hGs i x hx
    have hInv2 := cinv_register (HObject.arr len [] []) hInv hmiss haM
    simp only [cloneObj] at h
    split at h
    · split at h
      case _ es st3 hf =>
        cases h
        obtain ⟨hInv3, hall⟩ := cloneSparse_rel hstep hrec2 hQmono hGs
          (List.range len) _ es st3 hInv2 hf
        have hfold := cloneSparse_step hstep elems _ _ es st3 hf
        have h2 : st.next + 1 ≤ st3.next := hfold.1
        have hP3 : lookupH st3.heap st.next = some (.arr len [] []) := by
          refine hfold.2.1 st.next _ ?_ ?_
          · show st.next < st.next + 1
            omega
          · show lookupH (alloc st (HObject.arr len [] [])).2.heap st.next =
              some (.arr len [] [])
            rw [lookupH_alloc, if_pos rfl]
        have hreg3 : alookup st3.seen a = some st.next := by
          refine hfold.2.2.1 a st.next ?_
          show alookup ((a, st.next) :: st.seen) a = some st.next
          rw [alookup_cons, if_pos rfl]
        have hlkA3 : lookupH st3.heap a = some (.arr len elems []) := by
          refine hfold.2.1 a _ ?_ ?_
          · show a < st.next + 1
            omega
          · show lookupH (alloc st (HObject.arr len [] [])).2.heap a =
              some (.arr len elems [])
            exact lookupH_alloc_old _ hwf ho
        refine ⟨cinv_populate hInv3 hP3 ⟨rfl, rfl⟩ (by show st.next < st3.next; omega)
          hM hreg3 ⟨.arr len elems [], .arr len es [], ?_,
            by rw [lookupH_writeH, if_pos rfl], ?_⟩,
          Or.inr (Or.inl ⟨a, st.next, rfl, rfl, hreg3⟩)⟩
        · rw [lookupH_writeH, if_neg (by simp; omega)]
          exact hlkA3
        · refine ⟨rfl, rfl, (cloneSparse_keys hf).trans hkeys1.symm, ?_⟩
          intro p hp
          obtain ⟨x, hx, hv⟩ := hall p hp
          exact ⟨x, hx, valRel_writeH hP3 ⟨rfl, rfl⟩ hv⟩
      all_goals cases h
    · split at h
      case isTrue hdense =>
        split at h
        case _ es st3 hf =>
          cases h
          obtain ⟨hInv3, hall⟩ := cloneDense_rel hstep hrec2 hQmono hGd
            (List.range len) _ es st3 hInv2 hf
          have hfold := cloneDense_step hstep elems _ _ es st3 hf
          have h2 : st.next + 1 ≤ st3.next := hfold.1
          have hP3 : lookupH st3.heap st.next = some (.arr len [] []) := by
            refine hfold.2.1 st.next _ ?_ ?_
            · show st.next < st.next + 1
              omega
            · show lookupH (alloc st (HObject.arr len [] [])).2.heap st.next =
                some (.arr len [] [])
              rw [lookupH_alloc, if_pos rfl]
          have hreg3 : alookup st3.seen a = some st.next := by
            refine hfold.2.2.1 a st.next ?_
            show alookup ((a, st.next) :: st.seen) a = some st.next
            rw [alookup_cons, if_pos rfl]
          have hlkA3 : lookupH st3.heap a = some (.arr len elems []) := by
            refine hfold.2.1 a _ ?_ ?_
            · show a < st.next + 1
              omega
            · show lookupH (alloc st (HObject.arr len [] [])).2.heap a =
                some (.arr len elems [])
              exact lookupH_alloc_old _ hwf ho
          have helen : elems.length = len := by simpa using hdense
          have hrange : (List.range len).filter (fun i => (alookup elems i).isSome) =
              List.range len := by
            refine List.Sublist.eq_of_length (List.filter_sublist _) ?_
            rw [List.length_range, ← hkeys1, List.length_map, helen]
          have hkeysall : elems.map Prod.fst = List.range len := hkeys1.trans hrange
          refine ⟨cinv_populate hInv3 hP3 ⟨rfl, rfl⟩ (by show st.next < st3.next; omega)
            hM hreg3 ⟨.arr len elems [], .arr len es [], ?_,
              by rw [lookupH_writeH, if_pos rfl], ?_⟩,
            Or.inr (Or.inl ⟨a, st.next, rfl, rfl, hreg3⟩)⟩
          · rw [lookupH_writeH, if_neg (by simp; omega)]
            exact hlkA3
          · refine ⟨rfl, rfl, (cloneDense_keys hf).trans hkeysall.symm, ?_⟩
            intro p hp
            have hpk : p.1 ∈ elems.map Prod.fst := by
              rw [hkeysall, ← cloneDense_keys hf]
              exact List.mem_map.2 ⟨p, hp, rfl⟩
            obtain ⟨x, hx⟩ := Option.isSome_iff_exists.1 ((alookup_isSome_iff_mem _ _).2 hpk)
            refine ⟨x, hx, ?_⟩
            have hv := hall p hp
            rw [hx] at hv
            exact valRel_writeH hP3 ⟨rfl, rfl⟩ hv
        all_goals cases h
      case isFalse hnd2 =>
        split at h
        case _ es st3 hf =>
          cases h
          obtain ⟨hInv3, hall⟩ := cloneSparse_rel hstep hrec2 hQmono hGs
            (List.range len) _ es st3 hInv2 hf
          have hfold := cloneSparse_step hstep elems _ _ es st3 hf
          have h2 : st.next + 1 ≤ st3.next := hfold.1
          have hP3 : lookupH st3.heap st.next = some (.arr len [] []) := by
            refine hfold.2.1 st.next _ ?_ ?_
            · show st.next < st.next + 1
              omega
            · show lookupH (alloc st (HObject.arr len [] [])).2.heap st.next =
                some (.arr len [] [])
              rw [lookupH_alloc, if_pos rfl]
          have hreg3 : alookup st3.seen a = some st.next := by
            refine hfold.2.2.1 a st.next ?_
            show alookup ((a, st.next) :: st.seen) a = some st.next
            rw [alookup_cons, if_pos rfl]
          have hlkA3 : lookupH st3.heap a = some (.arr len elems []) := by
            refine hfold.2.1 a _ ?_ ?_
            · show a < st.next + 1
              omega
            · show lookupH (alloc st (HObject.arr len [] [])).2.heap a =
                some (.arr len elems [])
              exact lookupH_alloc_old _ hwf ho
          refine ⟨cinv_populate hInv3 hP3 ⟨rfl, rfl⟩ (by show st.next < st3.next; omega)
            hM hreg3 ⟨.arr len elems [], .arr len es [], ?_,
              by rw [lookupH_writeH, if_pos rfl], ?_⟩,
            Or.inr (Or.inl ⟨a, st.next, rfl, rfl, hreg3⟩)⟩
          · rw [lookupH_writeH, if_neg (by simp; omega)]
            exact hlkA3
          · refine ⟨rfl, rfl, (cloneSparse_keys hf).trans hkeys1.symm, ?_⟩
            intro p hp
            obtain ⟨x, hx, hv⟩ := hall p hp
            exact ⟨x, hx, valRel_writeH hP3 ⟨rfl, rfl⟩ hv⟩
        all_goals cases h
  | date ts =>
    simp only [cloneObj] at h
    cases h
    refine ⟨cinv_alloc hInv,
      Or.inr (Or.inr ⟨a, st.next, .date ts, .date ts, rfl, rfl,
        lookupH_alloc_old _ hwf ho, by rw [lookupH_alloc, if_pos rfl],
        Or.inl ⟨rfl, trivial⟩⟩)⟩
  | regexp s f =>
    simp only [cloneObj] at h
    cases h
    refine ⟨cinv_alloc hInv,
      Or.inr (Or.inr ⟨a, st.next, .regexp s f, .regexp s f, rfl, rfl,
        lookupH_alloc_old _ hwf ho, by rw [lookupH_alloc, if_pos rfl],
        Or.inl ⟨rfl, trivial⟩⟩)⟩
  | typedArray kind bufRef off len =>
    obtain ⟨hoff, bytes2, hbuf2, hlen⟩ := hnorm
    subst hoff
    subst hlen
    simp only [cloneObj] at h
    split at h
    · cases h
    · split at h
      case _ hnb =>
        have hk : kind = .nodeBuf := by simpa [isNodeBuffer] using hnb
        subst hk
        simp only [cloneNodeBuffer] at h
        split at h
        case _ bytes hbytes =>
          rw [hbuf2] at hbytes
          cases hbytes
          cases h
          have hsl : sliceBytes bytes2 0 (0 + bytes2.length) = bytes2 := by
            rw [Nat.zero_add]
            exact sliceBytes_full bytes2
          rw [hsl]
          refine ⟨cinv_alloc (cinv_alloc hInv),
            Or.inr (Or.inr ⟨a, st.next + 1,
              .typedArray .nodeBuf bufRef 0 bytes2.length,
              .typedArray .nodeBuf st.next 0 bytes2.length, rfl, rfl,
              lookupH_alloc2_old _ _ hwf ho,
              lookupH_alloc2_second st _ _, ?_⟩)⟩
          exact Or.inr (Or.inl ⟨.nodeBuf, bufRef, st.next, bytes2, rfl, rfl,
            lookupH_alloc2_old _ _ hwf hbuf2, lookupH_alloc2_first st _ _⟩)
        all_goals cases h
      · exact cloneObjRestC hstep hrec hInv hmiss haM ho h
    · exact cloneObjRestC hstep hrec hInv hmiss haM ho h
  | arrayBuffer bytes =>
    simp only [cloneObj] at h
    split at h
    · cases h
    · split at h
      · simp only [cloneNodeBuffer] at h
        cases h
      · exact cloneObjRestC hstep hrec hInv hmiss haM ho h
    · exact cloneObjRestC hstep hrec hInv hmiss haM ho h
  | set elems =>
    simp only [cloneObj] at h
    split at h
    · cases h
    · split at h
      · simp only [cloneNodeBuffer] at h
        cases h
      · exact cloneObjRestC hstep hrec hInv hmiss haM ho h
    · exact cloneObjRestC hstep hrec hInv hmiss haM ho h
  | map entries =>
    simp only [cloneObj] at h
    split at h
    · cases h
    · split at h
      · simp only [cloneNodeBuffer] at h
        cases h
      · exact cloneObjRestC hstep hrec hInv hmiss haM ho h
    · exact cloneObjRestC hstep hrec hInv hmiss haM ho h
  | plain props =>
    simp only [cloneObj] at h
    split at h
    · cases h
    · split at h
      · simp only [cloneNodeBuffer] at h
        cases h
      · exact cloneObjRestC hstep hrec hInv hmiss haM ho h
    · exact cloneObjRestC hstep hrec hInv hmiss haM ho h
  | inst proto props =>
    simp only [cloneObj] at h
    split at h
    · cases h
    · split at h
      · simp only [cloneNodeBuffer] at h
        cases h
      · exact cloneObjRestC hstep hrec hInv hmiss haM ho h
    · exact cloneObjRestC hstep hrec hInv hmiss haM ho h

/-- The second run on a frozen normal band `[L, M)` establishes, for every
registered original, a component-wise copied target, and relates its
result to its argument. -/
theorem internalDeepCloneC (env : Env) (L M : Nat) :
    ∀ fuel (P : List Nat) x st r st2, internalDeepClone fuel env x st = .ok r st2 →
      GC2 L M x → CInv env L M P st →
      CInv env L M P st2 ∧ ValRel st2.seen st2.heap r x := by
  intro fuel
  induction fuel with
  | zero =>
    intro P x st r st2 h
    cases h
  | succ fuel ih =>
    intro P x st r st2 h hx hInv
    cases x with
    | vref a =>
      simp only [internalDeepClone] at h
      split at h
      case _ t hhit =>
        cases h
        exact ⟨hInv, Or.inr (Or.inl ⟨a, t, rfl, rfl, hhit⟩)⟩
      case _ hmiss =>
        split at h
        · cases h
        case _ o ho =>
          exact cloneObjC
            (fun v2 st0 r2 st02 h2 => internalDeepClone_step fuel env v2 st0 r2 st02 h2)
            (fun PP x2 st0 y st02 hg hI h0 => ih PP x2 st0 y st02 h0 hg hI)
            hInv hmiss (hx a rfl) ho h
    | vundefined => cases h; exact ⟨hInv, Or.inl rfl⟩
    | vnull => cases h; exact ⟨hInv, Or.inl rfl⟩
    | vbool b2 => cases h; exact ⟨hInv, Or.inl rfl⟩
    | vnum n => cases h; exact ⟨hInv, Or.inl rfl⟩
    | vstr s => cases h; exact ⟨hInv, Or.inl rfl⟩
    | vsym i => cases h; exact ⟨hInv, Or.inl rfl⟩
    | vbig n => cases h; exact ⟨hInv, Or.inl rfl⟩
    | vfunc i => cases h; exact ⟨hInv, Or.inl rfl⟩

/-! ### From the copy relations to structural equality -/

theorem structEqF_bufPair {H : List (Nat × HObject)} {b1 b2 : Nat} {bytes : List Nat}
    (h1 : lookupH H b1 = some (.arrayBuffer bytes))
    (h2 : lookupH H b2 = some (.arrayBuffer bytes)) :
    ∀ n, structEqF n H (.vref b2) (.vref b1) = true := by
  intro n
  cases n with
  | zero => rfl
  | succ n =>
    simp only [structEqF]
    rw [h2, h1]
    simp [nodeEqF]

theorem nodeEqF_of_atomic {H : List (Nat × HObject)} {o2 o1 : HObject}
    (h : AtomicNodeCopy H o2 o1) (n : Nat) :
    nodeEqF (structEqF n H) o2 o1 = true := by
  rcases h with ⟨he, _⟩ | ⟨kind, b1, b2, bytes, h1, h2, h3, h4⟩ |
    ⟨b1, b2, bytes, vbl, vbo, vl, vbe, h1, h2, h3, h4⟩
  · subst he
    exact nodeEqF_refl (structEqF_refl H n)
  · subst h1
    subst h2
    simp only [nodeEqF, Bool.and_eq_true]
    refine ⟨⟨⟨by simp, by simp⟩, by simp⟩, ?_⟩
    exact structEqF_bufPair h3 h4 n
  · subst h1
    subst h2
    simp [nodeEqF, allZip, descEqF, structEqF_bufPair h3 h4 n, structEqF_refl H n]

theorem descEqF_of_descRel {S : List (Nat × Nat)} {H : List (Nat × HObject)} {n : Nat}
    {d2 d1 : Desc}
    (ih : ∀ y x, ValRel S H y x → structEqF n H y x = true)
    (h : DescRel S H d2 d1) : descEqF (structEqF n H) d2 d1 = true := by
  rcases h with he | ⟨y, x, w, e, c, h1, h2, hv⟩
  · subst he
    exact descEqF_refl (structEqF_refl H n)
  · subst h1
    subst h2
    simp only [descEqF, Bool.and_eq_true]
    exact ⟨⟨⟨ih y x hv, by simp⟩, by simp⟩, by simp⟩

theorem nodeEqF_of_nodeCopy {env : Env} {S : List (Nat × Nat)}
    {H : List (Nat × HObject)} {n : Nat} {o2 o1 : HObject}
    (ih : ∀ y x, ValRel S H y x → structEqF n H y x = true)
    (hnc : NodeCopy S H o2 o1) (hno1 : NormalNode env H o1) :
    nodeEqF (structEqF n H) o2 o1 = true := by
  cases o2 <;> cases o1 <;> simp only [NodeCopy] at hnc <;> try exact absurd hnc id
  · -- arrays
    obtain ⟨hlen, hext, hkeys, hlook⟩ := hnc
    obtain ⟨hext1, hkn⟩ := hno1
    subst hlen
    subst hext
    subst hext1
    rename_i len elems2 elems1
    simp only [nodeEqF, Bool.and_eq_true]
    refine ⟨⟨by simp, ?_⟩, by simp [allZip]⟩
    have hnd : (elems1.map Prod.fst).Nodup := by
      rw [hkn]
      exact (List.nodup_range len).filter _
    have hF := forall2_of_keys_lookup hkeys hnd hlook
    refine allZip_of_forall2 hF ?_
    intro p2 p1 hr
    simp only [Bool.and_eq_true]
    exact ⟨by rw [hr.1]; simp, ih p2.2 p1.2 hr.2⟩
  · -- sets
    exact allZip_of_forall2 hnc (fun y x hr => ih y x hr)
  · -- maps
    refine allZip_of_forall2 hnc ?_
    intro p2 p1 hr
    simp only [Bool.and_eq_true]
    refine ⟨?_, ih p2.2 p1.2 hr.2⟩
    rw [hr.1]
    exact structEqF_refl H n p1.1
  · -- plain objects
    refine allZip_of_forall2 hnc ?_
    intro q2 q1 hr
    simp only [Bool.and_eq_true]
    exact ⟨by rw [hr.1]; simp, descEqF_of_descRel ih hr.2⟩
  · -- class instances
    obtain ⟨hpr, hF⟩ := hnc
    subst hpr
    simp only [nodeEqF, Bool.and_eq_true]
    refine ⟨by simp, ?_⟩
    refine allZip_of_forall2 hF ?_
    intro q2 q1 hr
    simp only [Bool.and_eq_true]
    exact ⟨by rw [hr.1]; simp, descEqF_of_descRel ih hr.2⟩

/-- Any value related to its original by `ValRel`, in a state whose
seen map is fully matched over a normal band, is structurally equal to
it at every depth. -/
theorem valRel_structEq {env : Env} {L M : Nat} {st : State}
    (hG : GoodRegionC env L M st.heap)
    (hK : ∀ k t, alookup st.seen k = some t → L ≤ k ∧ k < M)
    (hMa : ∀ k t, alookup st.seen k = some t → MatchE st.seen st.heap k t) :
    ∀ n y x, ValRel st.seen st.heap y x → structEqF n st.heap y x = true := by
  intro n
  induction n with
  | zero =>
    intro y x _
    rfl
  | succ n ih =>
    intro y x hv
    rcases hv with he | ⟨b, tb, hx, hy, hseen⟩ | ⟨b, tb, o1, o2, hx, hy, h1, h2, hat⟩
    · subst he
      exact structEqF_refl st.heap (n + 1) _
    · subst hx
      subst hy
      obtain ⟨o1, o2, hl1, hl2, hnc⟩ := hMa b tb hseen
      simp only [structEqF]
      rw [hl2, hl1]
      obtain ⟨hb1, hb2⟩ := hK b tb hseen
      obtain ⟨hno1, _⟩ := hG b o1 hb1 hb2 hl1
      exact nodeEqF_of_nodeCopy ih hnc hno1
    · subst hx
      subst hy
      simp only [structEqF]
      rw [h2, h1]
      exact nodeEqF_of_atomic hat n

/-- C9: cloning is idempotent up to structural equality — for every
value `v` over a well-formed heap, if `clone(v)` succeeds with result
`r1` and `clone(r1)` succeeds with result `r2`, then `r2` is
structurally equal to `r1` at every unfolding depth (graph
bisimilarity): the clone of a clone reproduces the clone's length,
keys, descriptors, entries, bytes, prototypes and sharing structure
exactly. -/
theorem C9_idempotent_shape (fuel1 fuel2 : Nat) (env : Env) (v : JSValue)
    (st : State) (r1 : JSValue) (st1 : State) (r2 : JSValue) (st2 : State)
    (hwf : WF st)
    (h1 : deepClone fuel1 env v st = .ok r1 st1)
    (h2 : deepClone fuel2 env r1 st1 = .ok r2 st2) :
    ∀ n, structEqF n st2.heap r2 r1 = true := by
  simp only [deepClone] at h1 h2
  have hNInv0 : NInv env st.next { st with seen := [] } := by
    refine ⟨fun a o h => hwf a o h, ⟨fun k t h => (by cases h),
      fun k1 k2 t h _ => (by cases h)⟩, le_refl _, fun k t h => (by cases h), ?_⟩
    intro a o ha hlk
    exact absurd (hwf a o hlk) (by omega)
  obtain ⟨hNInv1, hQ1⟩ := internalDeepCloneN env st.next fuel1 v _ r1 st1 h1 hNInv0
  obtain ⟨hwf1, hsi1, hL1, hT1, hG1⟩ := hNInv1
  have hCInv0 : CInv env st.next st1.next [] { st1 with seen := [] } := by
    refine ⟨fun a o h => hwf1 a o h, ⟨fun k t h => (by cases h),
      fun k1 k2 t h _ => (by cases h)⟩, le_refl _, fun k t h => (by cases h), ?_,
      fun k t h => (by cases h)⟩
    intro a o ha haM hlk
    exact hG1 a o ha hlk
  obtain ⟨hCInv2, hVR⟩ := internalDeepCloneC env st.next st1.next fuel2 [] r1 _ r2 st2
    h2 hQ1 hCInv0
  obtain ⟨hwf2, hsi2, hM2, hK2, hG2, hCM2⟩ := hCInv2
  intro n
  refine valRel_structEq hG2 hK2 ?_ n r2 r1 hVR
  intro k t hk
  rcases hCM2 k t hk with hp | hm
  · cases hp
  · exact hm

/-- Final state of the first clone of the cyclic `{a: 1, self: v}`. -/
def c9st1 : State :=
  { heap := [(1, .plain [(.str "a", .data (.vnum 1) true true true),
                         (.str "self", .data (.vref 1) true true true)]),
             (1, .plain []),
             (0, .plain [(.str "a", .data (.vnum 1) true true true),
                         (.str "self", .data (.vref 0) true true true)])],
    seen := [(0, 1)], cells := [], next := 2 }

/-- Final state of the second clone (the clone of the clone). -/
def c9st2 : State :=
  { heap := [(2, .plain [(.str "a", .data (.vnum 1) true true true),
                         (.str "self", .data (.vref 2) true true true)]),
             (2, .plain []),
             (1, .plain [(.str "a", .data (.vnum 1) true true true),
                         (.str "self", .data (.vref 1) true true true)]),
             (1, .plain []),
             (0, .plain [(.str "a", .data (.vnum 1) true true true),
                         (.str "self", .data (.vref 0) true true true)])],
    seen := [(1, 2)], cells := [], next := 3 }

theorem C9_idempotent_shape_witness :
    structEqF 4 c9st2.heap (.vref 2) (.vref 1) = true :=
  C9_idempotent_shape 10 10 envA (.vref 0) cycState (.vref 1) c9st1 (.vref 2) c9st2
    (by intro a o hlk
        show a < 1
        by_cases h0 : (0 : Nat) = a
        · omega
        · simp [cycState, lookupH, alookup, h0] at hlk)
    (by decide) (by decide) 4
